import Mathlib

/-!
The document indexing and section locating core of mymindmap.

A shallow embedding of the text-processing core of `start.js` and `build-docs.js`:

* `renderLatex` (both files): the math-segment protector,
* `scanDirectory` (both files): the document tree scanner,
* `parseTOC` (`start.js`): the heading extractor,
* `findNode` (both viewer pages): the section locator's search,
* `processDocs` and `generateNavStructure` (`build-docs.js`): the static site emitter,
* `jumpToSection` (both viewer pages): the retry policy and the centring of a node.

The code of the two viewer pages (`findNode`, `jumpToSection`) is text inside a template
literal of the server (`start.js`, lines 192 to 496, and `build-docs.js`, lines 245 to 517).
The definitions follow the text of the page that the browser runs, in which an escape such as
`\s` or `\(` of the source has lost its backslash.

JavaScript strings are modelled as lists of characters.  Every regular expression of the
source is modelled by the function that tries it at the head of the remaining input
(`Regex`), and `String.prototype.replace` with a global regular expression by `replace`,
which scans the input from left to right exactly as the runtime does.
-/

namespace MyMindmap

/-! ## JavaScript strings -/

/-- A JavaScript string, as the list of its characters. -/
abbrev Str := List Char

/-- The class `\s` of a JavaScript regular expression, which is also what `trim` removes:
the ECMAScript WhiteSpace and LineTerminator code points. -/
def isSpace (c : Char) : Bool :=
  c.toNat = 0x09 || c.toNat = 0x0A || c.toNat = 0x0B || c.toNat = 0x0C || c.toNat = 0x0D ||
  c.toNat = 0x20 || c.toNat = 0xA0 || c.toNat = 0x1680 ||
  (0x2000 ≤ c.toNat && c.toNat ≤ 0x200A) ||
  c.toNat = 0x2028 || c.toNat = 0x2029 || c.toNat = 0x202F || c.toNat = 0x205F ||
  c.toNat = 0x3000 || c.toNat = 0xFEFF

/-- The ECMAScript line terminators, the characters that `.` does not match. -/
def isLineTerminator (c : Char) : Bool :=
  c.toNat = 0x0A || c.toNat = 0x0D || c.toNat = 0x2028 || c.toNat = 0x2029

/-- The class `\w` of a JavaScript regular expression: `[A-Za-z0-9_]`. -/
def isWord (c : Char) : Bool :=
  (0x41 ≤ c.toNat && c.toNat ≤ 0x5A) || (0x61 ≤ c.toNat && c.toNat ≤ 0x7A) ||
  (0x30 ≤ c.toNat && c.toNat ≤ 0x39) || c.toNat = 0x5F

/-- The class `一-龥` of the id pattern. -/
def isCJK (c : Char) : Bool :=
  0x4E00 ≤ c.toNat && c.toNat ≤ 0x9FA5

/-- `String.prototype.trim`: drops the leading and the trailing `isSpace` characters. -/
def trim (s : Str) : Str :=
  ((s.dropWhile isSpace).reverse.dropWhile isSpace).reverse

/-- `String.prototype.toLowerCase` as `makeId` calls it, on the ASCII letters; every other
character is kept.  (The runtime also folds non-ASCII letters; the digits, `_`, `-` and the
CJK range that the id pattern lets through are fixed by it.  The viewer pages call
`Runtime.toLowerCase`.) -/
def toLowerCase (s : Str) : Str :=
  s.map Char.toLower

/-- The two functions of the browser that the viewer pages call and that are not spelled out
here: `String.prototype.toLowerCase`, which follows the case tables of Unicode, and
`parseFloat`, whose result is `none` for `NaN` (the infinities are left out).  Each comes with
the one law that is used: on a string of ASCII characters `toLowerCase` folds the letters `A`
to `Z` and keeps every other character, and a string that starts with `(` holds no number. -/
structure Runtime where
  /-- `String.prototype.toLowerCase`. -/
  toLowerCase : Str → Str
  /-- `parseFloat`, with `none` for `NaN`. -/
  parseFloat : Str → Option ℚ
  /-- On ASCII characters `toLowerCase` is the fold of the letters `A` to `Z`. -/
  toLowerCase_ascii : ∀ s : Str, s.all (fun c => decide (c.toNat < 128)) = true →
    toLowerCase s = s.map Char.toLower
  /-- No number starts with an opening parenthesis. -/
  parseFloat_paren : ∀ s : Str, parseFloat ('(' :: s) = none

/-- The number that a run of decimal digits writes. -/
def digitsValue (digits : Str) : ℕ :=
  digits.foldl (fun n c => 10 * n + (c.toNat - 48)) 0

/-- A runtime for the examples: `toLowerCase` folds the ASCII letters only, and `parseFloat`
reads a leading run of decimal digits (`NaN` when there is none). -/
def asciiRuntime : Runtime where
  toLowerCase := fun s => s.map Char.toLower
  parseFloat := fun s =>
    if s.takeWhile Char.isDigit = [] then none
    else some ((digitsValue (s.takeWhile Char.isDigit) : ℕ) : ℚ)
  toLowerCase_ascii := fun _ _ => rfl
  parseFloat_paren := fun _ => rfl

/-- `String.prototype.includes`: `sub` occurs in `s` as a contiguous substring. -/
def includes : Str → Str → Bool
  | [], sub => sub.isEmpty
  | c :: cs, sub => sub.isPrefixOf (c :: cs) || includes cs sub

/-- `String.prototype.endsWith`. -/
def endsWith (s suffix : Str) : Bool :=
  suffix.reverse.isPrefixOf s.reverse

/-- `String.prototype.split('\n')`: the segments between the line feeds; the empty string
has the single segment `""`. -/
def splitLines : Str → List Str
  | [] => [[]]
  | c :: cs =>
    if c = '\n' then [] :: splitLines cs
    else
      match splitLines cs with
      | l :: ls => (c :: l) :: ls
      | [] => [[c]]

/-! ## Regular expressions and global replace -/

/-- A regular expression, given by its attempt at the head of the remaining input: on a match
it returns the text of capture group 1 (empty when the pattern has no group) and the length
of the match.  Every pattern of the source matches at least one character. -/
abbrev Regex := Str → Option (Str × Nat)

/-- The scan of `s.replace(re, f)` for a global `re`.  The counter is the number of characters
still covered by the last match: they are skipped.  At any other position the pattern is
tried; on a match the callback's result is emitted and the scan resumes after the match, and
otherwise the character is copied and the scan moves one position on. -/
def gsub (re : Regex) (f : Str → Str) : Nat → Str → Str
  | _, [] => []
  | 0, c :: cs =>
    match re (c :: cs) with
    | some (group, n) => f group ++ gsub re f (n - 1) cs
    | none => c :: gsub re f 0 cs
  | k + 1, _ :: cs => gsub re f k cs

/-- The call `s.replace(re, f)` for a global regular expression `re`. -/
def replace (re : Regex) (f : Str → Str) (s : Str) : Str :=
  gsub re f 0 s

/-- The number of matches that the scan of `s.replace(re, f)` replaces. -/
def gcount (re : Regex) : Nat → Str → Nat
  | _, [] => 0
  | 0, c :: cs =>
    match re (c :: cs) with
    | some (_, n) => gcount re (n - 1) cs + 1
    | none => gcount re 0 cs
  | k + 1, _ :: cs => gcount re k cs

/-- The number of matches of the global regular expression `re` in `s`. -/
def matchCount (re : Regex) (s : Str) : Nat :=
  gcount re 0 s

/-- A pattern that is a literal string, such as `/\\displaystyle/`, `/\r\n/` or `/&amp;/`. -/
def reLit (pat : Str) : Regex := fun s =>
  if pat ≠ [] ∧ pat.isPrefixOf s then some ([], pat.length) else none

/-- The pattern `/\s+/`: a maximal run of `\s` characters (the quantifier is greedy). -/
def reSpaces : Regex := fun s =>
  if s.takeWhile isSpace = [] then none else some ([], (s.takeWhile isSpace).length)

/-- The pattern `/\$\$([^$]+?)\$\$/`.  The group cannot hold a `$` and is followed by one, so
the lazy quantifier stops exactly at the first `$` after the opening pair: the group is the
whole run up to it, must not be empty, and must be followed by `$$`. -/
def reBlockMath : Regex
  | '$' :: '$' :: rest =>
    match rest.dropWhile (fun c => c != '$') with
    | '$' :: '$' :: _ =>
      if rest.takeWhile (fun c => c != '$') = [] then none
      else some (rest.takeWhile (fun c => c != '$'), (rest.takeWhile (fun c => c != '$')).length + 4)
    | _ => none
  | _ => none

/-- The pattern `/\$([^$\n]+?)\$/`: as `reBlockMath` with single delimiters, and the group
holds no line feed either, so the run stops at the first `$` or line feed and must be
followed by a `$`. -/
def reInlineMath : Regex
  | '$' :: rest =>
    match rest.dropWhile (fun c => c != '$' && c != '\n') with
    | '$' :: _ =>
      if rest.takeWhile (fun c => c != '$' && c != '\n') = [] then none
      else some (rest.takeWhile (fun c => c != '$' && c != '\n'),
        (rest.takeWhile (fun c => c != '$' && c != '\n')).length + 2)
    | _ => none
  | _ => none

/-! ## The math-segment protector (`renderLatex`) -/

/-- The cleaning chain of both callbacks of `renderLatex`, in both files:
`latex.trim().replace(/\\displaystyle/g, '').replace(/\\\\/g, '\\').replace(/\s+/g, ' ')`. -/
def cleanLatex (latex : Str) : Str :=
  replace reSpaces (fun _ => " ".toList)
    (replace (reLit "\\\\".toList) (fun _ => "\\".toList)
      (replace (reLit "\\displaystyle".toList) (fun _ => []) (trim latex)))

/-- The block placeholder, the template literal
`<div class="katex-block" data-latex="${cleanLatex}"></div>`. -/
def katexBlock (cleanLatex : Str) : Str :=
  "<div class=\"katex-block\" data-latex=\"".toList ++ cleanLatex ++ "\"></div>".toList

/-- The inline placeholder, the template literal
`<span class="katex-inline" data-latex="${cleanLatex}"></span>`. -/
def katexInline (cleanLatex : Str) : Str :=
  "<span class=\"katex-inline\" data-latex=\"".toList ++ cleanLatex ++ "\"></span>".toList

namespace Start

/-- The first statement of `renderLatex` in `start.js`: the block pass. -/
def renderBlocks (content : Str) : Str :=
  replace reBlockMath (fun latex => katexBlock (cleanLatex latex)) content

/-- The second statement of `renderLatex` in `start.js`: the inline pass. -/
def renderInlines (content : Str) : Str :=
  replace reInlineMath (fun latex => katexInline (cleanLatex latex)) content

/-- The function `renderLatex` of `start.js`: the block pass, then the inline pass on its
result. -/
def renderLatex (content : Str) : Str :=
  renderInlines (renderBlocks content)

end Start

namespace BuildDocs

/-- The first statement of `renderLatex` in `build-docs.js`: the block pass. -/
def renderBlocks (content : Str) : Str :=
  replace reBlockMath (fun latex => katexBlock (cleanLatex latex)) content

/-- The second statement of `renderLatex` in `build-docs.js`: the inline pass. -/
def renderInlines (content : Str) : Str :=
  replace reInlineMath (fun latex => katexInline (cleanLatex latex)) content

/-- The function `renderLatex` of `build-docs.js`. -/
def renderLatex (content : Str) : Str :=
  renderInlines (renderBlocks content)

end BuildDocs

/-! ## The heading extractor (`parseTOC`) -/

/-- The pattern `/^(#{1,6})\s+(.+)$/` of `parseTOC`, applied to one line by `line.match`; the
result holds the groups `match[1]` and `match[2]`.  `#{1,6}` takes the whole run of hash marks
at the start of the line, which must have 1 to 6 of them since `\s` has to follow; `\s+` takes
the whole run of `\s` characters after it; `(.+)$` takes what is left, up to the end of the
line, and cannot contain a line terminator.  When nothing is left, `\s+` gives its last
character back to `(.+)`, which needs that at least one `\s` character remains before it. -/
def matchHeading (line : Str) : Option (Str × Str) :=
  let hashes := line.takeWhile (fun c => c == '#')
  let spaces := (line.dropWhile (fun c => c == '#')).takeWhile isSpace
  let text := (line.dropWhile (fun c => c == '#')).dropWhile isSpace
  if hashes.length = 0 ∨ 6 < hashes.length then none
  else if spaces = [] then none
  else if text ≠ [] then
    if text.all (fun c => !isLineTerminator c) then some (hashes, text) else none
  else
    match spaces.reverse with
    | c :: _ :: _ => if isLineTerminator c then none else some (hashes, [c])
    | _ => none

/-- The pattern `/[^\w一-龥\s-]/` of the id chain: one character outside the allow-list. -/
def reNotIdChar : Regex
  | c :: _ => if isWord c || isCJK c || isSpace c || c = '-' then none else some ([], 1)
  | [] => none

/-- The second alternative `-+$` of the pattern `/^-+|-+$/`: hyphens up to the end of the
input. -/
def reHyphensAtEnd : Regex := fun s =>
  if s ≠ [] ∧ s.all (fun c => c == '-') then some ([], s.length) else none

/-- The call `.replace(/^-+|-+$/g, '')` of the id chain.  The first alternative can only match
at index 0, where it removes the whole leading run of hyphens; from the end of that run on,
only the second alternative can match. -/
def trimHyphens (s : Str) : Str :=
  replace reHyphensAtEnd (fun _ => []) (s.dropWhile (fun c => c == '-'))

/-- The id chain of `parseTOC`:
`title.replace(/[^\w一-龥\s-]/g, '').replace(/\s+/g, '-').toLowerCase().replace(/^-+|-+$/g, '')`. -/
def makeId (title : Str) : Str :=
  trimHyphens (toLowerCase
    (replace reSpaces (fun _ => "-".toList) (replace reNotIdChar (fun _ => []) title)))

/-- An entry of the table of contents, as pushed by `parseTOC`. -/
structure TocEntry where
  /-- The number of hash marks. -/
  level : Nat
  /-- The trimmed heading text. -/
  title : Str
  /-- The identifier derived from the title. -/
  id : Str
  /-- The 1-based number of the line. -/
  line : Nat
  /-- The title again. -/
  rawTitle : Str
deriving DecidableEq, Repr

/-- The entry pushed by `parseTOC` for a match with the groups `hashes` and `text` on the
line of index `index`: `level = match[1].length`, `title = match[2].trim()`, the id chain on
the title, and `line = index + 1`. -/
def tocEntry (hashes text : Str) (index : Nat) : TocEntry :=
  { level := hashes.length, title := trim text, id := makeId (trim text),
    line := index + 1, rawTitle := trim text }

/-- The loop `lines.forEach((line, index) => ...)` of `parseTOC`, from index `index` on. -/
def tocOfLines (index : Nat) : List Str → List TocEntry
  | [] => []
  | line :: rest =>
    match matchHeading line with
    | some (hashes, text) => tocEntry hashes text index :: tocOfLines (index + 1) rest
    | none => tocOfLines (index + 1) rest

/-- The lines of `parseTOC`: `markdownContent.replace(/\r\n/g, '\n').split('\n')`. -/
def tocLines (markdownContent : Str) : List Str :=
  splitLines (replace (reLit "\r\n".toList) (fun _ => "\n".toList) markdownContent)

/-- The function `parseTOC` of `start.js`. -/
def parseTOC (markdownContent : Str) : List TocEntry :=
  tocOfLines 0 (tocLines markdownContent)

/-! ## The section locator (`findNode`) -/

/-- The `content` property of a node of the diagram library: missing, a string, or an object
with an optional `text` string. -/
inductive Content where
  | absent
  | text (s : Str)
  | object (text : Option Str)
deriving DecidableEq, Repr

/-- The test `if (node.content)`: a string is truthy when it is not empty, an object always. -/
def Content.truthy : Content → Bool
  | .absent => false
  | .text s => !s.isEmpty
  | .object _ => true

/-- The expression
`typeof node.content === 'string' ? node.content : (node.content.text || '').toString()`. -/
def Content.nodeText : Content → Str
  | .absent => []
  | .text s => s
  | .object t => t.getD []

/-- A node of the rendered diagram: its content, its path identifier and its children (a
missing `children` property is the empty list). -/
inductive RenderNode where
  | mk (content : Content) (path : Str) (children : List RenderNode)

/-- The `content` property. -/
def RenderNode.content : RenderNode → Content
  | .mk c _ _ => c

/-- The `children` property. -/
def RenderNode.children : RenderNode → List RenderNode
  | .mk _ _ ch => ch

/-- The pattern `/<[^>]*>/`: a `<`, then everything up to and including the next `>`. -/
def reTag : Regex
  | '<' :: rest =>
    match rest.dropWhile (fun c => c != '>') with
    | '>' :: _ => some ([], (rest.takeWhile (fun c => c != '>')).length + 2)
    | _ => none
  | _ => none

/-- The entity chain of `findNode`: `.replace(/&amp;/g, '&').replace(/&lt;/g, '<')
.replace(/&gt;/g, '>').replace(/&quot;/g, '"').replace(/&#39;/g, "'")`. -/
def decodeEntities (s : Str) : Str :=
  replace (reLit "&#39;".toList) (fun _ => [Char.ofNat 39])
    (replace (reLit "&quot;".toList) (fun _ => [Char.ofNat 34])
      (replace (reLit "&gt;".toList) (fun _ => ">".toList)
        (replace (reLit "&lt;".toList) (fun _ => "<".toList)
          (replace (reLit "&amp;".toList) (fun _ => "&".toList) s))))

/-- The constant `cleanNodeTitle` of `findNode`: `nodeText.replace(/<[^>]*>/g, '').trim()`. -/
def cleanNodeTitle (content : Content) : Str :=
  trim (replace reTag (fun _ => []) content.nodeText)

/-- The pattern `/s+/`: a maximal run of the letter `s` (the quantifier is greedy). -/
def reLetterS : Regex := fun s =>
  if s.takeWhile (fun c => c == 's') = [] then none
  else some ([], (s.takeWhile (fun c => c == 's')).length)

/-- The constants `normalizedNode` and `normalizedSection` of `findNode`.  The source line
reads `decoded.toLowerCase().replace(/\s+/g, '')` and stands inside the template literal of
the page, where `\s` is the letter `s`: the page runs
`decoded.toLowerCase().replace(/s+/g, '')`, which removes every run of the letter `s` and
keeps the whitespace. -/
def normalizeTitle (rt : Runtime) (decoded : Str) : Str :=
  replace reLetterS (fun _ => []) (rt.toLowerCase decoded)

/-- The block `if (node.content) { ... }` of `findNode`: `true` when one of its four tests
sets `targetNode` and returns. -/
def nodeHit (rt : Runtime) (sectionId : Str) (content : Content) : Bool :=
  if content.truthy then
    if cleanNodeTitle content = trim sectionId then true
    else if decodeEntities (cleanNodeTitle content) = decodeEntities (trim sectionId) then true
    else if normalizeTitle rt (decodeEntities (cleanNodeTitle content))
        = normalizeTitle rt (decodeEntities (trim sectionId)) then true
    else if includes (decodeEntities (cleanNodeTitle content)) (decodeEntities (trim sectionId))
        || includes (decodeEntities (trim sectionId)) (decodeEntities (cleanNodeTitle content))
      then true
    else false
  else false

namespace Start

mutual
/-- The function `findNode` of the viewer page of `start.js`, returning the node it stores
in `targetNode` (`none` when it returns `false`). -/
def findNode (rt : Runtime) (sectionId : Str) : RenderNode → Option RenderNode
  | .mk content path children =>
    if nodeHit rt sectionId content then some (.mk content path children)
    else findNodeChildren rt sectionId children
/-- The loop `for (let child of node.children) { if (findNode(child)) return true; }`. -/
def findNodeChildren (rt : Runtime) (sectionId : Str) : List RenderNode → Option RenderNode
  | [] => none
  | child :: rest =>
    match findNode rt sectionId child with
    | some target => some target
    | none => findNodeChildren rt sectionId rest
end

end Start

namespace BuildDocs

mutual
/-- The function `findNode` of the viewer page of `build-docs.js`. -/
def findNode (rt : Runtime) (sectionId : Str) : RenderNode → Option RenderNode
  | .mk content path children =>
    if nodeHit rt sectionId content then some (.mk content path children)
    else findNodeChildren rt sectionId children
/-- The loop over `node.children` of `findNode` in `build-docs.js`. -/
def findNodeChildren (rt : Runtime) (sectionId : Str) : List RenderNode → Option RenderNode
  | [] => none
  | child :: rest =>
    match findNode rt sectionId child with
    | some target => some target
    | none => findNodeChildren rt sectionId rest
end

end BuildDocs

mutual
/-- The nodes of a render tree in depth-first pre-order. -/
def preorder : RenderNode → List RenderNode
  | .mk content path children => .mk content path children :: preorderChildren children
/-- The pre-order of a list of sibling trees. -/
def preorderChildren : List RenderNode → List RenderNode
  | [] => []
  | child :: rest => preorder child ++ preorderChildren rest
end

/-! ## The document tree scanner (`scanDirectory`) -/

/-- An entry of `fs.readdirSync(dirPath, { withFileTypes: true })`: a directory with its own
entries, a regular file, or anything else (neither `isDirectory()` nor `isFile()`). -/
inductive DirEntry where
  | directory (name : Str) (entries : List DirEntry)
  | file (name : Str)
  | other (name : Str)

/-- An item of the scanned tree: `{type: 'folder', name, path, children}` (the scanner of
`build-docs.js` sets no `path` on a folder) or `{type: 'file', name, path}`. -/
inductive Item where
  | folder (name : Str) (path : Option Str) (children : List Item)
  | file (name : Str) (path : Str)

/-- The `type` property of an item. -/
def Item.type : Item → Str
  | .folder _ _ _ => "folder".toList
  | .file _ _ => "file".toList

/-- The `name` property of an item. -/
def Item.name : Item → Str
  | .folder name _ _ => name
  | .file name _ => name

/-- `path.join(a, b)` for a directory path `a` (empty for the root) and an entry name `b`,
with the separator `sep` of the platform. -/
def pathJoin (sep : Char) (a b : Str) : Str :=
  if a = [] then b else a ++ sep :: b

/-- The call `.replace(/\\/g, '/')` on a path. -/
def toSlashes (p : Str) : Str :=
  replace (reLit "\\".toList) (fun _ => "/".toList) p

/-- `Array.prototype.sort(compare)`: the sort is stable, and for a consistent comparison
function every stable sort returns the same array, here by insertion. -/
def sortBy {α : Type} (compare : α → α → Int) (items : List α) : List α :=
  items.insertionSort (fun a b => compare a b ≤ 0)

namespace Start

/-- The comparison function of `scanDirectory` in `start.js`; `collate a b` stands for
`a.localeCompare(b, 'zh-CN')`. -/
def compareItems (collate : Str → Str → Int) (a b : Item) : Int :=
  if a.type ≠ b.type then
    (if a.type = "folder".toList then -1 else 1)
  else collate a.name b.name

mutual
/-- The body of `entries.forEach` in `scanDirectory` of `start.js`: the item pushed for one
entry, if any.  The recursive call `scanDirectory(fullPath, relativeFilePath)` is the sorted
scan of the entries of the subdirectory. -/
def scanEntry (sep : Char) (collate : Str → Str → Int) (relativePath : Str) :
    DirEntry → Option Item
  | .directory name entries =>
    some (.folder name (some (toSlashes (pathJoin sep relativePath name)))
      (sortBy (compareItems collate)
        (scanEntries sep collate (toSlashes (pathJoin sep relativePath name)) entries)))
  | .file name =>
    if endsWith name ".md".toList then
      some (.file name
        (toSlashes (pathJoin sep "docs".toList (toSlashes (pathJoin sep relativePath name)))))
    else none
  | .other _ => none
/-- The array `items` after `entries.forEach`. -/
def scanEntries (sep : Char) (collate : Str → Str → Int) (relativePath : Str) :
    List DirEntry → List Item
  | [] => []
  | entry :: rest =>
    match scanEntry sep collate relativePath entry with
    | some item => item :: scanEntries sep collate relativePath rest
    | none => scanEntries sep collate relativePath rest
end

/-- The function `scanDirectory(dirPath, relativePath)` of `start.js`, on the entries of
`dirPath`. -/
def scanDirectory (sep : Char) (collate : Str → Str → Int) (relativePath : Str)
    (entries : List DirEntry) : List Item :=
  sortBy (compareItems collate) (scanEntries sep collate relativePath entries)

end Start

namespace BuildDocs

/-- The comparison function of `scanDirectory` in `build-docs.js`; `collate a b` stands for
`a.localeCompare(b)`. -/
def compareItems (collate : Str → Str → Int) (a b : Item) : Int :=
  if a.type = "folder".toList ∧ b.type = "file".toList then -1
  else if a.type = "file".toList ∧ b.type = "folder".toList then 1
  else collate a.name b.name

mutual
/-- The body of `items.forEach` in `scanDirectory` of `build-docs.js`. -/
def scanEntry (sep : Char) (collate : Str → Str → Int) (basePath : Str) :
    DirEntry → Option Item
  | .directory name entries =>
    some (.folder name none
      (sortBy (compareItems collate) (scanEntries sep collate (pathJoin sep basePath name) entries)))
  | .file name =>
    if endsWith name ".md".toList then some (.file name (pathJoin sep basePath name)) else none
  | .other _ => none
/-- The array `result` after `items.forEach`. -/
def scanEntries (sep : Char) (collate : Str → Str → Int) (basePath : Str) :
    List DirEntry → List Item
  | [] => []
  | entry :: rest =>
    match scanEntry sep collate basePath entry with
    | some item => item :: scanEntries sep collate basePath rest
    | none => scanEntries sep collate basePath rest
end

/-- The function `scanDirectory(dirPath, basePath)` of `buildDocsStructure`, on the entries of
`dirPath`. -/
def scanDirectory (sep : Char) (collate : Str → Str → Int) (basePath : Str)
    (entries : List DirEntry) : List Item :=
  sortBy (compareItems collate) (scanEntries sep collate basePath entries)

end BuildDocs

mutual
/-- The sibling lists below an item: the children of every folder in it. -/
def Item.levels : Item → List (List Item)
  | .folder _ _ children => children :: levelsOfItems children
  | .file _ _ => []
/-- The sibling lists below the items of a list. -/
def levelsOfItems : List Item → List (List Item)
  | [] => []
  | item :: rest => item.levels ++ levelsOfItems rest
end

/-- Every level of a scanner output: the top-level list and the children of every folder. -/
def allLevels (output : List Item) : List (List Item) :=
  output :: levelsOfItems output

/-- A collation used in examples: the order of the code points. -/
def codePointCompare : Str → Str → Int
  | [], [] => 0
  | [], _ :: _ => -1
  | _ :: _, [] => 1
  | a :: as, b :: bs =>
    if a.toNat < b.toNat then -1
    else if b.toNat < a.toNat then 1
    else codePointCompare as bs

/-! ## The matching rules of the section locator, as the specification words them -/

/-- Rule 1: the cleaned title equals the trimmed target. -/
def ExactRule (sectionId : Str) (node : RenderNode) : Prop :=
  cleanNodeTitle node.content = trim sectionId

/-- Rule 2: the cleaned title and the trimmed target are equal after entity decoding. -/
def DecodedRule (sectionId : Str) (node : RenderNode) : Prop :=
  decodeEntities (cleanNodeTitle node.content) = decodeEntities (trim sectionId)

/-- A string after lower-casing and removing all whitespace. -/
def foldTitle (rt : Runtime) (s : Str) : Str :=
  (rt.toLowerCase s).filter (fun c => !isSpace c)

/-- Rule 3: the decoded strings are equal after lower-casing and removing all whitespace. -/
def FoldedRule (rt : Runtime) (sectionId : Str) (node : RenderNode) : Prop :=
  foldTitle rt (decodeEntities (cleanNodeTitle node.content))
    = foldTitle rt (decodeEntities (trim sectionId))

/-- Rule 4: one of the decoded strings is a contiguous substring of the other. -/
def SubstringRule (sectionId : Str) (node : RenderNode) : Prop :=
  decodeEntities (trim sectionId) <:+: decodeEntities (cleanNodeTitle node.content) ∨
    decodeEntities (cleanNodeTitle node.content) <:+: decodeEntities (trim sectionId)

/-- A node matches a target: its content is present and its cleaned title satisfies at least
one of the four rules. -/
def Matches (rt : Runtime) (sectionId : Str) (node : RenderNode) : Prop :=
  node.content.truthy = true ∧
    (ExactRule sectionId node ∨ DecodedRule sectionId node ∨ FoldedRule rt sectionId node ∨
      SubstringRule sectionId node)

instance (sectionId : Str) (node : RenderNode) : Decidable (ExactRule sectionId node) := by
  unfold ExactRule
  infer_instance

instance (sectionId : Str) (node : RenderNode) : Decidable (DecodedRule sectionId node) := by
  unfold DecodedRule
  infer_instance

instance (rt : Runtime) (sectionId : Str) (node : RenderNode) :
    Decidable (FoldedRule rt sectionId node) := by
  unfold FoldedRule
  infer_instance

instance (sectionId : Str) (node : RenderNode) : Decidable (SubstringRule sectionId node) := by
  unfold SubstringRule
  infer_instance

instance (rt : Runtime) (sectionId : Str) (node : RenderNode) :
    Decidable (Matches rt sectionId node) := by
  unfold Matches
  infer_instance

/-! ## The heading pattern, as the specification words it -/

/-- The heading pattern in the words "1 to 6 `#` at line start, then whitespace, then at least
one more character": the line is `n` hash marks, a non-empty whitespace separator and a
non-empty rest `r`. -/
def WordedHeading (line : Str) (n : Nat) (r : Str) : Prop :=
  ∃ w : Str, line = List.replicate n '#' ++ w ++ r ∧ 1 ≤ n ∧ n ≤ 6 ∧ w ≠ [] ∧
    (∀ c ∈ w, isSpace c = true) ∧ r ≠ []

/-- The heading pattern with the restriction of `.`: as `WordedHeading`, and the rest `r`
holds no line terminator (no carriage return, U+2028 or U+2029; a line holds no line feed). -/
def HeadingLine (line : Str) (n : Nat) (r : Str) : Prop :=
  ∃ w : Str, line = List.replicate n '#' ++ w ++ r ∧ 1 ≤ n ∧ n ≤ 6 ∧ w ≠ [] ∧
    (∀ c ∈ w, isSpace c = true) ∧ r ≠ [] ∧ ∀ c ∈ r, isLineTerminator c = false

/-- The heading pattern in the words "one to six hash marks, followed by one space, followed
by a non-empty rest of line". -/
def SpaceHeading (line : Str) : Prop :=
  ∃ (n : Nat) (r : Str), line = List.replicate n '#' ++ ' ' :: r ∧ 1 ≤ n ∧ n ≤ 6 ∧ r ≠ []

/-- A text with every line feed replaced by a carriage return and a line feed:
`t.replace(/\n/g, '\r\n')`. -/
def withCRLF (t : Str) : Str :=
  replace (reLit "\n".toList) (fun _ => "\r\n".toList) t

/-! ## The characters of an id, as the specification words them -/

/-- A character allowed in an id: a lower-case ASCII letter, a digit, an underscore, a CJK
character in U+4E00..U+9FA5 or a hyphen. -/
def IdChar (c : Char) : Prop :=
  (0x61 ≤ c.toNat ∧ c.toNat ≤ 0x7A) ∨ (0x30 ≤ c.toNat ∧ c.toNat ≤ 0x39) ∨ c = '_' ∨
    (0x4E00 ≤ c.toNat ∧ c.toNat ≤ 0x9FA5) ∨ c = '-'

/-! ## The sibling order, as the specification words it -/

/-- Every folder precedes every file: no file comes before a folder. -/
def FoldersFirst (items : List Item) : Prop :=
  items.Pairwise (fun a b => ¬ (a.type = "file".toList ∧ b.type = "folder".toList))

/-- Within the folders and within the files, the names are in non-decreasing collation
order. -/
def NamesOrdered (collate : Str → Str → Int) (items : List Item) : Prop :=
  items.Pairwise (fun a b => a.type = b.type → collate a.name b.name ≤ 0)

/-! ## The entries of a directory and the nodes of a level -/

/-- The names of the subdirectories among the entries of a directory, in directory order. -/
def subdirectoryNames : List DirEntry → List Str
  | [] => []
  | .directory name _ :: rest => name :: subdirectoryNames rest
  | .file _ :: rest => subdirectoryNames rest
  | .other _ :: rest => subdirectoryNames rest

/-- The names of the regular files whose name ends in `.md`, in directory order. -/
def documentNames : List DirEntry → List Str
  | [] => []
  | .directory _ _ :: rest => documentNames rest
  | .file name :: rest =>
    if endsWith name ".md".toList then name :: documentNames rest else documentNames rest
  | .other _ :: rest => documentNames rest

/-- The names of the folder nodes of a list of items. -/
def folderNames : List Item → List Str
  | [] => []
  | .folder name _ _ :: rest => name :: folderNames rest
  | .file _ _ :: rest => folderNames rest

/-- The names of the file nodes of a list of items. -/
def fileNames : List Item → List Str
  | [] => []
  | .folder _ _ _ :: rest => fileNames rest
  | .file name _ :: rest => name :: fileNames rest

/-! ## The static site emitter (`processDocs`, `generateNavStructure`) -/

/-- `String.prototype.replace(pattern, replacement)` with a string pattern: only the first
occurrence of the pattern is replaced. -/
def replaceFirst (pat rep : Str) : Str → Str
  | [] => if pat = [] then rep else []
  | c :: cs =>
    if pat.isPrefixOf (c :: cs) then rep ++ (c :: cs).drop pat.length
    else c :: replaceFirst pat rep cs

/-- `path.basename(name, ext)` for an entry name: the name without the suffix `ext` when it
ends in it. -/
def basename (name ext : Str) : Str :=
  if endsWith name ext then name.take (name.length - ext.length) else name

/-- `path.dirname(p)`: the path up to its last separator, `.` when it has none. -/
def dirname (sep : Char) (p : Str) : Str :=
  if sep ∈ p then ((p.reverse.dropWhile (fun c => c != sep)).drop 1).reverse else ".".toList

/-- `path.join(a, b, c)` for a directory path `a`, a relative directory `b` (empty for the
root) and an entry name `c`: empty segments are left out. -/
def pathJoin3 (sep : Char) (a b c : Str) : Str :=
  if b = [] then pathJoin sep a c else pathJoin sep (pathJoin sep a b) c

/-- The three constant pieces of the template literal of `generateMindmapHTML`: the text up
to the title, the text between the title and the processed content, and the text after. -/
structure PageTemplate where
  /-- The text before `${fileName}`. -/
  head : Str
  /-- The text between `${fileName}` and `${processedContent}`. -/
  middle : Str
  /-- The text after `${processedContent}`. -/
  tail : Str

/-- The output side of the file system: the directories that exist and the files written, in
the order of writing. -/
structure Disk where
  /-- The existing directories. -/
  dirs : List Str
  /-- The written files with their contents, the latest last. -/
  files : List (Str × Str)
deriving DecidableEq, Repr

/-- A call of `fs` that lists or changes the disk: `fs.readdirSync(path, ...)`,
`fs.mkdirSync(path, ...)` or `fs.writeFileSync(path, ...)`. -/
inductive FsCall where
  | readdir (path : Str)
  | mkdir (path : Str)
  | writeFile (path : Str)
deriving DecidableEq, Repr

/-- The call `fs.existsSync(p)` on the output side: `p` is a directory or a file. -/
def Disk.existsSync (disk : Disk) (p : Str) : Bool :=
  decide (p ∈ disk.dirs) || decide (p ∈ disk.files.map Prod.fst)

/-- The statement `if (!fs.existsSync(dir)) { fs.mkdirSync(dir, { recursive: true }); }`.
`throws disk call` tells whether the environment makes `call` throw on the disk `disk`
(permissions, a file in the place of a parent directory, a full disk); the result is `none`
when `mkdirSync` throws, and then the disk is as before. -/
def Disk.ensureDir (throws : Disk → FsCall → Bool) (disk : Disk) (dir : Str) : Option Disk :=
  if disk.existsSync dir then some disk
  else if throws disk (.mkdir dir) then none
  else some { disk with dirs := disk.dirs ++ [dir] }

/-- The call `fs.writeFileSync(file, content)`; `none` when it throws: the path is a
directory (`EISDIR`), or the environment makes the call fail. -/
def Disk.writeFile (throws : Disk → FsCall → Bool) (disk : Disk) (file content : Str) :
    Option Disk :=
  if decide (file ∈ disk.dirs) || throws disk (.writeFile file) then none
  else some { disk with files := disk.files ++ [(file, content)] }

/-- How a run of statements ends: normally, or by an exception that propagates to the caller;
in both cases with the state of the disk at that point (a call that throws leaves the disk
as it was). -/
inductive Outcome where
  | done (disk : Disk)
  | thrown (disk : Disk)
deriving DecidableEq, Repr

/-- The disk at the end of a run. -/
def Outcome.disk : Outcome → Disk
  | .done disk => disk
  | .thrown disk => disk

namespace BuildDocs

/-- The function `generateMindmapHTML(content, fileName)` of `build-docs.js`. -/
def generateMindmapHTML (template : PageTemplate) (content fileName : Str) : Str :=
  template.head ++ fileName ++ template.middle ++ renderLatex content ++ template.tail

/-- The constant `htmlFileName` of `processDirectory`: `entry.name.replace('.md', '.html')`. -/
def htmlFileName (name : Str) : Str :=
  replaceFirst ".md".toList ".html".toList name

mutual
/-- The body of `entries.forEach` in `processDirectory` of `processDocs`, for one entry.
`readFile` stands for `fs.readFileSync(fullPath, 'utf-8')`, which returns the text of the
file or throws (`none`), and `throws` tells which of the other calls of `fs` throw.  For a
directory the recursive call `processDirectory(fullPath, relativeFilePath)` starts with
`fs.readdirSync(fullPath, ...)`.  The function has no `try`, so an exception ends the run.
Console output is left out. -/
def processEntry (sep : Char) (template : PageTemplate) (readFile : Str → Option Str)
    (throws : Disk → FsCall → Bool) (outputPath dirPath relativePath : Str) :
    DirEntry → Disk → Outcome
  | .directory name entries, disk =>
    match disk.ensureDir throws (pathJoin sep outputPath (pathJoin sep relativePath name)) with
    | none => .thrown disk
    | some disk' =>
      if throws disk' (.readdir (pathJoin sep dirPath name)) then .thrown disk'
      else
        processEntries sep template readFile throws outputPath (pathJoin sep dirPath name)
          (pathJoin sep relativePath name) entries disk'
  | .file name, disk =>
    if endsWith name ".md".toList then
      match readFile (pathJoin sep dirPath name) with
      | none => .thrown disk
      | some content =>
        match disk.ensureDir throws
            (dirname sep (pathJoin3 sep outputPath relativePath (htmlFileName name))) with
        | none => .thrown disk
        | some disk' =>
          match disk'.writeFile throws
              (pathJoin3 sep outputPath relativePath (htmlFileName name))
              (generateMindmapHTML template content (basename name ".md".toList)) with
          | none => .thrown disk'
          | some written => .done written
    else .done disk
  | .other _, disk => .done disk
/-- The loop `entries.forEach` of `processDirectory(dirPath, relativePath)`: it stops at the
first entry whose processing throws. -/
def processEntries (sep : Char) (template : PageTemplate) (readFile : Str → Option Str)
    (throws : Disk → FsCall → Bool) (outputPath dirPath relativePath : Str) :
    List DirEntry → Disk → Outcome
  | [], disk => .done disk
  | entry :: rest, disk =>
    match processEntry sep template readFile throws outputPath dirPath relativePath entry
        disk with
    | .done disk' =>
      processEntries sep template readFile throws outputPath dirPath relativePath rest disk'
    | .thrown disk' => .thrown disk'
end

/-- The function `processDocs` of `build-docs.js`, with `dirName` for `__dirname` and `docs`
for the entries of the `docs` folder (`none` when the folder does not exist). -/
def processDocs (sep : Char) (template : PageTemplate) (readFile : Str → Option Str)
    (throws : Disk → FsCall → Bool) (dirName : Str) (docs : Option (List DirEntry))
    (disk : Disk) : Outcome :=
  match disk.ensureDir throws (pathJoin sep dirName "dist".toList) with
  | none => .thrown disk
  | some disk' =>
    match docs with
    | some entries =>
      if throws disk' (.readdir (pathJoin sep dirName "docs".toList)) then .thrown disk'
      else
        processEntries sep template readFile throws (pathJoin sep dirName "dist".toList)
          (pathJoin sep dirName "docs".toList) [] entries disk'
    | none => .done disk'

/-- The constant `filePath` of `generateNavStructure`:
`item.path.replace('docs/', '').replace('.md', '.html').replace(/\\/g, '/')`. -/
def navFilePath (itemPath : Str) : Str :=
  toSlashes (replaceFirst ".md".toList ".html".toList
    (replaceFirst "docs/".toList [] itemPath))

mutual
/-- The body of `items.forEach` in `generateItems(items, level)` of `generateNavStructure`:
the markup added to `result` for one item. -/
def generateItem (level : Nat) : Item → Str
  | .folder name _ children =>
    "<div class=\"nav-item folder\" style=\"padding-left: ".toList
      ++ (Nat.repr (level * 20)).toList ++ "px;\">".toList ++ name ++ "</div>".toList
      ++ (if children.length > 0 then generateItems (level + 1) children else [])
  | .file name path =>
    "<div class=\"nav-item file\" style=\"padding-left: ".toList
      ++ (Nat.repr ((level + 1) * 20)).toList ++ "px;\" data-file=\"".toList
      ++ navFilePath path ++ "\">".toList
      ++ replaceFirst ".html".toList [] name ++ "</div>".toList
/-- The function `generateItems(items, level)` of `generateNavStructure`. -/
def generateItems (level : Nat) : List Item → Str
  | [] => []
  | item :: rest => generateItem level item ++ generateItems level rest
end

/-- The function `generateNavStructure(docsStructure)` of `build-docs.js`. -/
def generateNavStructure (docsStructure : List Item) : Str :=
  generateItems 0 docsStructure

end BuildDocs

mutual
/-- Every document below an entry can be read: `readFile` succeeds on each regular file whose
name ends in `.md`. -/
def readableEntry (sep : Char) (readFile : Str → Option Str) (dirPath : Str) : DirEntry → Bool
  | .directory name entries => readableEntries sep readFile (pathJoin sep dirPath name) entries
  | .file name =>
    !(endsWith name ".md".toList) || (readFile (pathJoin sep dirPath name)).isSome
  | .other _ => true
/-- Every document below the entries of the directory `dirPath` can be read. -/
def readableEntries (sep : Char) (readFile : Str → Option Str) (dirPath : Str) :
    List DirEntry → Bool
  | [] => true
  | entry :: rest =>
    readableEntry sep readFile dirPath entry && readableEntries sep readFile dirPath rest
end

/-! ## The viewer pages (`jumpToSection`) -/

/-- The variable `markmapInstance` of a viewer page: not set, set without a `root`, or ready
with its root node. -/
inductive Markmap where
  | missing
  | noRoot
  | ready (root : RenderNode)

/-- The test `!markmapInstance || !markmapInstance.root` fails: the instance is ready. -/
def Markmap.isReady : Markmap → Bool
  | .ready _ => true
  | _ => false

/-- What a call of `jumpToSection` does, console output apart: it schedules itself again
(`setTimeout(() => jumpToSection(sectionId, retryCount), delay)`), calls
`markmapInstance.expandTo(node)`, schedules the centring of a node, or calls
`markmapInstance.fit()`. -/
inductive Effect where
  | retry (delay retryCount : Nat)
  | expandTo (node : RenderNode)
  | focus (delay : Nat) (node : RenderNode)
  | fit

/-- The groups of `([^,]+),([^)]+)` at the head of the input: a run of characters other
than a comma, a comma, and a run of characters other than `)`, both runs as long as they can
be and not empty.  The result is the text of the two runs. -/
def translateGroups (rest : Str) : Option (Str × Str) :=
  if rest.takeWhile (fun c => c != ',') = [] then none
  else
    match rest.dropWhile (fun c => c != ',') with
    | ',' :: after =>
      if after.takeWhile (fun c => c != ')') = [] then none
      else some (rest.takeWhile (fun c => c != ','), after.takeWhile (fun c => c != ')'))
    | _ => none

/-- The call `transformAttr.match(...)` of the centring callback: the groups `match[1]` and
`match[2]` of the first match.  The source writes the pattern
`/translate\(([^,]+),([^)]+)\)/` inside the template literal of the page, where `\(` and
`\)` are plain parentheses: the page runs `/translate(([^,]+),([^)]+))/`, in which group 1
is everything matched after the word `translate` and group 2 is the run before the comma. -/
def matchTranslate : Str → Option (Str × Str)
  | [] => none
  | c :: cs =>
    if "translate".toList.isPrefixOf (c :: cs) then
      match translateGroups ((c :: cs).drop 9) with
      | some (beforeComma, afterComma) =>
        some (beforeComma ++ ',' :: afterComma, beforeComma)
      | none => matchTranslate cs
    else matchTranslate cs

/-- The call `gTransform.match(...)` of the centring callback: the group `match[1]` of the
first match.  The source writes `/scale\(([^)]+)\)/`; the page runs `/scale(([^)]+))/`, whose
group 1 is the run of characters other than `)` after the word `scale`. -/
def matchScale : Str → Option Str
  | [] => none
  | c :: cs =>
    if "scale".toList.isPrefixOf (c :: cs)
        ∧ ((c :: cs).drop 5).takeWhile (fun x => x != ')') ≠ [] then
      some (((c :: cs).drop 5).takeWhile (fun x => x != ')'))
    else matchScale cs

/-- The element found by `document.querySelector('[data-path="..."]')`: its `transform`
attribute (`none` when it has none) and whether it holds a `.markmap-foreign` element. -/
structure NodeElement where
  /-- The value of `nodeElement.getAttribute('transform')`. -/
  transform : Option Str
  /-- Whether `nodeElement.querySelector('.markmap-foreign')` finds an element. -/
  hasContent : Bool

/-- The element found by `document.querySelector('.markmap svg')`: the size of its bounding
rectangle and its first `g` element (`none` when it has none), given by the `transform`
attribute of that element (`none` when it has none).  Sizes are exact rationals. -/
structure SvgElement where
  /-- `svgRect.width`. -/
  width : ℚ
  /-- `svgRect.height`. -/
  height : ℚ
  /-- The element `svg.querySelector('g')`, as its `transform` attribute. -/
  gElement : Option (Option Str)

/-- What the centring callback reads from the page: the `svg` element and the element of the
target node, if any. -/
structure View where
  /-- The element `svg`. -/
  svg : Option SvgElement
  /-- The element of the target node. -/
  element : Option NodeElement

/-- What the centring callback does, console output apart: it sets
`gElement.style.transform` to `translate(newX px, newY px) scale(scale)`, where `none` is
`NaN`, calls `markmapInstance.fit()`, or outlines the content of the node. -/
inductive FocusEffect where
  | transform (newX newY : Option ℚ) (scale : ℚ)
  | fit
  | highlight
deriving DecidableEq

/-- The constant `targetScale = 1.5`. -/
def targetScale : ℚ := 3 / 2

/-- The constant `currentScale` of the centring callback:
`scaleMatch ? parseFloat(scaleMatch[1]) : 1` for the attribute `gTransform` (the empty string
when the `g` element has none).  The callback computes it and does not use it. -/
def currentScale (rt : Runtime) (gTransform : Option Str) : Option ℚ :=
  match matchScale (gTransform.getD []) with
  | some group => rt.parseFloat group
  | none => some 1

namespace Start

/-- The function `jumpToSection(sectionId, retryCount)` of the viewer page of `start.js`, up
to its timers.  On a miss it only logs the nodes that contain the target. -/
def jumpToSection (rt : Runtime) (markmap : Markmap) (sectionId : Str) (retryCount : Nat) :
    List Effect :=
  match markmap with
  | .ready root =>
    match findNode rt sectionId root with
    | some targetNode => [.expandTo targetNode, .focus 600 targetNode]
    | none => []
  | _ => if retryCount < 10 then [.retry 300 (retryCount + 1)] else []

/-- The callback that `jumpToSection` of `start.js` schedules on a hit.  A missing `svg`
element, a missing `transform` attribute or a missing `g` element makes a method call on
`null` throw, and the `catch` calls `fit`. -/
def focusNode (rt : Runtime) (view : View) : List FocusEffect :=
  match view.element with
  | none => [.fit]
  | some element =>
    match view.svg with
    | none => [.fit]
    | some svg =>
      match element.transform with
      | none => [.fit]
      | some transformAttr =>
        match matchTranslate transformAttr with
        | some (group1, group2) =>
          match svg.gElement with
          | none => [.fit]
          | some _ =>
            .transform
                ((rt.parseFloat group1).map (fun nodeX => svg.width / 2 - nodeX * targetScale))
                ((rt.parseFloat group2).map (fun nodeY => svg.height / 2 - nodeY * targetScale))
                targetScale
              :: (if element.hasContent then [.highlight] else [])
        | none => .fit :: (if element.hasContent then [.highlight] else [])

end Start

namespace BuildDocs

/-- The function `jumpToSection(sectionId, retryCount)` of the viewer page of
`build-docs.js`, up to its timers. -/
def jumpToSection (rt : Runtime) (markmap : Markmap) (sectionId : Str) (retryCount : Nat) :
    List Effect :=
  match markmap with
  | .ready root =>
    match findNode rt sectionId root with
    | some targetNode => [.expandTo targetNode, .focus 100 targetNode]
    | none => [.fit]
  | _ => if retryCount < 10 then [.retry 300 (retryCount + 1)] else []

/-- The callback that `jumpToSection` of `build-docs.js` schedules on a hit. -/
def focusNode (rt : Runtime) (view : View) : List FocusEffect :=
  match view.element with
  | none => [.fit]
  | some element =>
    match view.svg with
    | none => [.fit]
    | some svg =>
      match element.transform with
      | none => [.fit]
      | some transformAttr =>
        match matchTranslate transformAttr with
        | some (group1, group2) =>
          match svg.gElement with
          | none => [.fit]
          | some _ =>
            [.transform
              ((rt.parseFloat group1).map (fun nodeX => svg.width / 2 - nodeX * targetScale))
              ((rt.parseFloat group2).map (fun nodeY => svg.height / 2 - nodeY * targetScale))
              targetScale]
        | none => [.fit]

end BuildDocs

/-- The retry that a call of `jumpToSection` schedules, if any: its `retryCount`. -/
def scheduledRetry : List Effect → Option Nat
  | [] => none
  | .retry _ retryCount :: _ => some retryCount
  | _ :: rest => scheduledRetry rest

/-- The chain of calls started by `jumpToSection(sectionId, retryCount)`, each scheduled
retry being run in turn: the effects of all the calls, in order.  `markmap n` is the state of
`markmapInstance` at the `n`-th call of the chain; the result is `none` when `fuel` calls do
not end the chain. -/
def retryChain (jump : Markmap → Str → Nat → List Effect) (markmap : Nat → Markmap)
    (sectionId : Str) : Nat → Nat → Nat → Option (List Effect)
  | 0, _, _ => none
  | fuel + 1, n, retryCount =>
    match scheduledRetry (jump (markmap n) sectionId retryCount) with
    | some next =>
      (retryChain jump markmap sectionId fuel (n + 1) next).map
        (fun later => jump (markmap n) sectionId retryCount ++ later)
    | none => some (jump (markmap n) sectionId retryCount)

/-! ## Reading a placeholder back -/

/-- The value of the `data-latex` attribute as the text of a tag shows it: what stands between
the first `data-latex="` and the next double quote; `none` when the tag has no such attribute
or the quote is not closed.  Character references are not expanded. -/
def dataLatexValue : Str → Option Str
  | [] => none
  | c :: cs =>
    if "data-latex=\"".toList.isPrefixOf (c :: cs) then
      (if '"' ∈ (c :: cs).drop 12 then
        some (((c :: cs).drop 12).takeWhile (fun x => x != '"'))
      else none)
    else dataLatexValue cs

/-! ## The scan of a global replace -/

theorem gsub_skip (re : Regex) (f : Str → Str) (k : Nat) (s : Str) :
    gsub re f k s = gsub re f 0 (s.drop k) := by
  induction s generalizing k with
  | nil => cases k <;> simp [gsub]
  | cons c cs ih =>
    cases k with
    | zero => simp
    | succ k => simp only [gsub, List.drop_succ_cons]; exact ih k

theorem replace_nil (re : Regex) (f : Str → Str) : replace re f [] = [] := by
  simp [replace, gsub]

theorem replace_cons_none (re : Regex) (f : Str → Str) (c : Char) (cs : Str)
    (h : re (c :: cs) = none) : replace re f (c :: cs) = c :: replace re f cs := by
  simp [replace, gsub, h]

theorem replace_cons_some (re : Regex) (f : Str → Str) (c : Char) (cs : Str) (g : Str) (n : Nat)
    (h : re (c :: cs) = some (g, n)) :
    replace re f (c :: cs) = f g ++ replace re f (cs.drop (n - 1)) := by
  simp only [replace, gsub, h]
  rw [gsub_skip]

theorem gcount_skip (re : Regex) (k : Nat) (s : Str) :
    gcount re k s = gcount re 0 (s.drop k) := by
  induction s generalizing k with
  | nil => cases k <;> simp [gcount]
  | cons c cs ih =>
    cases k with
    | zero => simp
    | succ k => simp only [gcount, List.drop_succ_cons]; exact ih k

/-- A pattern whose matches all start with `d` finds nothing in a text without `d`. -/
theorem replace_eq_self_of_not_mem (re : Regex) (f : Str → Str) (d : Char)
    (hre : ∀ c cs, c ≠ d → re (c :: cs) = none) (s : Str) (hs : d ∉ s) :
    replace re f s = s ∧ matchCount re s = 0 := by
  induction s with
  | nil => simp [replace, matchCount, gsub, gcount]
  | cons c cs ih =>
    have hc : c ≠ d := fun h => hs (by simp [h])
    have hcs : d ∉ cs := fun h => hs (by simp [h])
    have := ih hcs
    simp only [replace, matchCount] at this ⊢
    simp [gsub, gcount, hre c cs hc, this.1, this.2]

/-- Every character of the result of a replace comes from the input or from a replacement. -/
theorem mem_gsub (re : Regex) (f : Str → Str) (x : Char) (k : Nat) (s : Str)
    (h : x ∈ gsub re f k s) : x ∈ s ∨ ∃ g, x ∈ f g := by
  induction s generalizing k with
  | nil => simp [gsub] at h
  | cons c cs ih =>
    cases k with
    | zero =>
      simp only [gsub] at h
      split at h
      · rename_i g n _
        rcases List.mem_append.1 h with h | h
        · exact Or.inr ⟨g, h⟩
        · rcases ih _ h with h | h
          · exact Or.inl (List.mem_cons_of_mem _ h)
          · exact Or.inr h
      · rcases List.mem_cons.1 h with h | h
        · exact Or.inl (by simp [h])
        · rcases ih _ h with h | h
          · exact Or.inl (List.mem_cons_of_mem _ h)
          · exact Or.inr h
    | succ k =>
      simp only [gsub] at h
      rcases ih _ h with h | h
      · exact Or.inl (List.mem_cons_of_mem _ h)
      · exact Or.inr h

theorem mem_of_mem_trim (x : Char) (s : Str) (h : x ∈ trim s) : x ∈ s := by
  unfold trim at h
  rw [List.mem_reverse] at h
  have h1 := (List.dropWhile_sublist _).subset h
  rw [List.mem_reverse] at h1
  exact (List.dropWhile_sublist _).subset h1

/-- The cleaning chain introduces no `$`. -/
theorem dollar_not_mem_cleanLatex (e : Str) (h : '$' ∉ e) : '$' ∉ cleanLatex e := by
  intro hc
  unfold cleanLatex replace at hc
  rcases mem_gsub _ _ _ _ _ hc with h1 | ⟨_, h1⟩
  · rcases mem_gsub _ _ _ _ _ h1 with h2 | ⟨_, h2⟩
    · rcases mem_gsub _ _ _ _ _ h2 with h3 | ⟨_, h3⟩
      · exact h (mem_of_mem_trim _ _ h3)
      · simp at h3
    · revert h2; decide
  · revert h1; decide

theorem dollar_not_mem_katexBlock (e : Str) (h : '$' ∉ e) : '$' ∉ katexBlock (cleanLatex e) := by
  have := dollar_not_mem_cleanLatex e h
  unfold katexBlock
  simp only [List.mem_append, not_or]
  exact ⟨⟨by decide, this⟩, by decide⟩

theorem dollar_not_mem_katexInline (e : Str) (h : '$' ∉ e) : '$' ∉ katexInline (cleanLatex e) := by
  have := dollar_not_mem_cleanLatex e h
  unfold katexInline
  simp only [List.mem_append, not_or]
  exact ⟨⟨by decide, this⟩, by decide⟩

theorem reBlockMath_none_of_ne (c : Char) (cs : Str) (h : c ≠ '$') :
    reBlockMath (c :: cs) = none := by
  unfold reBlockMath
  split
  · rename_i heq; cases heq; exact absurd rfl h
  · rfl

theorem reInlineMath_none_of_ne (c : Char) (cs : Str) (h : c ≠ '$') :
    reInlineMath (c :: cs) = none := by
  unfold reInlineMath
  split
  · rename_i heq; cases heq; exact absurd rfl h
  · rfl

/-- Without a `$` in the text, `renderLatex` changes nothing. -/
theorem renderLatex_eq_self_of_not_mem (s : Str) (h : '$' ∉ s) :
    Start.renderLatex s = s := by
  unfold Start.renderLatex Start.renderInlines Start.renderBlocks
  rw [(replace_eq_self_of_not_mem reBlockMath _ '$' reBlockMath_none_of_ne s h).1]
  exact (replace_eq_self_of_not_mem reInlineMath _ '$' reInlineMath_none_of_ne s h).1

theorem buildDocs_renderLatex_eq : BuildDocs.renderLatex = Start.renderLatex := rfl

theorem takeWhile_ne_append (d : Char) (e rest : Str) (h : d ∉ e) :
    (e ++ d :: rest).takeWhile (fun c => c != d) = e ∧
    (e ++ d :: rest).dropWhile (fun c => c != d) = d :: rest := by
  induction e with
  | nil => simp [List.takeWhile, List.dropWhile]
  | cons c cs ih =>
    have hc : c ≠ d := fun h' => h (by simp [h'])
    have hcs : d ∉ cs := fun h' => h (by simp [h'])
    have hb : (c != d) = true := by simpa using hc
    simp [List.takeWhile, List.dropWhile, hb, ih hcs]

/-- The block pattern on a span `$$e$$`: it matches the whole span with the group `e`. -/
theorem reBlockMath_span (e rest : Str) (hne : e ≠ []) (hd : '$' ∉ e) :
    reBlockMath ('$' :: '$' :: (e ++ '$' :: '$' :: rest)) = some (e, e.length + 4) := by
  have h := takeWhile_ne_append '$' e ('$' :: rest) hd
  simp only [reBlockMath, h.1, h.2, hne, if_false]

theorem renderBlocks_span (e : Str) (hne : e ≠ []) (hd : '$' ∉ e) :
    Start.renderBlocks ("$$".toList ++ e ++ "$$".toList) = katexBlock (cleanLatex e) ∧
    matchCount reBlockMath ("$$".toList ++ e ++ "$$".toList) = 1 := by
  have h := reBlockMath_span e [] hne hd
  have hdrop : List.drop (e.length + 4 - 1) ('$' :: (e ++ ['$', '$'])) = [] := by
    apply List.drop_eq_nil_of_le; simp
  constructor
  · show replace reBlockMath _ ('$' :: '$' :: (e ++ ['$', '$'])) = _
    rw [replace_cons_some _ _ _ _ _ _ h, hdrop, replace_nil, List.append_nil]
  · show gcount reBlockMath 0 ('$' :: '$' :: (e ++ ['$', '$'])) = 1
    rw [gcount, h]
    show gcount reBlockMath (e.length + 4 - 1) _ + 1 = 1
    rw [gcount_skip, hdrop]
    simp [gcount]

/-- C1 fails as stated: on `$$a$b$` the first application leaves a `$` on each side of the
inline placeholder of `a`, and the second application turns the whole of it into one more
inline placeholder. -/
theorem renderLatex_twice_counterexample :
    Start.renderLatex "$$a$b$".toList
        = "$<span class=\"katex-inline\" data-latex=\"a\"></span>b$".toList ∧
      Start.renderLatex (Start.renderLatex "$$a$b$".toList)
        ≠ Start.renderLatex "$$a$b$".toList ∧
      BuildDocs.renderLatex (BuildDocs.renderLatex "$$a$b$".toList)
        ≠ BuildDocs.renderLatex "$$a$b$".toList := by
  decide

/-- C1 (amended): for every text `t` whose rendering `renderLatex t` contains no `$`,
applying `renderLatex` twice gives the same result as applying it once, in `start.js` and in
`build-docs.js`. -/
theorem renderLatex_idempotent_of_no_dollar (t : Str)
    (hs : '$' ∉ Start.renderLatex t) (hb : '$' ∉ BuildDocs.renderLatex t) :
    Start.renderLatex (Start.renderLatex t) = Start.renderLatex t ∧
      BuildDocs.renderLatex (BuildDocs.renderLatex t) = BuildDocs.renderLatex t :=
  ⟨renderLatex_eq_self_of_not_mem _ hs, renderLatex_eq_self_of_not_mem _ hb⟩

/-- C1 (amended), on a text with a block span and an inline span. -/
theorem renderLatex_idempotent_of_no_dollar_witness :
    '$' ∉ Start.renderLatex "see $$x^2$$ and $y$".toList ∧
      '$' ∉ BuildDocs.renderLatex "see $$x^2$$ and $y$".toList ∧
      Start.renderLatex (Start.renderLatex "see $$x^2$$ and $y$".toList)
        = Start.renderLatex "see $$x^2$$ and $y$".toList ∧
      BuildDocs.renderLatex (BuildDocs.renderLatex "see $$x^2$$ and $y$".toList)
        = BuildDocs.renderLatex "see $$x^2$$ and $y$".toList :=
  ⟨by decide, by decide,
    renderLatex_idempotent_of_no_dollar "see $$x^2$$ and $y$".toList (by decide) (by decide)⟩

/-- C2: for every non-empty expression `e` without `$`, `renderLatex` of `$$e$$` is exactly
the block placeholder carrying the cleaned expression `cleanLatex e` (trimmed, without
`\displaystyle`, double backslashes and whitespace runs collapsed); the block pass replaces
one match and the inline pass finds no match in its result, so no inline placeholder is
written.  This holds in `start.js` and in `build-docs.js`. -/
theorem renderLatex_block_span (e : Str) (hne : e ≠ []) (hd : '$' ∉ e) :
    (Start.renderLatex ("$$".toList ++ e ++ "$$".toList) = katexBlock (cleanLatex e) ∧
      matchCount reBlockMath ("$$".toList ++ e ++ "$$".toList) = 1 ∧
      matchCount reInlineMath (Start.renderBlocks ("$$".toList ++ e ++ "$$".toList)) = 0) ∧
    (BuildDocs.renderLatex ("$$".toList ++ e ++ "$$".toList) = katexBlock (cleanLatex e) ∧
      matchCount reBlockMath ("$$".toList ++ e ++ "$$".toList) = 1 ∧
      matchCount reInlineMath (BuildDocs.renderBlocks ("$$".toList ++ e ++ "$$".toList)) = 0) := by
  have hb := renderBlocks_span e hne hd
  have hi := replace_eq_self_of_not_mem reInlineMath
    (fun latex => katexInline (cleanLatex latex)) '$' reInlineMath_none_of_ne
    (katexBlock (cleanLatex e)) (dollar_not_mem_katexBlock e hd)
  have key : Start.renderLatex ("$$".toList ++ e ++ "$$".toList) = katexBlock (cleanLatex e) ∧
      matchCount reBlockMath ("$$".toList ++ e ++ "$$".toList) = 1 ∧
      matchCount reInlineMath (Start.renderBlocks ("$$".toList ++ e ++ "$$".toList)) = 0 := by
    refine ⟨?_, hb.2, ?_⟩
    · unfold Start.renderLatex Start.renderInlines
      rw [hb.1]; exact hi.1
    · rw [hb.1]; exact hi.2
  exact ⟨key, key⟩

/-- C2 on the input `$$a+b$$`: one block placeholder carrying `a+b`. -/
theorem renderLatex_block_span_witness :
    "a+b".toList ≠ [] ∧ '$' ∉ "a+b".toList ∧
      Start.renderLatex "$$a+b$$".toList
        = "<div class=\"katex-block\" data-latex=\"a+b\"></div>".toList ∧
      BuildDocs.renderLatex "$$a+b$$".toList
        = "<div class=\"katex-block\" data-latex=\"a+b\"></div>".toList :=
  ⟨by decide, by decide,
    (renderLatex_block_span "a+b".toList (by decide) (by decide)).1.1,
    (renderLatex_block_span "a+b".toList (by decide) (by decide)).2.1⟩

/-! ## The section locator -/

theorem includes_iff (s sub : Str) : includes s sub = true ↔ sub <:+: s := by
  induction s with
  | nil => cases sub <;> simp [includes]
  | cons c cs ih =>
    rw [includes, Bool.or_eq_true, ih, List.infix_cons_iff, List.isPrefixOf_iff_prefix]

/-- The block `if (node.content) { ... }` hits exactly when the content is present and one of
its four tests holds: exact equality, equality after entity decoding, equality of the
normalized strings as the page computes them, containment of one decoded string in the
other. -/
theorem nodeHit_iff (rt : Runtime) (sectionId : Str) (content : Content) :
    nodeHit rt sectionId content = true ↔
      content.truthy = true ∧
        (cleanNodeTitle content = trim sectionId ∨
          decodeEntities (cleanNodeTitle content) = decodeEntities (trim sectionId) ∨
          normalizeTitle rt (decodeEntities (cleanNodeTitle content))
            = normalizeTitle rt (decodeEntities (trim sectionId)) ∨
          (decodeEntities (trim sectionId) <:+: decodeEntities (cleanNodeTitle content) ∨
            decodeEntities (cleanNodeTitle content) <:+: decodeEntities (trim sectionId))) := by
  unfold nodeHit
  by_cases ht : content.truthy = true
  · simp only [ht, if_true, true_and]
    by_cases h1 : cleanNodeTitle content = trim sectionId
    · simp [h1]
    · by_cases h2 : decodeEntities (cleanNodeTitle content) = decodeEntities (trim sectionId)
      · simp [h2]
      · by_cases h3 : normalizeTitle rt (decodeEntities (cleanNodeTitle content))
            = normalizeTitle rt (decodeEntities (trim sectionId))
        · simp [h3]
        · simp only [h1, h2, h3, if_false, false_or, Bool.or_eq_true, includes_iff]
          split <;> simp_all
  · simp [ht]

/-- On ASCII strings the block of `findNode` does not depend on the runtime. -/
theorem nodeHit_ascii (rt : Runtime) (sectionId : Str) (content : Content)
    (h1 : (decodeEntities (cleanNodeTitle content)).all (fun c => decide (c.toNat < 128)) = true)
    (h2 : (decodeEntities (trim sectionId)).all (fun c => decide (c.toNat < 128)) = true) :
    nodeHit rt sectionId content = nodeHit asciiRuntime sectionId content := by
  unfold nodeHit normalizeTitle
  rw [rt.toLowerCase_ascii _ h1, rt.toLowerCase_ascii _ h2,
    asciiRuntime.toLowerCase_ascii _ h1, asciiRuntime.toLowerCase_ascii _ h2]

/-- On ASCII strings the folded strings of rule 3 do not depend on the runtime. -/
theorem foldedRule_ascii (rt : Runtime) (sectionId : Str) (node : RenderNode)
    (h1 : (decodeEntities (cleanNodeTitle node.content)).all
      (fun c => decide (c.toNat < 128)) = true)
    (h2 : (decodeEntities (trim sectionId)).all (fun c => decide (c.toNat < 128)) = true) :
    FoldedRule rt sectionId node ↔ FoldedRule asciiRuntime sectionId node := by
  unfold FoldedRule foldTitle
  rw [rt.toLowerCase_ascii _ h1, rt.toLowerCase_ascii _ h2,
    asciiRuntime.toLowerCase_ascii _ h1, asciiRuntime.toLowerCase_ascii _ h2]

/-- On ASCII strings the four rules do not depend on the runtime. -/
theorem matches_ascii (rt : Runtime) (sectionId : Str) (node : RenderNode)
    (h1 : (decodeEntities (cleanNodeTitle node.content)).all
      (fun c => decide (c.toNat < 128)) = true)
    (h2 : (decodeEntities (trim sectionId)).all (fun c => decide (c.toNat < 128)) = true) :
    Matches rt sectionId node ↔ Matches asciiRuntime sectionId node := by
  unfold Matches
  rw [foldedRule_ascii rt sectionId node h1 h2]

mutual
/-- The search of `findNode` returns the first node of the pre-order on which its block
hits. -/
theorem findNode_eq_find (rt : Runtime) (sectionId : Str) :
    ∀ node : RenderNode, Start.findNode rt sectionId node
      = (preorder node).find? (fun n => nodeHit rt sectionId n.content)
  | .mk content path children => by
    rw [Start.findNode, preorder, List.find?_cons]
    simp only [RenderNode.content]
    cases h : nodeHit rt sectionId content with
    | true => simp
    | false =>
      simp only [Bool.false_eq_true, if_false]
      exact findNodeChildren_eq_find rt sectionId children
/-- The loop over the children returns the first hit of their pre-order. -/
theorem findNodeChildren_eq_find (rt : Runtime) (sectionId : Str) :
    ∀ children : List RenderNode, Start.findNodeChildren rt sectionId children
      = (preorderChildren children).find? (fun n => nodeHit rt sectionId n.content)
  | [] => by simp [Start.findNodeChildren, preorderChildren]
  | child :: rest => by
    rw [Start.findNodeChildren, preorderChildren, List.find?_append,
      findNode_eq_find rt sectionId child, findNodeChildren_eq_find rt sectionId rest]
    cases (preorder child).find? (fun n => nodeHit rt sectionId n.content) <;> rfl
end

mutual
theorem buildDocs_findNode_eq (rt : Runtime) (sectionId : Str) :
    ∀ node : RenderNode,
      BuildDocs.findNode rt sectionId node = Start.findNode rt sectionId node
  | .mk content path children => by
    rw [BuildDocs.findNode, Start.findNode,
      buildDocs_findNodeChildren_eq rt sectionId children]
theorem buildDocs_findNodeChildren_eq (rt : Runtime) (sectionId : Str) :
    ∀ children : List RenderNode,
      BuildDocs.findNodeChildren rt sectionId children
        = Start.findNodeChildren rt sectionId children
  | [] => by rw [BuildDocs.findNodeChildren, Start.findNodeChildren]
  | child :: rest => by
    rw [BuildDocs.findNodeChildren, Start.findNodeChildren,
      buildDocs_findNode_eq rt sectionId child,
      buildDocs_findNodeChildren_eq rt sectionId rest]
end

/-- The search on a tree of one node. -/
theorem findNode_single (rt : Runtime) (sectionId : Str) (content : Content) (path : Str) :
    Start.findNode rt sectionId (.mk content path [])
        = (if nodeHit rt sectionId content then some (.mk content path []) else none) ∧
      BuildDocs.findNode rt sectionId (.mk content path [])
        = (if nodeHit rt sectionId content then some (.mk content path []) else none) := by
  rw [Start.findNode, BuildDocs.findNode, Start.findNodeChildren, BuildDocs.findNodeChildren]
  exact ⟨rfl, rfl⟩

/-- C3, the code at failing inputs.  `findNode` (of both viewer pages) does return the first
node of the depth-first pre-order on which one of its four tests hits, but its third test is
not the third rule: the page removes the runs of the letter `s` where the rule removes the
whitespace.  On the node `A B` the target `ab` satisfies the third rule (and so does `a&b` on
the node `A &amp; B`), and `findNode` reports not-found; on the node `Class` the target `cla`
satisfies none of the four rules, and `findNode` returns the node. -/
theorem findNode_third_test (rt : Runtime) :
    (∀ (sectionId : Str) (root : RenderNode),
      Start.findNode rt sectionId root
          = (preorder root).find? (fun n => nodeHit rt sectionId n.content) ∧
        BuildDocs.findNode rt sectionId root
          = (preorder root).find? (fun n => nodeHit rt sectionId n.content)) ∧
    (FoldedRule rt "ab".toList (.mk (.text "A B".toList) "0".toList []) ∧
      Matches rt "ab".toList (.mk (.text "A B".toList) "0".toList []) ∧
      Start.findNode rt "ab".toList (.mk (.text "A B".toList) "0".toList []) = none ∧
      BuildDocs.findNode rt "ab".toList (.mk (.text "A B".toList) "0".toList []) = none) ∧
    (Matches rt "a&b".toList (.mk (.text "A &amp; B".toList) "0".toList []) ∧
      Start.findNode rt "a&b".toList (.mk (.text "A &amp; B".toList) "0".toList []) = none ∧
      BuildDocs.findNode rt "a&b".toList (.mk (.text "A &amp; B".toList) "0".toList [])
        = none) ∧
    (¬ Matches rt "cla".toList (.mk (.text "Class".toList) "0".toList []) ∧
      Start.findNode rt "cla".toList (.mk (.text "Class".toList) "0".toList [])
        = some (.mk (.text "Class".toList) "0".toList []) ∧
      BuildDocs.findNode rt "cla".toList (.mk (.text "Class".toList) "0".toList [])
        = some (.mk (.text "Class".toList) "0".toList [])) := by
  refine ⟨?_, ⟨?_, ?_, ?_, ?_⟩, ⟨?_, ?_, ?_⟩, ⟨?_, ?_, ?_⟩⟩
  · intro sectionId root
    rw [buildDocs_findNode_eq]
    exact ⟨findNode_eq_find rt sectionId root, findNode_eq_find rt sectionId root⟩
  · rw [foldedRule_ascii rt _ _ (by decide) (by decide)]
    decide
  · rw [matches_ascii rt _ _ (by decide) (by decide)]
    decide
  · rw [(findNode_single rt _ _ _).1, nodeHit_ascii rt _ _ (by decide) (by decide)]
    rfl
  · rw [(findNode_single rt _ _ _).2, nodeHit_ascii rt _ _ (by decide) (by decide)]
    rfl
  · rw [matches_ascii rt _ _ (by decide) (by decide)]
    decide
  · rw [(findNode_single rt _ _ _).1, nodeHit_ascii rt _ _ (by decide) (by decide)]
    rfl
  · rw [(findNode_single rt _ _ _).2, nodeHit_ascii rt _ _ (by decide) (by decide)]
    rfl
  · rw [matches_ascii rt _ _ (by decide) (by decide)]
    decide
  · rw [(findNode_single rt _ _ _).1, nodeHit_ascii rt _ _ (by decide) (by decide)]
    rfl
  · rw [(findNode_single rt _ _ _).2, nodeHit_ascii rt _ _ (by decide) (by decide)]
    rfl

/-- The first element of a list that satisfies `p` comes no later than any element that
satisfies `p`, and no element before it satisfies `p`. -/
theorem find_position {α : Type} (p : α → Bool) (l : List α) (i : Nat) (a : α)
    (hi : l[i]? = some a) (ha : p a = true) :
    ∃ k, k ≤ i ∧ l.find? p = l[k]? ∧ (∃ n, l[k]? = some n ∧ p n = true) ∧
      ∀ m, m < k → ∀ n, l[m]? = some n → p n = false := by
  induction l generalizing i with
  | nil => simp at hi
  | cons x xs ih =>
    by_cases hx : p x = true
    · exact ⟨0, Nat.zero_le _, by simp [List.find?_cons, hx], ⟨x, by simp, hx⟩,
        fun m hm => absurd hm (Nat.not_lt_zero _)⟩
    · cases i with
      | zero =>
        simp only [List.getElem?_cons_zero, Option.some.injEq] at hi
        exact absurd (hi ▸ ha) hx
      | succ i =>
        simp only [List.getElem?_cons_succ] at hi
        obtain ⟨k, hk, hf, hn, hm⟩ := ih i hi
        refine ⟨k + 1, Nat.succ_le_succ hk, ?_, ?_, ?_⟩
        · simp only [List.find?_cons, List.getElem?_cons_succ]
          rw [Bool.not_eq_true] at hx
          rw [hx]; exact hf
        · simpa using hn
        · intro m hmk n hn'
          cases m with
          | zero =>
            simp only [List.getElem?_cons_zero, Option.some.injEq] at hn'
            rw [← hn']; simpa using hx
          | succ m =>
            simp only [List.getElem?_cons_succ] at hn'
            exact hm m (Nat.lt_of_succ_lt_succ hmk) n hn'

/-- C6: for every present node content `c` and target `t` such that the entity-decoded
cleaned title of `c` equals the entity-decoded trimmed `t`, `findNode` (of both viewer pages)
on the single-node tree with content `c` returns that node. -/
theorem findNode_decoded_title (rt : Runtime) (c : Content) (path t : Str)
    (hc : c.truthy = true)
    (hd : decodeEntities (cleanNodeTitle c) = decodeEntities (trim t)) :
    Start.findNode rt t (.mk c path []) = some (.mk c path []) ∧
      BuildDocs.findNode rt t (.mk c path []) = some (.mk c path []) := by
  have hit : nodeHit rt t c = true :=
    (nodeHit_iff rt t c).2 ⟨hc, Or.inr (Or.inl hd)⟩
  constructor
  · rw [Start.findNode, if_pos hit]
  · rw [BuildDocs.findNode, if_pos hit]

/-- C6 on the node titled `&amp;Intro` and the target `&Intro`: the raw strings differ and
the node is found. -/
theorem findNode_decoded_title_witness :
    cleanNodeTitle (.text "&amp;Intro".toList) ≠ trim "&Intro".toList ∧
      Start.findNode asciiRuntime "&Intro".toList
          (.mk (.text "&amp;Intro".toList) "0".toList [])
        = some (.mk (.text "&amp;Intro".toList) "0".toList []) ∧
      BuildDocs.findNode asciiRuntime "&Intro".toList
          (.mk (.text "&amp;Intro".toList) "0".toList [])
        = some (.mk (.text "&amp;Intro".toList) "0".toList []) :=
  ⟨by decide,
    findNode_decoded_title asciiRuntime (.text "&amp;Intro".toList) "0".toList
      "&Intro".toList (by decide) (by decide)⟩

/-- C7: in every render tree, if node `A` (at position `i` of the depth-first pre-order) comes
before node `B` (at position `j`), `A` satisfies only the substring rule against the target
and `B`'s cleaned title equals the target exactly, then `findNode` does not return `B`: it
returns the node at a position `k ≤ i < j`, on which one of the tests of `findNode` hits, and
on no node before position `k` does any test hit. -/
theorem findNode_earlier_substring_match (rt : Runtime) (sectionId : Str)
    (root A B : RenderNode) (i j : Nat)
    (hA : (preorder root)[i]? = some A) (_hB : (preorder root)[j]? = some B) (hij : i < j)
    (hAc : A.content.truthy = true) (_hA1 : ¬ ExactRule sectionId A)
    (_hA2 : ¬ DecodedRule sectionId A) (_hA3 : ¬ FoldedRule rt sectionId A)
    (hA4 : SubstringRule sectionId A)
    (_hBc : B.content.truthy = true) (_hB1 : ExactRule sectionId B) :
    ∃ k, k ≤ i ∧ k < j ∧ Start.findNode rt sectionId root = (preorder root)[k]? ∧
      (∃ n, (preorder root)[k]? = some n ∧ nodeHit rt sectionId n.content = true) ∧
      ∀ m, m < k → ∀ n, (preorder root)[m]? = some n →
        nodeHit rt sectionId n.content = false := by
  have hmA : nodeHit rt sectionId A.content = true :=
    (nodeHit_iff rt sectionId A.content).2 ⟨hAc, Or.inr (Or.inr (Or.inr hA4))⟩
  obtain ⟨k, hk, hf, hn, hm⟩ :=
    find_position (fun n => nodeHit rt sectionId n.content) (preorder root) i A hA hmA
  refine ⟨k, hk, Nat.lt_of_le_of_lt hk hij, ?_, hn, hm⟩
  rw [findNode_eq_find]; exact hf

/-- C7 on the children `Introduction` and `Intro` and the target `Intro`.  Under the root
`Doc` the first child is returned although the second one is the exact match; under the root
`Instro` the root is returned, on which the third test of the page hits (`instro` without
its `s` is `intro`). -/
theorem findNode_earlier_substring_match_witness :
    Start.findNode asciiRuntime "Intro".toList
        (.mk (.text "Doc".toList) "0".toList
          [.mk (.text "Introduction".toList) "0.1".toList [],
            .mk (.text "Intro".toList) "0.2".toList []])
      = some (.mk (.text "Introduction".toList) "0.1".toList []) ∧
    Start.findNode asciiRuntime "Intro".toList
        (.mk (.text "Instro".toList) "0".toList
          [.mk (.text "Introduction".toList) "0.1".toList [],
            .mk (.text "Intro".toList) "0.2".toList []])
      = some (.mk (.text "Instro".toList) "0".toList
          [.mk (.text "Introduction".toList) "0.1".toList [],
            .mk (.text "Intro".toList) "0.2".toList []]) ∧
    ∃ k, k ≤ 1 ∧ k < 2 ∧
      Start.findNode asciiRuntime "Intro".toList
          (.mk (.text "Instro".toList) "0".toList
            [.mk (.text "Introduction".toList) "0.1".toList [],
              .mk (.text "Intro".toList) "0.2".toList []])
        = (preorder (.mk (.text "Instro".toList) "0".toList
            [.mk (.text "Introduction".toList) "0.1".toList [],
              .mk (.text "Intro".toList) "0.2".toList []]))[k]? ∧
      (∃ n, (preorder (.mk (.text "Instro".toList) "0".toList
            [.mk (.text "Introduction".toList) "0.1".toList [],
              .mk (.text "Intro".toList) "0.2".toList []]))[k]? = some n ∧
        nodeHit asciiRuntime "Intro".toList n.content = true) ∧
      ∀ m, m < k → ∀ n, (preorder (.mk (.text "Instro".toList) "0".toList
            [.mk (.text "Introduction".toList) "0.1".toList [],
              .mk (.text "Intro".toList) "0.2".toList []]))[m]? = some n →
        nodeHit asciiRuntime "Intro".toList n.content = false :=
  ⟨by rfl, by rfl, findNode_earlier_substring_match asciiRuntime "Intro".toList
    (.mk (.text "Instro".toList) "0".toList
      [.mk (.text "Introduction".toList) "0.1".toList [],
        .mk (.text "Intro".toList) "0.2".toList []])
    (.mk (.text "Introduction".toList) "0.1".toList [])
    (.mk (.text "Intro".toList) "0.2".toList []) 1 2 rfl rfl (by decide)
    (by decide) (by decide) (by decide) (by decide) (by decide) (by decide) (by decide)⟩

/-! ## The heading extractor -/

theorem isSpace_ne_hash (c : Char) (h : isSpace c = true) : (c == '#') = false := by
  cases hc : (c == '#') with
  | false => rfl
  | true =>
    have : c = '#' := by simpa using hc
    subst this
    exact absurd h (by decide)

/-- A line that `matchHeading` accepts has the heading pattern, with the groups as the hash
marks and the rest. -/
theorem matchHeading_some (line h g : Str) (hm : matchHeading line = some (h, g)) :
    HeadingLine line h.length g ∧ h = line.takeWhile (fun c => c == '#') := by
  have hline : line = line.takeWhile (fun c => c == '#') ++
      ((line.dropWhile (fun c => c == '#')).takeWhile isSpace ++
        (line.dropWhile (fun c => c == '#')).dropWhile isSpace) := by
    rw [List.takeWhile_append_dropWhile, List.takeWhile_append_dropWhile]
  have hH : line.takeWhile (fun c => c == '#')
      = List.replicate (line.takeWhile (fun c => c == '#')).length '#' := by
    rw [List.eq_replicate_length]
    intro b hb
    simpa using List.mem_takeWhile_imp hb
  have hS : ∀ c ∈ (line.dropWhile (fun c => c == '#')).takeWhile isSpace, isSpace c = true :=
    fun c hc => List.mem_takeWhile_imp hc
  generalize hHd : line.takeWhile (fun c => c == '#') = H at hm hline hH
  generalize hSd : (line.dropWhile (fun c => c == '#')).takeWhile isSpace = S at hm hline hS
  generalize hTd : (line.dropWhile (fun c => c == '#')).dropWhile isSpace = T at hm hline
  simp only [matchHeading, hHd, hSd, hTd] at hm
  by_cases h1 : H.length = 0 ∨ 6 < H.length
  · rw [if_pos h1] at hm; cases hm
  · rw [if_neg h1] at hm
    have hn : 1 ≤ H.length ∧ H.length ≤ 6 := by omega
    by_cases h2 : S = []
    · rw [if_pos h2] at hm; cases hm
    · rw [if_neg h2] at hm
      by_cases h3 : T ≠ []
      · rw [if_pos h3] at hm
        by_cases h4 : T.all (fun c => !isLineTerminator c) = true
        · rw [if_pos h4] at hm
          simp only [Option.some.injEq, Prod.mk.injEq] at hm
          obtain ⟨rfl, rfl⟩ := hm
          refine ⟨⟨S, ?_, hn.1, hn.2, h2, hS, h3, ?_⟩, rfl⟩
          · rw [← hH, List.append_assoc]; exact hline
          · intro c hc
            have := List.all_eq_true.1 h4 c hc
            simpa using this
        · rw [if_neg h4] at hm; cases hm
      · rw [if_neg h3] at hm
        have hT : T = [] := by simpa using h3
        subst hT
        rcases hrev : S.reverse with _ | ⟨c, _ | ⟨d, tl⟩⟩
        · rw [hrev] at hm; cases hm
        · rw [hrev] at hm; cases hm
        · rw [hrev] at hm
          simp only at hm
          by_cases h5 : isLineTerminator c = true
          · rw [if_pos h5] at hm; cases hm
          · rw [if_neg h5] at hm
            simp only [Option.some.injEq, Prod.mk.injEq] at hm
            obtain ⟨rfl, rfl⟩ := hm
            have hSeq : S = (d :: tl).reverse ++ [c] := by
              have := congrArg List.reverse hrev
              rw [List.reverse_reverse] at this
              rw [this, List.reverse_cons (a := c)]
            refine ⟨⟨(d :: tl).reverse, ?_, hn.1, hn.2, by simp, ?_, by simp, ?_⟩, rfl⟩
            · rw [← hH, List.append_assoc, ← hSeq]
              simpa using hline
            · intro x hx
              exact hS x (by rw [hSeq]; exact List.mem_append_left _ hx)
            · intro x hx
              have : x = c := by simpa using hx
              subst this
              simpa using h5

/-- A line with the heading pattern is accepted by `matchHeading`: group 1 is the `n` hash
marks and group 2 trims to the same title as the rest `r`. -/
theorem matchHeading_of_headingLine (line : Str) (n : Nat) (r : Str)
    (hl : HeadingLine line n r) :
    ∃ h g, matchHeading line = some (h, g) ∧ h.length = n ∧ trim g = trim r := by
  obtain ⟨w, rfl, hn1, hn6, hw, hws, hr, hrl⟩ := hl
  obtain ⟨w0, w', rfl⟩ := List.exists_cons_of_ne_nil hw
  have hw0 : isSpace w0 = true := hws w0 (by simp)
  have hw0h : (w0 == '#') = false := isSpace_ne_hash w0 hw0
  have hrep : ∀ a ∈ List.replicate n '#', (fun c => c == '#') a = true := by
    intro a ha
    rw [List.eq_of_mem_replicate ha]; rfl
  have hH : (List.replicate n '#' ++ (w0 :: w') ++ r).takeWhile (fun c => c == '#')
      = List.replicate n '#' := by
    rw [List.append_assoc, List.takeWhile_append_of_pos hrep]
    simp [List.takeWhile, hw0h]
  have hD : (List.replicate n '#' ++ (w0 :: w') ++ r).dropWhile (fun c => c == '#')
      = (w0 :: w') ++ r := by
    rw [List.append_assoc, List.dropWhile_append_of_pos hrep]
    simp [List.dropWhile, hw0h]
  have hS : ((w0 :: w') ++ r).takeWhile isSpace = (w0 :: w') ++ r.takeWhile isSpace :=
    List.takeWhile_append_of_pos hws
  have hT : ((w0 :: w') ++ r).dropWhile isSpace = r.dropWhile isSpace :=
    List.dropWhile_append_of_pos hws
  have hlen : ¬ ((List.replicate n '#').length = 0 ∨ 6 < (List.replicate n '#').length) := by
    rw [List.length_replicate]; omega
  have hSne : ¬ ((w0 :: w') ++ r.takeWhile isSpace = []) := by simp
  simp only [matchHeading, hH, hD, hS, hT, if_neg hlen, if_neg hSne]
  by_cases h3 : r.dropWhile isSpace ≠ []
  · rw [if_pos h3]
    have h4 : (r.dropWhile isSpace).all (fun c => !isLineTerminator c) = true := by
      rw [List.all_eq_true]
      intro c hc
      have := hrl c ((List.dropWhile_sublist _).subset hc)
      simp [this]
    rw [if_pos h4]
    refine ⟨_, _, rfl, List.length_replicate _ _, ?_⟩
    unfold trim
    rw [List.dropWhile_idempotent]
  · rw [if_neg h3]
    have hT0 : r.dropWhile isSpace = [] := by simpa using h3
    have hall : ∀ x ∈ r, isSpace x = true := List.dropWhile_eq_nil_iff.1 hT0
    have htk : r.takeWhile isSpace = r := List.takeWhile_eq_self_iff.2 hall
    obtain ⟨r', c, rfl⟩ : ∃ r' c, r = r' ++ [c] := by
      rcases List.eq_nil_or_concat r with h | ⟨r', c, h⟩
      · exact absurd h hr
      · exact ⟨r', c, by simpa using h⟩
    have hc : isLineTerminator c = false := hrl c (by simp)
    have hcs : isSpace c = true := hall c (by simp)
    rw [htk]
    have hrev : ((w0 :: w') ++ (r' ++ [c])).reverse
        = c :: (r'.reverse ++ (w'.reverse ++ [w0])) := by simp
    rw [hrev]
    rcases hx : r'.reverse ++ (w'.reverse ++ [w0]) with _ | ⟨d, tl⟩
    · simp at hx
    · simp only [hc, Bool.false_eq_true, if_false]
      refine ⟨_, _, rfl, List.length_replicate _ _, ?_⟩
      unfold trim
      rw [hT0]
      simp [List.dropWhile, hcs]

/-- The entries of the loop over the lines: one for each line that `matchHeading` accepts. -/
theorem mem_tocOfLines (idx : Nat) (lines : List Str) (e : TocEntry) :
    e ∈ tocOfLines idx lines ↔
      ∃ i line h g, lines[i]? = some line ∧ matchHeading line = some (h, g) ∧
        e = tocEntry h g (idx + i) := by
  induction lines generalizing idx e with
  | nil => simp [tocOfLines]
  | cons l ls ih =>
    constructor
    · intro he
      rw [tocOfLines] at he
      split at he
      · rename_i h g hm
        rcases List.mem_cons.1 he with he | he
        · exact ⟨0, l, h, g, by simp, hm, by simpa using he⟩
        · obtain ⟨i, line, h', g', hi, hm', rfl⟩ := (ih (idx + 1) e).1 he
          refine ⟨i + 1, line, h', g', by simpa using hi, hm', ?_⟩
          rw [show idx + 1 + i = idx + (i + 1) by omega]
      · obtain ⟨i, line, h', g', hi, hm', rfl⟩ := (ih (idx + 1) e).1 he
        refine ⟨i + 1, line, h', g', by simpa using hi, hm', ?_⟩
        rw [show idx + 1 + i = idx + (i + 1) by omega]
    · rintro ⟨i, line, h, g, hi, hm, rfl⟩
      cases i with
      | zero =>
        simp only [List.getElem?_cons_zero, Option.some.injEq] at hi
        subst hi
        rw [tocOfLines, hm]
        simp
      | succ i =>
        simp only [List.getElem?_cons_succ] at hi
        have hin : tocEntry h g (idx + (i + 1)) ∈ tocOfLines (idx + 1) ls := by
          refine (ih (idx + 1) _).2 ⟨i, line, h, g, hi, hm, ?_⟩
          rw [show idx + 1 + i = idx + (i + 1) by omega]
        rw [tocOfLines]
        split
        · exact List.mem_cons_of_mem _ hin
        · exact hin

/-- The line numbers of the entries increase strictly. -/
theorem tocOfLines_pairwise (idx : Nat) (lines : List Str) :
    (tocOfLines idx lines).Pairwise (fun a b => a.line < b.line) := by
  induction lines generalizing idx with
  | nil => simp [tocOfLines]
  | cons l ls ih =>
    rw [tocOfLines]
    split
    · rw [List.pairwise_cons]
      refine ⟨?_, ih (idx + 1)⟩
      intro b hb
      obtain ⟨i, _, _, _, _, _, rfl⟩ := (mem_tocOfLines (idx + 1) ls b).1 hb
      show idx + 1 < idx + 1 + i + 1
      omega
    · exact ih (idx + 1)

theorem reLit_cons_ne (p c : Char) (ps cs : Str) (h : c ≠ p) :
    reLit (p :: ps) (c :: cs) = none := by
  have : (p == c) = false := by simpa using fun h' : p = c => h h'.symm
  simp [reLit, List.isPrefixOf, this]

/-- Replacing `\r\n` by `\n` undoes `withCRLF` on a text without carriage return. -/
theorem replace_crlf_withCRLF (t : Str) (h : '\r' ∉ t) :
    replace (reLit "\r\n".toList) (fun _ => "\n".toList) (withCRLF t) = t := by
  induction t with
  | nil => simp [withCRLF, replace_nil]
  | cons c cs ih =>
    have hc : c ≠ '\r' := fun h' => h (by simp [h'])
    have hcs : '\r' ∉ cs := fun h' => h (by simp [h'])
    have ih' := ih hcs
    unfold withCRLF at ih' ⊢
    by_cases hn : c = '\n'
    · subst hn
      have h1 : reLit "\n".toList ('\n' :: cs) = some ([], 1) := by
        simp [reLit, List.isPrefixOf]
      rw [replace_cons_some _ _ _ _ _ _ h1]
      have h2 : ∀ rest, reLit "\r\n".toList ('\r' :: '\n' :: rest) = some ([], 2) := by
        intro rest; simp [reLit, List.isPrefixOf]
      show replace _ _ ('\r' :: '\n' :: replace _ _ (cs.drop 0)) = _
      rw [replace_cons_some _ _ _ _ _ _ (h2 _)]
      show '\n' :: replace _ _ (replace _ _ cs) = _
      rw [ih']
    · have h1 : reLit "\n".toList (c :: cs) = none := reLit_cons_ne _ _ _ _ hn
      rw [replace_cons_none _ _ _ _ h1]
      have h2 : ∀ rest, reLit "\r\n".toList (c :: rest) = none :=
        fun rest => reLit_cons_ne _ _ _ _ hc
      rw [replace_cons_none _ _ _ _ (h2 _), ih']

/-- C4 fails as stated: the single line `# a\rb` has one `#` at its start, then whitespace,
then three more characters, and `parseTOC` returns no entry for it, since `.` does not match
the carriage return. -/
theorem parseTOC_carriage_return_counterexample :
    tocLines "# a\rb".toList = ["# a\rb".toList] ∧
      WordedHeading "# a\rb".toList 1 "a\rb".toList ∧
      parseTOC "# a\rb".toList = [] :=
  ⟨by decide, ⟨" ".toList, by decide, by decide, by decide, by decide, by decide, by decide⟩,
    by decide⟩

/-- C4 (amended): for every text, `parseTOC` returns, in source order (strictly increasing
line numbers), exactly one entry per line that has the heading pattern (1 to 6 `#` at line
start, then whitespace, then at least one more character, with no carriage return, U+2028 or
U+2029 after the whitespace) and no entry for any other line; each entry has
level = the number of leading `#` (so 1 ≤ level ≤ 6), title = the text after the separator
trimmed, and line = the 1-based index of its line.  On the text
`# Title\n## Sub A\ntext\n### Sub B` it yields (1, Title, 1), (2, Sub A, 2), (3, Sub B, 4). -/
theorem parseTOC_entries :
    (∀ text : Str,
      (parseTOC text).Pairwise (fun a b => a.line < b.line) ∧
      (∀ e ∈ parseTOC text, 1 ≤ e.level ∧ e.level ≤ 6 ∧ 1 ≤ e.line ∧
        ∃ line r, (tocLines text)[e.line - 1]? = some line ∧ HeadingLine line e.level r ∧
          e.level = (line.takeWhile (fun c => c == '#')).length ∧ e.title = trim r) ∧
      (∀ i line n r, (tocLines text)[i]? = some line → HeadingLine line n r →
        ∃ e ∈ parseTOC text, e.line = i + 1 ∧ e.level = n ∧ e.title = trim r)) ∧
    (parseTOC "# Title\n## Sub A\ntext\n### Sub B".toList).map
        (fun e => (e.level, e.title, e.line))
      = [(1, "Title".toList, 1), (2, "Sub A".toList, 2), (3, "Sub B".toList, 4)] := by
  refine ⟨fun text => ⟨tocOfLines_pairwise 0 _, ?_, ?_⟩, by decide⟩
  · intro e he
    obtain ⟨i, line, h, g, hi, hm, rfl⟩ := (mem_tocOfLines 0 _ e).1 he
    obtain ⟨hl, hh⟩ := matchHeading_some line h g hm
    obtain ⟨w, hw1, hn1, hn6, hw⟩ := hl
    refine ⟨hn1, hn6, Nat.succ_le_succ (Nat.zero_le _), line, g, ?_, ⟨w, hw1, hn1, hn6, hw⟩, ?_,
      rfl⟩
    · show (tocLines text)[0 + i + 1 - 1]? = some line
      rw [show 0 + i + 1 - 1 = i by omega]; exact hi
    · show h.length = _
      rw [hh]
  · intro i line n r hi hl
    obtain ⟨h, g, hm, hlen, htrim⟩ := matchHeading_of_headingLine line n r hl
    refine ⟨tocEntry h g (0 + i), (mem_tocOfLines 0 _ _).2 ⟨i, line, h, g, hi, hm, rfl⟩, ?_,
      hlen, htrim⟩
    show 0 + i + 1 = i + 1
    omega

/-- C9 fails as stated: in the line `#\tTitle` the hash mark is followed by a tab, not by a
space, and `parseTOC` returns an entry for it. -/
theorem parseTOC_tab_counterexample :
    ¬ SpaceHeading "#\tTitle".toList ∧
      parseTOC "#\tTitle".toList = [tocEntry "#".toList "Title".toList 0] ∧
      (tocEntry "#".toList "Title".toList 0).title = "Title".toList := by
  refine ⟨?_, by decide, by decide⟩
  rintro ⟨n, r, h, h1, h6, _⟩
  have h' : ['#', '\t', 'T', 'i', 't', 'l', 'e'] = List.replicate n '#' ++ ' ' :: r := h
  interval_cases n <;> simp [List.replicate] at h'

/-- C9 (amended): a line yields a TocEntry if and only if it consists of one to six hash
marks, followed by one or more whitespace characters (a space, a tab or any other `\s`
character), followed by a non-empty rest of line that holds no carriage return, U+2028 or
U+2029; every other line (including one with more than six hash marks) is skipped. -/
theorem parseTOC_entry_iff (text : Str) (i : Nat) (line : Str)
    (hi : (tocLines text)[i]? = some line) :
    (∃ e ∈ parseTOC text, e.line = i + 1) ↔ ∃ n r, HeadingLine line n r := by
  constructor
  · rintro ⟨e, he, hline⟩
    obtain ⟨k, line', h, g, hk, hm, rfl⟩ := (mem_tocOfLines 0 _ e).1 he
    have hki : k = i := by
      have : 0 + k + 1 = i + 1 := hline
      omega
    subst hki
    rw [hi] at hk
    cases hk
    exact ⟨h.length, g, (matchHeading_some line h g hm).1⟩
  · rintro ⟨n, r, hl⟩
    obtain ⟨h, g, hm, _, _⟩ := matchHeading_of_headingLine line n r hl
    refine ⟨tocEntry h g (0 + i), (mem_tocOfLines 0 _ _).2 ⟨i, line, h, g, hi, hm, rfl⟩, ?_⟩
    show 0 + i + 1 = i + 1
    omega

/-- C9 (amended) on the text `#\tTitle\n####### Seven`: the first line, with a tab after
the hash mark, yields an entry, and the line with seven hash marks yields none. -/
theorem parseTOC_entry_iff_witness :
    (tocLines "#\tTitle\n####### Seven".toList)[0]? = some "#\tTitle".toList ∧
      ((∃ e ∈ parseTOC "#\tTitle\n####### Seven".toList, e.line = 0 + 1) ↔
        ∃ n r, HeadingLine "#\tTitle".toList n r) ∧
      (parseTOC "#\tTitle\n####### Seven".toList).map (fun e => e.line) = [1] :=
  ⟨by decide,
    parseTOC_entry_iff "#\tTitle\n####### Seven".toList 0 "#\tTitle".toList (by decide),
    by decide⟩

/-- C10: for every text `t` without carriage return, `parseTOC` applied to `t` with every
`\n` replaced by `\r\n` returns the same entries as `parseTOC t`. -/
theorem parseTOC_withCRLF (t : Str) (h : '\r' ∉ t) :
    parseTOC (withCRLF t) = parseTOC t := by
  have hre : ∀ c cs, c ≠ '\r' → reLit "\r\n".toList (c :: cs) = none :=
    fun c cs hc => reLit_cons_ne _ _ _ _ hc
  unfold parseTOC tocLines
  rw [replace_crlf_withCRLF t h,
    (replace_eq_self_of_not_mem _ (fun _ => "\n".toList) '\r' hre t h).1]

/-- C10 on the text `# A\ntext\n## B`. -/
theorem parseTOC_withCRLF_witness :
    '\r' ∉ "# A\ntext\n## B".toList ∧
      withCRLF "# A\ntext\n## B".toList = "# A\r\ntext\r\n## B".toList ∧
      parseTOC (withCRLF "# A\ntext\n## B".toList) = parseTOC "# A\ntext\n## B".toList :=
  ⟨by decide, by decide, parseTOC_withCRLF "# A\ntext\n## B".toList (by decide)⟩

/-! ## The id chain -/

/-- Every character of the result of a replace is a character of the input at which the
pattern did not match, or comes from a replacement. -/
theorem mem_gsub_cases (re : Regex) (f : Str → Str) (x : Char) (k : Nat) (s : Str)
    (h : x ∈ gsub re f k s) : (x ∈ s ∧ ∃ cs, re (x :: cs) = none) ∨ ∃ g, x ∈ f g := by
  induction s generalizing k with
  | nil => simp [gsub] at h
  | cons c cs ih =>
    have lift : ((x ∈ cs ∧ ∃ cs', re (x :: cs') = none) ∨ ∃ g, x ∈ f g) →
        (x ∈ c :: cs ∧ ∃ cs', re (x :: cs') = none) ∨ ∃ g, x ∈ f g := by
      rintro (⟨h1, h2⟩ | h1)
      · exact Or.inl ⟨List.mem_cons_of_mem _ h1, h2⟩
      · exact Or.inr h1
    cases k with
    | zero =>
      simp only [gsub] at h
      split at h
      · rename_i g n _
        rcases List.mem_append.1 h with h | h
        · exact Or.inr ⟨g, h⟩
        · exact lift (ih _ h)
      · rename_i hnone
        rcases List.mem_cons.1 h with h | h
        · subst h
          exact Or.inl ⟨by simp, cs, hnone⟩
        · exact lift (ih _ h)
    | succ k =>
      simp only [gsub] at h
      exact lift (ih _ h)

theorem toLower_upper (n : Nat) (h1 : 65 ≤ n) (h2 : n ≤ 90) :
    97 ≤ (Char.ofNat (n + 32)).toNat ∧ (Char.ofNat (n + 32)).toNat ≤ 122 := by
  interval_cases n <;> decide

/-- Lower-casing a character that the first two steps of the id chain let through gives a
character allowed in an id. -/
theorem idChar_toLower (y : Char)
    (h : isWord y = true ∨ isCJK y = true ∨ y = '-') : IdChar y.toLower := by
  unfold Char.toLower
  simp only []
  by_cases hu : y.toNat ≥ 65 ∧ y.toNat ≤ 90
  · rw [if_pos hu]
    exact Or.inl (toLower_upper y.toNat hu.1 hu.2)
  · rw [if_neg hu]
    rcases h with h | h | h
    · simp only [isWord, Bool.or_eq_true, Bool.and_eq_true, decide_eq_true_eq] at h
      rcases h with ((h | h) | h) | h
      · exact absurd h hu
      · exact Or.inl h
      · exact Or.inr (Or.inl h)
      · refine Or.inr (Or.inr (Or.inl ?_))
        rw [← Char.ofNat_toNat y, h]
    · simp only [isCJK, Bool.and_eq_true, decide_eq_true_eq] at h
      exact Or.inr (Or.inr (Or.inr (Or.inl h)))
    · exact Or.inr (Or.inr (Or.inr (Or.inr h)))

theorem replace_reNotIdChar_mem (x : Char) (title : Str)
    (h : x ∈ replace reNotIdChar (fun _ => []) title) :
    isWord x = true ∨ isCJK x = true ∨ isSpace x = true ∨ x = '-' := by
  rcases mem_gsub_cases _ _ _ _ _ h with ⟨_, cs, hn⟩ | ⟨_, hg⟩
  · simp only [reNotIdChar] at hn
    split at hn
    · rename_i hc
      simpa [Bool.or_eq_true, or_assoc] using hc
    · cases hn
  · simp at hg

theorem replace_reSpaces_mem (x : Char) (rep s : Str)
    (h : x ∈ replace reSpaces (fun _ => rep) s) : (x ∈ s ∧ isSpace x = false) ∨ x ∈ rep := by
  rcases mem_gsub_cases _ _ _ _ _ h with ⟨hx, cs, hn⟩ | ⟨_, hg⟩
  · left
    refine ⟨hx, ?_⟩
    simp only [reSpaces] at hn
    split at hn
    · rename_i hc
      cases hs : isSpace x with
      | false => rfl
      | true => simp [List.takeWhile, hs] at hc
    · cases hn
  · exact Or.inr hg

/-- Away from an all-hyphen input, the trailing run of hyphens of `c :: cs` is that of `cs`. -/
theorem rdropWhile_cons_of_not_all (p : Char → Bool) (c : Char) (cs : Str)
    (h : ¬ ∀ x ∈ c :: cs, p x = true) :
    (c :: cs).rdropWhile p = c :: cs.rdropWhile p := by
  induction cs using List.reverseRecOn with
  | nil =>
    have hc : ¬ p c = true := fun hc => h (by simpa using hc)
    simp [List.rdropWhile_singleton, hc]
  | append_singleton cs' x ih =>
    by_cases hx : p x = true
    · have h' : ¬ ∀ y ∈ c :: cs', p y = true := by
        intro hall
        apply h
        intro y hy
        rcases List.mem_cons.1 hy with hy | hy
        · exact hall y (by simp [hy])
        · rcases List.mem_append.1 hy with hy | hy
          · exact hall y (List.mem_cons_of_mem _ hy)
          · have : y = x := by simpa using hy
            rw [this]; exact hx
      rw [← List.cons_append, List.rdropWhile_concat_pos _ _ _ hx,
        List.rdropWhile_concat_pos _ _ _ hx, ih h']
    · rw [← List.cons_append, List.rdropWhile_concat_neg _ _ _ hx,
        List.rdropWhile_concat_neg _ _ _ hx, List.cons_append]

/-- The second alternative of the hyphen pattern removes the trailing run of hyphens. -/
theorem replace_reHyphensAtEnd (u : Str) :
    replace reHyphensAtEnd (fun _ => []) u = u.rdropWhile (fun c => c == '-') := by
  induction u with
  | nil => simp [replace_nil, List.rdropWhile_nil]
  | cons c cs ih =>
    by_cases hall : (c :: cs).all (fun c => c == '-') = true
    · have hre : reHyphensAtEnd (c :: cs) = some ([], (c :: cs).length) := by
        simp only [reHyphensAtEnd]
        rw [if_pos ⟨by simp, hall⟩]
      rw [replace_cons_some _ _ _ _ _ _ hre]
      have hd : List.drop ((c :: cs).length - 1) cs = [] := by
        apply List.drop_eq_nil_of_le; simp
      rw [hd, replace_nil, List.nil_append]
      exact (List.rdropWhile_eq_nil_iff.2 (List.all_eq_true.1 hall)).symm
    · have hre : reHyphensAtEnd (c :: cs) = none := by
        simp only [reHyphensAtEnd]
        rw [if_neg (fun h => hall h.2)]
      rw [replace_cons_none _ _ _ _ hre, ih]
      exact (rdropWhile_cons_of_not_all _ c cs
        (fun h => hall (List.all_eq_true.2 h))).symm

theorem trimHyphens_eq (s : Str) :
    trimHyphens s = (s.dropWhile (fun c => c == '-')).rdropWhile (fun c => c == '-') :=
  replace_reHyphensAtEnd _

/-- The result of `trimHyphens` keeps characters of its input and neither begins nor ends
with a hyphen. -/
theorem trimHyphens_spec (s : Str) :
    (∀ c ∈ trimHyphens s, c ∈ s) ∧ (trimHyphens s).head? ≠ some '-' ∧
      (trimHyphens s).getLast? ≠ some '-' := by
  rw [trimHyphens_eq]
  refine ⟨?_, ?_, ?_⟩
  · intro c hc
    exact (List.dropWhile_sublist _).subset ((List.rdropWhile_prefix _ _).subset hc)
  · intro hhead
    obtain ⟨t, ht⟩ := List.rdropWhile_prefix (fun c => c == '-')
      (s.dropWhile (fun c => c == '-'))
    rcases hv : (s.dropWhile (fun c => c == '-')).rdropWhile (fun c => c == '-') with _ | ⟨a, v⟩
    · rw [hv] at hhead; simp at hhead
    · rw [hv] at hhead ht
      have ha : a = '-' := by simpa using hhead
      have hne : s.dropWhile (fun c => c == '-') ≠ [] := by
        rw [← ht]; simp
      have := List.head_dropWhile_not (fun c => c == '-') s hne
      have hh : (s.dropWhile (fun c => c == '-')).head hne = a := by
        simp [← ht]
      rw [hh, ha] at this
      simp at this
  · intro hlast
    rcases hv : (s.dropWhile (fun c => c == '-')).rdropWhile (fun c => c == '-') with _ | ⟨a, v⟩
    · rw [hv] at hlast; simp at hlast
    · have hne : (s.dropWhile (fun c => c == '-')).rdropWhile (fun c => c == '-') ≠ [] := by
        rw [hv]; simp
      have hnot := List.rdropWhile_last_not (fun c => c == '-') _ hne
      rw [List.getLast?_eq_getLast _ hne] at hlast
      have : ((s.dropWhile (fun c => c == '-')).rdropWhile (fun c => c == '-')).getLast hne
          = '-' := by simpa using hlast
      rw [this] at hnot
      simp at hnot

/-- C8: for every heading title, the id produced by `parseTOC` (which is `makeId` of the
title of the entry) consists only of lower-case ASCII letters, digits, underscores, CJK
characters in U+4E00..U+9FA5 and hyphens, and neither begins nor ends with a hyphen; the
title `1. Motion` gives the id `1-motion`. -/
theorem makeId_chars :
    (∀ title : Str, (∀ c ∈ makeId title, IdChar c) ∧ (makeId title).head? ≠ some '-' ∧
      (makeId title).getLast? ≠ some '-') ∧
    (∀ text : Str, ∀ e ∈ parseTOC text, e.id = makeId e.title) ∧
    makeId "1. Motion".toList = "1-motion".toList := by
  refine ⟨fun title => ?_, ?_, by decide⟩
  · obtain ⟨hmem, hhead, hlast⟩ := trimHyphens_spec (toLowerCase
      (replace reSpaces (fun _ => "-".toList) (replace reNotIdChar (fun _ => []) title)))
    refine ⟨?_, hhead, hlast⟩
    intro c hc
    have hc' := hmem c hc
    unfold toLowerCase at hc'
    obtain ⟨y, hy, rfl⟩ := List.mem_map.1 hc'
    apply idChar_toLower
    rcases replace_reSpaces_mem _ _ _ hy with ⟨hy1, hy2⟩ | hy1
    · rcases replace_reNotIdChar_mem _ _ hy1 with h | h | h | h
      · exact Or.inl h
      · exact Or.inr (Or.inl h)
      · rw [hy2] at h; cases h
      · exact Or.inr (Or.inr h)
    · exact Or.inr (Or.inr (by simpa using hy1))
  · intro text e he
    obtain ⟨i, line, h, g, _, _, rfl⟩ := (mem_tocOfLines 0 _ e).1 he
    rfl

/-! ## The document tree scanner -/

theorem Item.type_cases (a : Item) :
    (a.type = "folder".toList ∧ a.type ≠ "file".toList) ∨
      (a.type = "file".toList ∧ a.type ≠ "folder".toList) := by
  cases a with
  | folder _ _ _ =>
    refine Or.inl ⟨rfl, ?_⟩
    show "folder".toList ≠ "file".toList
    decide
  | file _ _ =>
    refine Or.inr ⟨rfl, ?_⟩
    show "file".toList ≠ "folder".toList
    decide

theorem buildDocs_compareItems_eq (collate : Str → Str → Int) :
    BuildDocs.compareItems collate = Start.compareItems collate := by
  funext a b
  unfold BuildDocs.compareItems Start.compareItems
  rcases a.type_cases with ⟨ha, ha'⟩ | ⟨ha, ha'⟩ <;>
    rcases b.type_cases with ⟨hb, hb'⟩ | ⟨hb, hb'⟩ <;>
    simp [ha, hb]

/-- The comparison function of the scanner is total when the collation is. -/
theorem compareItems_total (collate : Str → Str → Int)
    (htotal : ∀ a b, collate a b ≤ 0 ∨ collate b a ≤ 0) (a b : Item) :
    Start.compareItems collate a b ≤ 0 ∨ Start.compareItems collate b a ≤ 0 := by
  unfold Start.compareItems
  rcases a.type_cases with ⟨ha, ha'⟩ | ⟨ha, ha'⟩ <;>
    rcases b.type_cases with ⟨hb, hb'⟩ | ⟨hb, hb'⟩ <;>
    simp [ha, hb, htotal]

/-- The comparison function of the scanner is transitive when the collation is. -/
theorem compareItems_trans (collate : Str → Str → Int)
    (htrans : ∀ a b c, collate a b ≤ 0 → collate b c ≤ 0 → collate a c ≤ 0) (a b c : Item)
    (hab : Start.compareItems collate a b ≤ 0) (hbc : Start.compareItems collate b c ≤ 0) :
    Start.compareItems collate a c ≤ 0 := by
  unfold Start.compareItems at hab hbc ⊢
  rcases a.type_cases with ⟨ha, ha'⟩ | ⟨ha, ha'⟩ <;>
    rcases b.type_cases with ⟨hb, hb'⟩ | ⟨hb, hb'⟩ <;>
    rcases c.type_cases with ⟨hc, hc'⟩ | ⟨hc, hc'⟩ <;>
    simp [ha, hb, hc] at hab hbc ⊢ <;>
    exact htrans _ _ _ hab hbc

/-- A list sorted by the comparison function has its folders first and its names ordered. -/
theorem ordered_of_pairwise (collate : Str → Str → Int) (items : List Item)
    (h : items.Pairwise (fun a b => Start.compareItems collate a b ≤ 0)) :
    FoldersFirst items ∧ NamesOrdered collate items := by
  constructor
  · refine h.imp ?_
    intro a b hab ⟨ha, hb⟩
    unfold Start.compareItems at hab
    simp [ha, hb] at hab
  · refine h.imp ?_
    intro a b hab hty
    unfold Start.compareItems at hab
    simpa [hty] using hab

/-- The result of the sort of the scanner is ordered, for a total and transitive collation. -/
theorem sortBy_ordered (collate : Str → Str → Int)
    (htotal : ∀ a b, collate a b ≤ 0 ∨ collate b a ≤ 0)
    (htrans : ∀ a b c, collate a b ≤ 0 → collate b c ≤ 0 → collate a c ≤ 0)
    (items : List Item) :
    FoldersFirst (sortBy (Start.compareItems collate) items) ∧
      NamesOrdered collate (sortBy (Start.compareItems collate) items) := by
  apply ordered_of_pairwise
  haveI : IsTotal Item (fun a b => Start.compareItems collate a b ≤ 0) :=
    ⟨compareItems_total collate htotal⟩
  haveI : IsTrans Item (fun a b => Start.compareItems collate a b ≤ 0) :=
    ⟨compareItems_trans collate htrans⟩
  exact List.sorted_insertionSort (fun a b => Start.compareItems collate a b ≤ 0) items

theorem mem_levelsOfItems (level : List Item) (items : List Item) :
    level ∈ levelsOfItems items ↔ ∃ item ∈ items, level ∈ item.levels := by
  induction items with
  | nil => simp [levelsOfItems]
  | cons item rest ih => simp [levelsOfItems, ih]

theorem mem_levelsOfItems_sortBy (compare : Item → Item → Int) (level : List Item)
    (items : List Item) :
    level ∈ levelsOfItems (sortBy compare items) ↔ level ∈ levelsOfItems items := by
  simp only [mem_levelsOfItems, sortBy, List.mem_insertionSort]

mutual
/-- Every level below an item of the scan of `start.js` is ordered. -/
theorem start_scanEntry_levels (sep : Char) (collate : Str → Str → Int)
    (htotal : ∀ a b, collate a b ≤ 0 ∨ collate b a ≤ 0)
    (htrans : ∀ a b c, collate a b ≤ 0 → collate b c ≤ 0 → collate a c ≤ 0) :
    ∀ (entry : DirEntry) (relativePath : Str) (item : Item),
      Start.scanEntry sep collate relativePath entry = some item →
      ∀ level ∈ item.levels, FoldersFirst level ∧ NamesOrdered collate level
  | .directory name entries, relativePath, item, h, level, hl => by
    rw [Start.scanEntry] at h
    cases h
    rw [Item.levels] at hl
    rcases List.mem_cons.1 hl with hl | hl
    · rw [hl]; exact sortBy_ordered collate htotal htrans _
    · rw [mem_levelsOfItems_sortBy] at hl
      exact start_scanEntries_levels sep collate htotal htrans entries _ level hl
  | .file name, relativePath, item, h, level, hl => by
    rw [Start.scanEntry] at h
    split at h
    · cases h; simp [Item.levels] at hl
    · cases h
  | .other name, relativePath, item, h, level, hl => by
    rw [Start.scanEntry] at h
    cases h
/-- Every level below the items of the scan of `start.js` is ordered. -/
theorem start_scanEntries_levels (sep : Char) (collate : Str → Str → Int)
    (htotal : ∀ a b, collate a b ≤ 0 ∨ collate b a ≤ 0)
    (htrans : ∀ a b c, collate a b ≤ 0 → collate b c ≤ 0 → collate a c ≤ 0) :
    ∀ (entries : List DirEntry) (relativePath : Str),
      ∀ level ∈ levelsOfItems (Start.scanEntries sep collate relativePath entries),
        FoldersFirst level ∧ NamesOrdered collate level
  | [], relativePath, level, hl => by
    simp [Start.scanEntries, levelsOfItems] at hl
  | entry :: rest, relativePath, level, hl => by
    rw [Start.scanEntries] at hl
    split at hl
    · rename_i item hitem
      rw [levelsOfItems] at hl
      rcases List.mem_append.1 hl with hl | hl
      · exact start_scanEntry_levels sep collate htotal htrans entry relativePath item hitem
          level hl
      · exact start_scanEntries_levels sep collate htotal htrans rest relativePath level hl
    · exact start_scanEntries_levels sep collate htotal htrans rest relativePath level hl
end

mutual
/-- Every level below an item of the scan of `build-docs.js` is ordered. -/
theorem buildDocs_scanEntry_levels (sep : Char) (collate : Str → Str → Int)
    (htotal : ∀ a b, collate a b ≤ 0 ∨ collate b a ≤ 0)
    (htrans : ∀ a b c, collate a b ≤ 0 → collate b c ≤ 0 → collate a c ≤ 0) :
    ∀ (entry : DirEntry) (basePath : Str) (item : Item),
      BuildDocs.scanEntry sep collate basePath entry = some item →
      ∀ level ∈ item.levels, FoldersFirst level ∧ NamesOrdered collate level
  | .directory name entries, basePath, item, h, level, hl => by
    rw [BuildDocs.scanEntry] at h
    cases h
    rw [Item.levels] at hl
    rcases List.mem_cons.1 hl with hl | hl
    · rw [hl, buildDocs_compareItems_eq]; exact sortBy_ordered collate htotal htrans _
    · rw [mem_levelsOfItems_sortBy] at hl
      exact buildDocs_scanEntries_levels sep collate htotal htrans entries _ level hl
  | .file name, basePath, item, h, level, hl => by
    rw [BuildDocs.scanEntry] at h
    split at h
    · cases h; simp [Item.levels] at hl
    · cases h
  | .other name, basePath, item, h, level, hl => by
    rw [BuildDocs.scanEntry] at h
    cases h
/-- Every level below the items of the scan of `build-docs.js` is ordered. -/
theorem buildDocs_scanEntries_levels (sep : Char) (collate : Str → Str → Int)
    (htotal : ∀ a b, collate a b ≤ 0 ∨ collate b a ≤ 0)
    (htrans : ∀ a b c, collate a b ≤ 0 → collate b c ≤ 0 → collate a c ≤ 0) :
    ∀ (entries : List DirEntry) (basePath : Str),
      ∀ level ∈ levelsOfItems (BuildDocs.scanEntries sep collate basePath entries),
        FoldersFirst level ∧ NamesOrdered collate level
  | [], basePath, level, hl => by
    simp [BuildDocs.scanEntries, levelsOfItems] at hl
  | entry :: rest, basePath, level, hl => by
    rw [BuildDocs.scanEntries] at hl
    split at hl
    · rename_i item hitem
      rw [levelsOfItems] at hl
      rcases List.mem_append.1 hl with hl | hl
      · exact buildDocs_scanEntry_levels sep collate htotal htrans entry basePath item hitem
          level hl
      · exact buildDocs_scanEntries_levels sep collate htotal htrans rest basePath level hl
    · exact buildDocs_scanEntries_levels sep collate htotal htrans rest basePath level hl
end

theorem codePointCompare_total (a b : Str) :
    codePointCompare a b ≤ 0 ∨ codePointCompare b a ≤ 0 := by
  induction a generalizing b with
  | nil => cases b <;> simp [codePointCompare]
  | cons x xs ih =>
    cases b with
    | nil => simp [codePointCompare]
    | cons y ys =>
      simp only [codePointCompare]
      by_cases h1 : x.toNat < y.toNat
      · simp [h1]
      · by_cases h2 : y.toNat < x.toNat
        · simp [h2]
        · simp only [h1, h2, if_false]
          exact ih ys

theorem codePointCompare_trans (a b c : Str) (hab : codePointCompare a b ≤ 0)
    (hbc : codePointCompare b c ≤ 0) : codePointCompare a c ≤ 0 := by
  induction a generalizing b c with
  | nil => cases c <;> simp [codePointCompare]
  | cons x xs ih =>
    cases b with
    | nil => simp [codePointCompare] at hab
    | cons y ys =>
      cases c with
      | nil => simp [codePointCompare] at hbc
      | cons z zs =>
        simp only [codePointCompare] at hab hbc ⊢
        by_cases h1 : x.toNat < y.toNat
        · by_cases h2 : y.toNat < z.toNat
          · have : x.toNat < z.toNat := by omega
            simp [this]
          · by_cases h3 : z.toNat < y.toNat
            · simp [h2, h3] at hbc
            · have : x.toNat < z.toNat := by omega
              simp [this]
        · by_cases h1' : y.toNat < x.toNat
          · simp [h1, h1'] at hab
          · simp only [h1, h1', if_false] at hab
            by_cases h2 : y.toNat < z.toNat
            · have : x.toNat < z.toNat := by omega
              simp [this]
            · by_cases h3 : z.toNat < y.toNat
              · simp [h2, h3] at hbc
              · simp only [h2, h3, if_false] at hbc
                have e1 : ¬ x.toNat < z.toNat := by omega
                have e2 : ¬ z.toNat < x.toNat := by omega
                simp only [e1, e2, if_false]
                exact ih ys zs hab hbc

/-- C5: for every directory tree, and for a collation that is total and transitive, at every
level of the output of the scanner (of `start.js` and of `build-docs.js`) every folder node
precedes every file node, and within the folders and within the files the names are in
non-decreasing collation order. -/
theorem scanDirectory_ordered (collate : Str → Str → Int)
    (htotal : ∀ a b, collate a b ≤ 0 ∨ collate b a ≤ 0)
    (htrans : ∀ a b c, collate a b ≤ 0 → collate b c ≤ 0 → collate a c ≤ 0)
    (sep : Char) (relativePath : Str) (entries : List DirEntry) :
    (∀ level ∈ allLevels (Start.scanDirectory sep collate relativePath entries),
      FoldersFirst level ∧ NamesOrdered collate level) ∧
    (∀ level ∈ allLevels (BuildDocs.scanDirectory sep collate relativePath entries),
      FoldersFirst level ∧ NamesOrdered collate level) := by
  constructor
  · intro level hl
    unfold allLevels Start.scanDirectory at hl
    rcases List.mem_cons.1 hl with hl | hl
    · rw [hl]; exact sortBy_ordered collate htotal htrans _
    · rw [mem_levelsOfItems_sortBy] at hl
      exact start_scanEntries_levels sep collate htotal htrans entries relativePath level hl
  · intro level hl
    unfold allLevels BuildDocs.scanDirectory at hl
    rcases List.mem_cons.1 hl with hl | hl
    · rw [hl, buildDocs_compareItems_eq]; exact sortBy_ordered collate htotal htrans _
    · rw [mem_levelsOfItems_sortBy] at hl
      exact buildDocs_scanEntries_levels sep collate htotal htrans entries relativePath level hl

/-- C5 on the directory with the entries `b.md`, `A/`, `a.md`, `B/`, collated by code point:
both scanners return `A`, `B`, `a.md`, `b.md`. -/
theorem scanDirectory_ordered_witness :
    (Start.scanDirectory '/' codePointCompare []
        [.file "b.md".toList, .directory "A".toList [], .file "a.md".toList,
          .directory "B".toList []]).map Item.name
      = ["A".toList, "B".toList, "a.md".toList, "b.md".toList] ∧
    (BuildDocs.scanDirectory '/' codePointCompare []
        [.file "b.md".toList, .directory "A".toList [], .file "a.md".toList,
          .directory "B".toList []]).map Item.name
      = ["A".toList, "B".toList, "a.md".toList, "b.md".toList] ∧
    (∀ level ∈ allLevels (Start.scanDirectory '/' codePointCompare []
        [.file "b.md".toList, .directory "A".toList [], .file "a.md".toList,
          .directory "B".toList []]),
      FoldersFirst level ∧ NamesOrdered codePointCompare level) ∧
    (∀ level ∈ allLevels (BuildDocs.scanDirectory '/' codePointCompare []
        [.file "b.md".toList, .directory "A".toList [], .file "a.md".toList,
          .directory "B".toList []]),
      FoldersFirst level ∧ NamesOrdered codePointCompare level) :=
  ⟨by decide, by decide,
    scanDirectory_ordered codePointCompare codePointCompare_total codePointCompare_trans '/' []
      [.file "b.md".toList, .directory "A".toList [], .file "a.md".toList,
        .directory "B".toList []]⟩

/-! ## The nodes of a scanned directory -/

theorem folderNames_eq_filterMap (items : List Item) :
    folderNames items = items.filterMap
      (fun item => match item with
        | .folder name _ _ => some name
        | .file _ _ => none) := by
  induction items with
  | nil => rfl
  | cons item rest ih => cases item <;> simp [folderNames, ih]

theorem fileNames_eq_filterMap (items : List Item) :
    fileNames items = items.filterMap
      (fun item => match item with
        | .folder _ _ _ => none
        | .file name _ => some name) := by
  induction items with
  | nil => rfl
  | cons item rest ih => cases item <;> simp [fileNames, ih]

theorem names_sortBy_perm (compare : Item → Item → Int) (items : List Item) :
    (folderNames (sortBy compare items)).Perm (folderNames items) ∧
      (fileNames (sortBy compare items)).Perm (fileNames items) := by
  rw [folderNames_eq_filterMap, folderNames_eq_filterMap, fileNames_eq_filterMap,
    fileNames_eq_filterMap]
  exact ⟨(List.perm_insertionSort _ items).filterMap _,
    (List.perm_insertionSort _ items).filterMap _⟩

theorem start_scanEntries_names (sep : Char) (collate : Str → Str → Int) (relativePath : Str)
    (entries : List DirEntry) :
    folderNames (Start.scanEntries sep collate relativePath entries) = subdirectoryNames entries ∧
      fileNames (Start.scanEntries sep collate relativePath entries) = documentNames entries := by
  induction entries with
  | nil => simp [Start.scanEntries, folderNames, fileNames, subdirectoryNames, documentNames]
  | cons entry rest ih =>
    cases entry with
    | directory name sub =>
      simp [Start.scanEntries, Start.scanEntry, folderNames, fileNames, subdirectoryNames,
        documentNames, ih]
    | file name =>
      cases h : endsWith name ['.', 'm', 'd'] <;>
        simp [Start.scanEntries, Start.scanEntry, folderNames, fileNames, subdirectoryNames,
          documentNames, ih, h]
    | other name =>
      simp [Start.scanEntries, Start.scanEntry, folderNames, fileNames, subdirectoryNames,
        documentNames, ih]

theorem buildDocs_scanEntries_names (sep : Char) (collate : Str → Str → Int) (basePath : Str)
    (entries : List DirEntry) :
    folderNames (BuildDocs.scanEntries sep collate basePath entries)
        = subdirectoryNames entries ∧
      fileNames (BuildDocs.scanEntries sep collate basePath entries) = documentNames entries := by
  induction entries with
  | nil => simp [BuildDocs.scanEntries, folderNames, fileNames, subdirectoryNames, documentNames]
  | cons entry rest ih =>
    cases entry with
    | directory name sub =>
      simp [BuildDocs.scanEntries, BuildDocs.scanEntry, folderNames, fileNames,
        subdirectoryNames, documentNames, ih]
    | file name =>
      cases h : endsWith name ['.', 'm', 'd'] <;>
        simp [BuildDocs.scanEntries, BuildDocs.scanEntry, folderNames, fileNames,
          subdirectoryNames, documentNames, ih, h]
    | other name =>
      simp [BuildDocs.scanEntries, BuildDocs.scanEntry, folderNames, fileNames,
        subdirectoryNames, documentNames, ih]

theorem start_folder_mem_scanEntries (sep : Char) (collate : Str → Str → Int)
    (relativePath : Str) (entries : List DirEntry) (name : Str) (sub : List DirEntry)
    (h : DirEntry.directory name sub ∈ entries) :
    Item.folder name (some (toSlashes (pathJoin sep relativePath name)))
        (Start.scanDirectory sep collate (toSlashes (pathJoin sep relativePath name)) sub)
      ∈ Start.scanEntries sep collate relativePath entries := by
  induction entries with
  | nil => cases h
  | cons entry rest ih =>
    rw [Start.scanEntries]
    rcases List.mem_cons.1 h with h | h
    · subst h
      simp [Start.scanEntry, Start.scanDirectory]
    · split
      · exact List.mem_cons_of_mem _ (ih h)
      · exact ih h

theorem buildDocs_folder_mem_scanEntries (sep : Char) (collate : Str → Str → Int)
    (basePath : Str) (entries : List DirEntry) (name : Str) (sub : List DirEntry)
    (h : DirEntry.directory name sub ∈ entries) :
    Item.folder name none
        (BuildDocs.scanDirectory sep collate (pathJoin sep basePath name) sub)
      ∈ BuildDocs.scanEntries sep collate basePath entries := by
  induction entries with
  | nil => cases h
  | cons entry rest ih =>
    rw [BuildDocs.scanEntries]
    rcases List.mem_cons.1 h with h | h
    · subst h
      simp [BuildDocs.scanEntry, BuildDocs.scanDirectory]
    · split
      · exact List.mem_cons_of_mem _ (ih h)
      · exact ih h

/-- C11: for every directory, the children that the scanner (of `start.js` and of
`build-docs.js`) returns for it are exactly one folder node per subdirectory and one file node
per regular file whose name ends in `.md`: the names of the folder nodes are the names of the
subdirectories, and the names of the file nodes the names of those files, up to the order of
the sort; every subdirectory, also one without any document, has its folder node, whose
children are the scan of the subdirectory; any other entry produces no node. -/
theorem scanDirectory_nodes (sep : Char) (collate : Str → Str → Int) (relativePath : Str)
    (entries : List DirEntry) :
    ((folderNames (Start.scanDirectory sep collate relativePath entries)).Perm
        (subdirectoryNames entries) ∧
      (fileNames (Start.scanDirectory sep collate relativePath entries)).Perm
        (documentNames entries) ∧
      (Start.scanDirectory sep collate relativePath entries).length
        = (subdirectoryNames entries).length + (documentNames entries).length ∧
      ∀ name sub, DirEntry.directory name sub ∈ entries →
        Item.folder name (some (toSlashes (pathJoin sep relativePath name)))
            (Start.scanDirectory sep collate (toSlashes (pathJoin sep relativePath name)) sub)
          ∈ Start.scanDirectory sep collate relativePath entries) ∧
    ((folderNames (BuildDocs.scanDirectory sep collate relativePath entries)).Perm
        (subdirectoryNames entries) ∧
      (fileNames (BuildDocs.scanDirectory sep collate relativePath entries)).Perm
        (documentNames entries) ∧
      (BuildDocs.scanDirectory sep collate relativePath entries).length
        = (subdirectoryNames entries).length + (documentNames entries).length ∧
      ∀ name sub, DirEntry.directory name sub ∈ entries →
        Item.folder name none
            (BuildDocs.scanDirectory sep collate (pathJoin sep relativePath name) sub)
          ∈ BuildDocs.scanDirectory sep collate relativePath entries) := by
  have hlen : ∀ items : List Item, items.length
      = (folderNames items).length + (fileNames items).length := by
    intro items
    induction items with
    | nil => rfl
    | cons item rest ih => cases item <;> simp [folderNames, fileNames, ih] <;> omega
  constructor
  · have hs := start_scanEntries_names sep collate relativePath entries
    have hp := names_sortBy_perm (Start.compareItems collate)
      (Start.scanEntries sep collate relativePath entries)
    rw [hs.1, hs.2] at hp
    refine ⟨hp.1, hp.2, ?_, ?_⟩
    · rw [hlen]
      exact congrArg₂ (· + ·) hp.1.length_eq hp.2.length_eq
    · intro name sub h
      unfold Start.scanDirectory sortBy
      rw [List.mem_insertionSort]
      exact start_folder_mem_scanEntries sep collate relativePath entries name sub h
  · have hs := buildDocs_scanEntries_names sep collate relativePath entries
    have hp := names_sortBy_perm (BuildDocs.compareItems collate)
      (BuildDocs.scanEntries sep collate relativePath entries)
    rw [hs.1, hs.2] at hp
    refine ⟨hp.1, hp.2, ?_, ?_⟩
    · rw [hlen]
      exact congrArg₂ (· + ·) hp.1.length_eq hp.2.length_eq
    · intro name sub h
      unfold BuildDocs.scanDirectory sortBy
      rw [List.mem_insertionSort]
      exact buildDocs_folder_mem_scanEntries sep collate relativePath entries name sub h

/-! ## The static site emitter -/

/-- C12, the code at a failing input: for the document `a.md.md` in the root of `docs`, whose
name ends in `.md`, `processDocs` writes the page `dist/a.html.md`, whose name does not end in
`.html`; the name with its final `.md` replaced would be `a.md.html`.  The title passed to
`generateMindmapHTML` is `path.basename(name, '.md')`, which does strip the final `.md`. -/
theorem processDocs_first_md_replaced (template : PageTemplate) :
    endsWith "a.md.md".toList ".md".toList = true ∧
      (BuildDocs.processDocs '/' template (fun _ => some "# T".toList) (fun _ _ => false)
          "/app".toList (some [.file "a.md.md".toList]) ⟨[], []⟩).disk.files.map Prod.fst
        = ["/app/dist/a.html.md".toList] ∧
      endsWith "a.html.md".toList ".html".toList = false ∧
      BuildDocs.htmlFileName "a.md.md".toList ≠ "a.md.html".toList ∧
      basename "a.md.md".toList ".md".toList = "a.md".toList :=
  ⟨by decide, by rfl, by decide, by decide, by decide⟩

/-- C13, the code at a failing input: for the document `docs/mydocs/a.md` the scanner of
`build-docs.js` gives the file node the path `mydocs/a.md`, for which `generateNavStructure`
emits `data-file="mya.html"`, while `processDocs` writes the page `dist/mydocs/a.html`. -/
theorem navFilePath_differs_from_page (template : PageTemplate) :
    BuildDocs.scanDirectory '/' codePointCompare []
        [.directory "mydocs".toList [.file "a.md".toList]]
      = [.folder "mydocs".toList none [.file "a.md".toList "mydocs/a.md".toList]] ∧
    BuildDocs.generateNavStructure
        [.folder "mydocs".toList none [.file "a.md".toList "mydocs/a.md".toList]]
      = ("<div class=\"nav-item folder\" style=\"padding-left: 0px;\">mydocs</div>"
          ++ "<div class=\"nav-item file\" style=\"padding-left: 40px;\" "
          ++ "data-file=\"mya.html\">a.md</div>").toList ∧
    BuildDocs.navFilePath "mydocs/a.md".toList = "mya.html".toList ∧
    (BuildDocs.processDocs '/' template (fun _ => some "# T".toList) (fun _ _ => false)
        "/app".toList (some [.directory "mydocs".toList [.file "a.md".toList]])
        ⟨[], []⟩).disk.files.map Prod.fst
      = ["/app/dist/mydocs/a.html".toList] :=
  ⟨by rfl, by decide, by decide, by rfl⟩

/-- Once an entry throws, the loop over the entries of its directory throws with the same
disk: no later entry is processed. -/
theorem processEntries_thrown (sep : Char) (template : PageTemplate)
    (readFile : Str → Option Str) (throws : Disk → FsCall → Bool)
    (outputPath dirPath relativePath : Str)
    (before : List DirEntry) (entry : DirEntry) (after : List DirEntry) (disk disk₁ disk₂ : Disk)
    (hbefore : BuildDocs.processEntries sep template readFile throws outputPath dirPath
      relativePath before disk = .done disk₁)
    (hentry : BuildDocs.processEntry sep template readFile throws outputPath dirPath
      relativePath entry disk₁ = .thrown disk₂) :
    BuildDocs.processEntries sep template readFile throws outputPath dirPath relativePath
      (before ++ entry :: after) disk = .thrown disk₂ := by
  induction before generalizing disk with
  | nil =>
    rw [BuildDocs.processEntries] at hbefore
    cases hbefore
    rw [List.nil_append, BuildDocs.processEntries, hentry]
  | cons first rest ih =>
    rw [BuildDocs.processEntries] at hbefore
    rw [List.cons_append, BuildDocs.processEntries]
    cases hfirst : BuildDocs.processEntry sep template readFile throws outputPath dirPath
        relativePath first disk with
    | done d =>
      rw [hfirst] at hbefore
      exact ih d hbefore
    | thrown d =>
      rw [hfirst] at hbefore
      cases hbefore

mutual
/-- An entry that is processed without an exception has only readable documents below it. -/
theorem readable_of_processEntry_done (sep : Char) (template : PageTemplate)
    (readFile : Str → Option Str) (throws : Disk → FsCall → Bool) (outputPath : Str) :
    ∀ (entry : DirEntry) (dirPath relativePath : Str) (disk d : Disk),
      BuildDocs.processEntry sep template readFile throws outputPath dirPath relativePath
          entry disk = .done d → readableEntry sep readFile dirPath entry = true
  | .directory name entries, dirPath, relativePath, disk, d => by
    rw [BuildDocs.processEntry, readableEntry]
    cases hdir : disk.ensureDir throws
        (pathJoin sep outputPath (pathJoin sep relativePath name)) with
    | none => intro h; cases h
    | some disk' =>
      intro h
      dsimp only at h
      by_cases hread : throws disk' (.readdir (pathJoin sep dirPath name)) = true
      · rw [if_pos hread] at h
        cases h
      · rw [if_neg hread] at h
        exact readable_of_processEntries_done sep template readFile throws outputPath entries
          _ _ disk' d h
  | .file name, dirPath, relativePath, disk, d => by
    rw [BuildDocs.processEntry, readableEntry]
    cases hmd : endsWith name ".md".toList with
    | false => simp
    | true =>
      cases hr : readFile (pathJoin sep dirPath name) with
      | none => intro h; simp at h
      | some content => simp
  | .other name, dirPath, relativePath, disk, d => by
    rw [readableEntry]
    simp
/-- The entries of a directory that are processed without an exception hold only readable
documents. -/
theorem readable_of_processEntries_done (sep : Char) (template : PageTemplate)
    (readFile : Str → Option Str) (throws : Disk → FsCall → Bool) (outputPath : Str) :
    ∀ (entries : List DirEntry) (dirPath relativePath : Str) (disk d : Disk),
      BuildDocs.processEntries sep template readFile throws outputPath dirPath relativePath
          entries disk = .done d → readableEntries sep readFile dirPath entries = true
  | [], dirPath, relativePath, disk, d => by
    rw [readableEntries]
    simp
  | entry :: rest, dirPath, relativePath, disk, d => by
    rw [BuildDocs.processEntries, readableEntries, Bool.and_eq_true]
    cases hentry : BuildDocs.processEntry sep template readFile throws outputPath dirPath
        relativePath entry disk with
    | done d₁ =>
      intro h
      exact ⟨readable_of_processEntry_done sep template readFile throws outputPath entry
          dirPath relativePath disk d₁ hentry,
        readable_of_processEntries_done sep template readFile throws outputPath rest
          dirPath relativePath d₁ d h⟩
    | thrown d₁ => intro h; cases h
end

/-- C14 fails as stated: with the documents `bad.md` (whose reading fails) and `good.md` in
`docs`, and no other call of `fs` failing, `processDocs` ends by the exception, and the page
of `good.md` is not written. -/
theorem processDocs_unreadable_counterexample :
    BuildDocs.processDocs '/' ⟨[], [], []⟩
        (fun p => if p = "/app/docs/bad.md".toList then none else some "# T".toList)
        (fun _ _ => false)
        "/app".toList (some [.file "bad.md".toList, .file "good.md".toList]) ⟨[], []⟩
      = .thrown ⟨["/app/dist".toList], []⟩ := by
  decide

/-- C14 (amended): if reading one document fails during `processDocs`, the exception is not
caught.  The entry of that document throws and leaves the disk as it is; the loop over its
directory, and with it every enclosing call up to `processDocs`, ends by the exception with
the disk of that moment, so the pages written before stay written and no later page is
written; and `processDocs` itself raises whenever a document of the tree cannot be read,
whatever the other calls of `fs` do. -/
theorem processDocs_read_failure (sep : Char) (template : PageTemplate)
    (readFile : Str → Option Str) (throws : Disk → FsCall → Bool) (dirName : Str) :
    (∀ (outputPath dirPath relativePath name : Str) (disk : Disk),
      endsWith name ".md".toList = true → readFile (pathJoin sep dirPath name) = none →
      BuildDocs.processEntry sep template readFile throws outputPath dirPath relativePath
        (.file name) disk = .thrown disk) ∧
    (∀ (outputPath dirPath relativePath : Str) (before : List DirEntry) (entry : DirEntry)
      (after : List DirEntry) (disk disk₁ disk₂ : Disk),
      BuildDocs.processEntries sep template readFile throws outputPath dirPath relativePath
        before disk = .done disk₁ →
      BuildDocs.processEntry sep template readFile throws outputPath dirPath relativePath
        entry disk₁ = .thrown disk₂ →
      BuildDocs.processEntries sep template readFile throws outputPath dirPath relativePath
        (before ++ entry :: after) disk = .thrown disk₂) ∧
    (∀ (outputPath dirPath relativePath name : Str) (entries : List DirEntry)
      (disk disk₁ disk₂ : Disk),
      disk.ensureDir throws (pathJoin sep outputPath (pathJoin sep relativePath name))
        = some disk₁ →
      throws disk₁ (.readdir (pathJoin sep dirPath name)) = false →
      BuildDocs.processEntries sep template readFile throws outputPath
        (pathJoin sep dirPath name) (pathJoin sep relativePath name) entries disk₁
        = .thrown disk₂ →
      BuildDocs.processEntry sep template readFile throws outputPath dirPath relativePath
        (.directory name entries) disk = .thrown disk₂) ∧
    (∀ (docs : List DirEntry) (disk disk₁ disk₂ : Disk),
      disk.ensureDir throws (pathJoin sep dirName "dist".toList) = some disk₁ →
      throws disk₁ (.readdir (pathJoin sep dirName "docs".toList)) = false →
      BuildDocs.processEntries sep template readFile throws (pathJoin sep dirName "dist".toList)
        (pathJoin sep dirName "docs".toList) [] docs disk₁ = .thrown disk₂ →
      BuildDocs.processDocs sep template readFile throws dirName (some docs) disk
        = .thrown disk₂) ∧
    (∀ (docs : List DirEntry) (disk : Disk),
      readableEntries sep readFile (pathJoin sep dirName "docs".toList) docs = false →
      ∃ d, BuildDocs.processDocs sep template readFile throws dirName (some docs) disk
        = .thrown d) := by
  refine ⟨?_, ?_, ?_, ?_, ?_⟩
  · intro outputPath dirPath relativePath name disk hmd hfail
    rw [BuildDocs.processEntry, if_pos hmd, hfail]
  · intro outputPath dirPath relativePath before entry after disk disk₁ disk₂ hb he
    exact processEntries_thrown sep template readFile throws outputPath dirPath relativePath
      before entry after disk disk₁ disk₂ hb he
  · intro outputPath dirPath relativePath name entries disk disk₁ disk₂ hdir hread h
    rw [BuildDocs.processEntry, hdir]
    simp only [hread, Bool.false_eq_true, if_false]
    exact h
  · intro docs disk disk₁ disk₂ hdir hread h
    rw [BuildDocs.processDocs, hdir]
    simp only [hread, Bool.false_eq_true, if_false]
    exact h
  · intro docs disk hbad
    cases hrun : BuildDocs.processDocs sep template readFile throws dirName (some docs)
        disk with
    | thrown d => exact ⟨d, rfl⟩
    | done d =>
      exfalso
      rw [BuildDocs.processDocs] at hrun
      cases hdir : disk.ensureDir throws (pathJoin sep dirName "dist".toList) with
      | none => rw [hdir] at hrun; cases hrun
      | some disk' =>
        rw [hdir] at hrun
        dsimp only at hrun
        by_cases hread : throws disk' (.readdir (pathJoin sep dirName "docs".toList)) = true
        · rw [if_pos hread] at hrun
          cases hrun
        · rw [if_neg hread] at hrun
          rw [readable_of_processEntries_done sep template readFile throws _ docs _ _ disk'
            d hrun] at hbad
          cases hbad

/-! ## The viewer pages -/

/-- C15, the code at a failing input: against a ready diagram whose only node is titled
`Doc`, the target `Zzz` matches no node; `jumpToSection` of `build-docs.js` calls `fit`, and
`jumpToSection` of `start.js` does nothing but log. -/
theorem jumpToSection_miss_no_fit (rt : Runtime) :
    Start.findNode rt "Zzz".toList (.mk (.text "Doc".toList) "0".toList []) = none ∧
      Start.jumpToSection rt (.ready (.mk (.text "Doc".toList) "0".toList [])) "Zzz".toList 0
        = [] ∧
      BuildDocs.jumpToSection rt (.ready (.mk (.text "Doc".toList) "0".toList []))
          "Zzz".toList 0
        = [.fit] := by
  have hs : Start.findNode rt "Zzz".toList (.mk (.text "Doc".toList) "0".toList []) = none := by
    rw [(findNode_single rt _ _ _).1, nodeHit_ascii rt _ _ (by decide) (by decide)]
    rfl
  have hb : BuildDocs.findNode rt "Zzz".toList (.mk (.text "Doc".toList) "0".toList [])
      = none := by
    rw [(findNode_single rt _ _ _).2, nodeHit_ascii rt _ _ (by decide) (by decide)]
    rfl
  refine ⟨hs, ?_, ?_⟩
  · rw [Start.jumpToSection, hs]
  · rw [BuildDocs.jumpToSection, hb]

theorem jumpToSection_not_ready (rt : Runtime) (markmap : Markmap)
    (h : markmap.isReady = false) (sectionId : Str) (retryCount : Nat) :
    Start.jumpToSection rt markmap sectionId retryCount
        = (if retryCount < 10 then [.retry 300 (retryCount + 1)] else []) ∧
      BuildDocs.jumpToSection rt markmap sectionId retryCount
        = (if retryCount < 10 then [.retry 300 (retryCount + 1)] else []) := by
  cases markmap with
  | missing => exact ⟨rfl, rfl⟩
  | noRoot => exact ⟨rfl, rfl⟩
  | ready root => cases h

/-- The retry chain of a jump function that behaves as `jumpToSection` does while the diagram
is not ready. -/
theorem retryChain_not_ready (jump : Markmap → Str → Nat → List Effect)
    (markmap : Nat → Markmap) (sectionId : Str)
    (hjump : ∀ n retryCount, jump (markmap n) sectionId retryCount
      = (if retryCount < 10 then [.retry 300 (retryCount + 1)] else []))
    (fuel : Nat) (hfuel : 11 ≤ fuel) :
    retryChain jump markmap sectionId fuel 0 0
      = some [.retry 300 1, .retry 300 2, .retry 300 3, .retry 300 4, .retry 300 5,
          .retry 300 6, .retry 300 7, .retry 300 8, .retry 300 9, .retry 300 10] := by
  obtain ⟨rest, rfl⟩ : ∃ rest, fuel = rest + 11 := ⟨fuel - 11, by omega⟩
  simp [retryChain, hjump, scheduledRetry]

/-- C16: if the diagram instance (or its root) never becomes ready, a call
`jumpToSection(s)` with `retryCount` 0 schedules itself exactly 10 times, each after a delay of
300 and with `retryCount` one higher, from 1 to 10, and the call with `retryCount` 10 neither
searches nor schedules anything; the chain ends after 11 calls.  This holds in both viewer
pages. -/
theorem jumpToSection_retry_chain (rt : Runtime) (markmap : Nat → Markmap)
    (hnever : ∀ n, (markmap n).isReady = false) (sectionId : Str) (fuel : Nat)
    (hfuel : 11 ≤ fuel) :
    (retryChain (Start.jumpToSection rt) markmap sectionId fuel 0 0
        = some [.retry 300 1, .retry 300 2, .retry 300 3, .retry 300 4, .retry 300 5,
            .retry 300 6, .retry 300 7, .retry 300 8, .retry 300 9, .retry 300 10] ∧
      ∀ n, Start.jumpToSection rt (markmap n) sectionId 10 = []) ∧
    (retryChain (BuildDocs.jumpToSection rt) markmap sectionId fuel 0 0
        = some [.retry 300 1, .retry 300 2, .retry 300 3, .retry 300 4, .retry 300 5,
            .retry 300 6, .retry 300 7, .retry 300 8, .retry 300 9, .retry 300 10] ∧
      ∀ n, BuildDocs.jumpToSection rt (markmap n) sectionId 10 = []) := by
  refine ⟨⟨?_, ?_⟩, ⟨?_, ?_⟩⟩
  · exact retryChain_not_ready _ markmap sectionId
      (fun n rc => (jumpToSection_not_ready rt (markmap n) (hnever n) sectionId rc).1)
      fuel hfuel
  · intro n
    rw [(jumpToSection_not_ready rt (markmap n) (hnever n) sectionId 10).1]
    rfl
  · exact retryChain_not_ready _ markmap sectionId
      (fun n rc => (jumpToSection_not_ready rt (markmap n) (hnever n) sectionId rc).2)
      fuel hfuel
  · intro n
    rw [(jumpToSection_not_ready rt (markmap n) (hnever n) sectionId 10).2]
    rfl

/-- C16 on a page whose `markmapInstance` is never set, with fuel for 11 and for 50 calls. -/
theorem jumpToSection_retry_chain_witness :
    (∀ n : Nat, ((fun _ : Nat => Markmap.missing) n).isReady = false) ∧
      retryChain (Start.jumpToSection asciiRuntime) (fun _ => Markmap.missing)
          "Intro".toList 11 0 0
        = some [.retry 300 1, .retry 300 2, .retry 300 3, .retry 300 4, .retry 300 5,
            .retry 300 6, .retry 300 7, .retry 300 8, .retry 300 9, .retry 300 10] ∧
      retryChain (Start.jumpToSection asciiRuntime) (fun _ => Markmap.missing)
          "Intro".toList 10 0 0 = none ∧
      retryChain (BuildDocs.jumpToSection asciiRuntime) (fun _ => Markmap.missing)
          "Intro".toList 50 0 0
        = some [.retry 300 1, .retry 300 2, .retry 300 3, .retry 300 4, .retry 300 5,
            .retry 300 6, .retry 300 7, .retry 300 8, .retry 300 9, .retry 300 10] :=
  ⟨fun _ => rfl,
    (jumpToSection_retry_chain asciiRuntime (fun _ => Markmap.missing) (fun _ => rfl)
      "Intro".toList 11 (by decide)).1.1,
    by rfl,
    (jumpToSection_retry_chain asciiRuntime (fun _ => Markmap.missing) (fun _ => rfl)
      "Intro".toList 50 (by decide)).2.1⟩

/-- C17, the code at a failing input: for a node element whose attribute is
`transform="translate(10,20)"`, in an `svg` element of 800 by 600, the pattern of the page
gives the groups `(10,20` and `(10`, in which `parseFloat` finds no number, and the centring
callback (of both viewer pages) sets the translation to `NaN`, `NaN` with the scale 1.5.  The
translation that maps the node to the centre of the viewport is 385, 270. -/
theorem focusNode_sets_nan (rt : Runtime) :
    matchTranslate "translate(10,20)".toList = some ("(10,20".toList, "(10".toList) ∧
      Start.focusNode rt
          ⟨some ⟨800, 600, some none⟩, some ⟨some "translate(10,20)".toList, true⟩⟩
        = [.transform none none (3 / 2), .highlight] ∧
      BuildDocs.focusNode rt
          ⟨some ⟨800, 600, some none⟩, some ⟨some "translate(10,20)".toList, true⟩⟩
        = [.transform none none (3 / 2)] ∧
      (3 / 2 : ℚ) * 10 + 385 = 800 / 2 ∧ (3 / 2 : ℚ) * 20 + 270 = 600 / 2 := by
  have hm : matchTranslate "translate(10,20)".toList
      = some ("(10,20".toList, "(10".toList) := by decide
  refine ⟨hm, ?_, ?_, by norm_num, by norm_num⟩
  · simp only [Start.focusNode, hm]
    rw [show "(10,20".toList = '(' :: "10,20".toList from rfl,
      show "(10".toList = '(' :: "10".toList from rfl,
      rt.parseFloat_paren, rt.parseFloat_paren]
    rfl
  · simp only [BuildDocs.focusNode, hm]
    rw [show "(10,20".toList = '(' :: "10,20".toList from rfl,
      show "(10".toList = '(' :: "10".toList from rfl,
      rt.parseFloat_paren, rt.parseFloat_paren]
    rfl

/-! ## Unmatched delimiters -/

/-- A pattern whose matches all start with `d` copies a text without `d` that comes first. -/
theorem replace_append_of_not_mem (re : Regex) (f : Str → Str) (d : Char)
    (hre : ∀ c cs, c ≠ d → re (c :: cs) = none) (u s : Str) (hu : d ∉ u) :
    replace re f (u ++ s) = u ++ replace re f s := by
  induction u with
  | nil => rfl
  | cons c cs ih =>
    have hc : c ≠ d := fun h => hu (by simp [h])
    have hcs : d ∉ cs := fun h => hu (by simp [h])
    rw [List.cons_append, replace_cons_none _ _ _ _ (hre c _ hc), ih hcs, List.cons_append]

/-- The first line of a text is the first of its lines. -/
theorem splitLines_eq_cons (cs : Str) :
    ∃ ls, splitLines cs = cs.takeWhile (fun c => c != '\n') :: ls := by
  induction cs with
  | nil => exact ⟨[], rfl⟩
  | cons c cs ih =>
    obtain ⟨ls, hls⟩ := ih
    by_cases hc : c = '\n'
    · subst hc
      exact ⟨splitLines cs, by simp [splitLines, List.takeWhile]⟩
    · have hb : (c != '\n') = true := by simpa using hc
      refine ⟨ls, ?_⟩
      rw [splitLines, if_neg hc, hls]
      simp [List.takeWhile, hb]

/-- The lines of a text without its first character have no more `$` than those of the text,
and after a `$` the rest of the line has none when the line has at most one. -/
theorem lines_tail (c : Char) (cs : Str)
    (h : ∀ l ∈ splitLines (c :: cs), l.count '$' ≤ 1) :
    (∀ l ∈ splitLines cs, l.count '$' ≤ 1) ∧
      (c = '$' → '$' ∉ cs.takeWhile (fun c => c != '\n')) := by
  obtain ⟨ls, hls⟩ := splitLines_eq_cons cs
  by_cases hc : c = '\n'
  · subst hc
    constructor
    · intro l hl
      exact h l (by simp [splitLines, hl])
    · intro h'; exact absurd h' (by decide)
  · have hsplit : splitLines (c :: cs) = (c :: cs.takeWhile (fun c => c != '\n')) :: ls := by
      rw [splitLines, if_neg hc, hls]
    rw [hsplit] at h
    constructor
    · intro l hl
      rw [hls] at hl
      rcases List.mem_cons.1 hl with hl | hl
      · have := h _ (List.mem_cons_self _ _)
        rw [hl]
        rw [List.count_cons] at this
        omega
      · exact h l (List.mem_cons_of_mem _ hl)
    · intro hd
      subst hd
      have := h _ (List.mem_cons_self _ _)
      rw [List.count_cons] at this
      simp only [beq_self_eq_true, if_true] at this
      exact List.count_eq_zero.1 (by omega)

/-- After a `$` whose line has no other `$`, neither math pattern matches. -/
theorem math_patterns_none (cs : Str) (h : '$' ∉ cs.takeWhile (fun c => c != '\n')) :
    reBlockMath ('$' :: cs) = none ∧ reInlineMath ('$' :: cs) = none := by
  constructor
  · cases cs with
    | nil => rfl
    | cons c cs' =>
      by_cases hc : c = '$'
      · subst hc
        exact absurd (by simp [List.takeWhile]) h
      · unfold reBlockMath
        split
        · rename_i heq
          simp only [List.cons.injEq, true_and] at heq
          exact absurd heq.1 hc
        · rfl
  · have hsplit := List.takeWhile_append_dropWhile (fun c => c != '$' && c != '\n') cs
    simp only [reInlineMath]
    split
    · rename_i r hdrop
      rw [hdrop] at hsplit
      exfalso
      apply h
      rw [← hsplit, List.takeWhile_append_of_pos]
      · simp [List.takeWhile]
      · intro a ha
        have := List.mem_takeWhile_imp ha
        simp only [Bool.and_eq_true] at this
        exact this.2
    · rfl

/-- A text in which every line has at most one `$` is left unchanged by both passes. -/
theorem passes_eq_self_of_lines (f g : Str → Str) (t : Str)
    (h : ∀ l ∈ splitLines t, l.count '$' ≤ 1) :
    replace reBlockMath f t = t ∧ replace reInlineMath g t = t := by
  induction t with
  | nil => exact ⟨replace_nil _ _, replace_nil _ _⟩
  | cons c cs ih =>
    obtain ⟨htail, hdollar⟩ := lines_tail c cs h
    obtain ⟨ih1, ih2⟩ := ih htail
    by_cases hc : c = '$'
    · subst hc
      obtain ⟨hb, hi⟩ := math_patterns_none cs (hdollar rfl)
      rw [replace_cons_none _ _ _ _ hb, replace_cons_none _ _ _ _ hi, ih1, ih2]
      exact ⟨rfl, rfl⟩
    · rw [replace_cons_none _ _ _ _ (reBlockMath_none_of_ne c cs hc),
        replace_cons_none _ _ _ _ (reInlineMath_none_of_ne c cs hc), ih1, ih2]
      exact ⟨rfl, rfl⟩

/-- C19: no inline math span crosses a line break: for every text in which each line contains
at most one `$`, `renderLatex` (of `start.js` and of `build-docs.js`) returns the text
unchanged. -/
theorem renderLatex_one_dollar_per_line (t : Str)
    (h : ∀ l ∈ splitLines t, l.count '$' ≤ 1) :
    Start.renderLatex t = t ∧ BuildDocs.renderLatex t = t := by
  have hp := passes_eq_self_of_lines (fun latex => katexBlock (cleanLatex latex))
    (fun latex => katexInline (cleanLatex latex)) t h
  have key : Start.renderLatex t = t := by
    unfold Start.renderLatex Start.renderInlines Start.renderBlocks
    rw [hp.1, hp.2]
  exact ⟨key, key⟩

/-- C19 on the text `$a\nb$`, which is returned as it is. -/
theorem renderLatex_one_dollar_per_line_witness :
    (∀ l ∈ splitLines "$a\nb$".toList, l.count '$' ≤ 1) ∧
      Start.renderLatex "$a\nb$".toList = "$a\nb$".toList ∧
      BuildDocs.renderLatex "$a\nb$".toList = "$a\nb$".toList :=
  ⟨by decide, renderLatex_one_dollar_per_line "$a\nb$".toList (by decide)⟩

/-! ## The edges of the cleaned expression -/

/-- A literal pattern that does not occur in a text leaves it unchanged. -/
theorem replace_reLit_eq_self (pat : Str) (f : Str → Str) (s : Str) (h : ¬ pat <:+: s) :
    replace (reLit pat) f s = s := by
  induction s with
  | nil => exact replace_nil _ _
  | cons c cs ih =>
    have hcs : ¬ pat <:+: cs := fun h' => h (List.infix_cons h')
    have hnone : reLit pat (c :: cs) = none := by
      unfold reLit
      rw [if_neg]
      rintro ⟨_, hp⟩
      exact h (List.isPrefixOf_iff_prefix.1 hp).isInfix
    rw [replace_cons_none _ _ _ _ hnone, ih hcs]

theorem trim_within (s : Str) : trim s <:+: s :=
  (List.rdropWhile_prefix isSpace (s.dropWhile isSpace)).isInfix.trans
    (List.dropWhile_suffix isSpace).isInfix

/-- A trimmed text neither begins nor ends with a whitespace character. -/
theorem trim_edges (s : Str) :
    (∀ c, (trim s).head? = some c → isSpace c = false) ∧
      (∀ c, (trim s).getLast? = some c → isSpace c = false) := by
  have htrim : trim s = (s.dropWhile isSpace).rdropWhile isSpace := rfl
  constructor
  · intro c hc
    obtain ⟨t, ht⟩ := List.rdropWhile_prefix isSpace (s.dropWhile isSpace)
    rw [htrim] at hc
    rcases hv : (s.dropWhile isSpace).rdropWhile isSpace with _ | ⟨a, v⟩
    · rw [hv] at hc; cases hc
    · rw [hv] at hc ht
      have hac : a = c := by simpa using hc
      have hne : s.dropWhile isSpace ≠ [] := by rw [← ht]; simp
      have hnot := List.head_dropWhile_not isSpace s hne
      have hh : (s.dropWhile isSpace).head hne = a := by simp [← ht]
      rw [hh, hac] at hnot
      exact hnot
  · intro c hc
    rw [htrim] at hc
    have hne : (s.dropWhile isSpace).rdropWhile isSpace ≠ [] := by
      intro h0; rw [h0] at hc; cases hc
    have hnot := List.rdropWhile_last_not isSpace _ hne
    rw [List.getLast?_eq_getLast _ hne] at hc
    have : ((s.dropWhile isSpace).rdropWhile isSpace).getLast hne = c := by simpa using hc
    rw [this] at hnot
    simpa using hnot

/-- A replace keeps the first character free of whitespace when its replacements at such a
character begin with one. -/
theorem replace_head (re : Regex) (f : Str → Str)
    (hhead : ∀ c cs g n, isSpace c = false → re (c :: cs) = some (g, n) →
      ∃ x, (f g).head? = some x ∧ isSpace x = false)
    (s : Str) (hs : ∀ c, s.head? = some c → isSpace c = false) :
    ∀ c, (replace re f s).head? = some c → isSpace c = false := by
  intro x hx
  cases s with
  | nil => rw [replace_nil] at hx; cases hx
  | cons c cs =>
    have hc : isSpace c = false := hs c rfl
    cases hre : re (c :: cs) with
    | none =>
      rw [replace_cons_none _ _ _ _ hre] at hx
      have : c = x := by simpa using hx
      rw [← this]; exact hc
    | some p =>
      obtain ⟨g, n⟩ := p
      obtain ⟨y, hy, hys⟩ := hhead c cs g n hc hre
      rw [replace_cons_some _ _ _ _ _ _ hre, List.head?_append, hy] at hx
      have : y = x := by simpa using hx
      rw [← this]; exact hys

/-- A replace keeps the last character free of whitespace when each of its matches either
ends before the end of the text or is replaced by a text that ends with such a character. -/
theorem replace_getLast (re : Regex) (f : Str → Str)
    (hlast : ∀ s g n, (∃ x, s.getLast? = some x ∧ isSpace x = false) → re s = some (g, n) →
      (∃ x, (f g).getLast? = some x ∧ isSpace x = false) ∨ (1 ≤ n ∧ n < s.length)) :
    ∀ (k : Nat) (s : Str), s.length = k → (∃ x, s.getLast? = some x ∧ isSpace x = false) →
      ∃ x, (replace re f s).getLast? = some x ∧ isSpace x = false := by
  intro k
  induction k using Nat.strong_induction_on with
  | _ k ih =>
    intro s hk hs
    cases s with
    | nil => obtain ⟨x, hx, _⟩ := hs; cases hx
    | cons c cs =>
      cases hre : re (c :: cs) with
      | none =>
        rw [replace_cons_none _ _ _ _ hre]
        cases cs with
        | nil =>
          rw [replace_nil]
          exact hs
        | cons d ds =>
          rw [List.getLast?_cons_cons] at hs
          obtain ⟨y, hy, hys⟩ := ih (d :: ds).length (by rw [← hk]; simp) (d :: ds) rfl hs
          refine ⟨y, ?_, hys⟩
          rw [List.getLast?_cons, hy]
          rfl
      | some p =>
        obtain ⟨g, n⟩ := p
        rw [replace_cons_some _ _ _ _ _ _ hre, List.getLast?_append]
        by_cases hrest : cs.drop (n - 1) = []
        · rw [hrest, replace_nil]
          rcases hlast (c :: cs) g n hs hre with hfg | ⟨h1, h2⟩
          · simpa using hfg
          · exfalso
            have hlen : cs.length ≤ n - 1 := List.drop_eq_nil_iff.1 hrest
            simp only [List.length_cons] at h2
            omega
        · have hlen : ¬ cs.length ≤ n - 1 := fun h => hrest (List.drop_eq_nil_iff.2 h)
          have hcs : cs ≠ [] := by
            intro h0; rw [h0] at hrest; simp at hrest
          obtain ⟨d, ds, rfl⟩ := List.exists_cons_of_ne_nil hcs
          rw [List.getLast?_cons_cons] at hs
          have hrl : ((d :: ds).drop (n - 1)).getLast? = (d :: ds).getLast? := by
            rw [List.getLast?_drop, if_neg hlen]
          obtain ⟨y, hy, hys⟩ := ih ((d :: ds).drop (n - 1)).length
            (by rw [← hk, List.length_drop]; simp; omega) _ rfl (hrl ▸ hs)
          refine ⟨y, ?_, hys⟩
          rw [hy]
          rfl

theorem replace_last (re : Regex) (f : Str → Str)
    (hlast : ∀ s g n, (∃ x, s.getLast? = some x ∧ isSpace x = false) → re s = some (g, n) →
      (∃ x, (f g).getLast? = some x ∧ isSpace x = false) ∨ (1 ≤ n ∧ n < s.length))
    (s : Str) (hs : ∀ c, s.getLast? = some c → isSpace c = false) :
    ∀ c, (replace re f s).getLast? = some c → isSpace c = false := by
  intro c hc
  cases hl : s.getLast? with
  | none =>
    rw [List.getLast?_eq_none_iff.1 hl, replace_nil] at hc
    cases hc
  | some x =>
    obtain ⟨y, hy, hys⟩ := replace_getLast re f hlast s.length s rfl ⟨x, hl, hs x hl⟩
    rw [hy] at hc
    cases hc
    exact hys

/-- Without the token `\displaystyle`, the cleaned expression neither begins nor ends with a
whitespace character. -/
theorem cleanLatex_edges (e : Str) (hds : ¬ "\\displaystyle".toList <:+: e) :
    (∀ c, (cleanLatex e).head? = some c → isSpace c = false) ∧
      (∀ c, (cleanLatex e).getLast? = some c → isSpace c = false) := by
  unfold cleanLatex
  rw [replace_reLit_eq_self _ _ (trim e) (fun h => hds (h.trans (trim_within e)))]
  obtain ⟨hh, hl⟩ := trim_edges e
  have hh3 : ∀ c,
      (replace (reLit "\\\\".toList) (fun _ => "\\".toList) (trim e)).head? = some c →
        isSpace c = false :=
    replace_head (reLit "\\\\".toList) (fun _ => "\\".toList)
      (fun _ _ _ _ _ _ => ⟨'\\', rfl, by decide⟩) _ hh
  have hl3 : ∀ c,
      (replace (reLit "\\\\".toList) (fun _ => "\\".toList) (trim e)).getLast? = some c →
        isSpace c = false :=
    replace_last (reLit "\\\\".toList) (fun _ => "\\".toList)
      (fun _ _ _ _ _ => Or.inl ⟨'\\', rfl, by decide⟩) _ hl
  constructor
  · refine replace_head _ _ ?_ _ hh3
    intro c cs g n hc hre
    simp [reSpaces, List.takeWhile, hc] at hre
  · refine replace_last _ _ ?_ _ hl3
    intro s g n ⟨x, hx, hxs⟩ hre
    right
    simp only [reSpaces] at hre
    split at hre
    · cases hre
    · rename_i hne
      simp only [Option.some.injEq, Prod.mk.injEq] at hre
      obtain ⟨_, rfl⟩ := hre
      constructor
      · exact List.length_pos.2 hne
      · have hle : (s.takeWhile isSpace).length ≤ s.length :=
          (List.takeWhile_prefix isSpace).length_le
        rcases Nat.lt_or_ge (s.takeWhile isSpace).length s.length with h | h
        · exact h
        · exfalso
          have heq : s.takeWhile isSpace = s :=
            (List.takeWhile_prefix isSpace).eq_of_length (Nat.le_antisymm hle h)
          have hall := List.takeWhile_eq_self_iff.1 heq
          have hxmem : x ∈ s := List.mem_of_getLast?_eq_some hx
          rw [hall x hxmem] at hxs
          cases hxs

/-- The inline pattern on a span `$e$`: it matches the whole span with the group `e`. -/
theorem reInlineMath_span (e rest : Str) (hne : e ≠ []) (hd : '$' ∉ e) (hn : '\n' ∉ e) :
    reInlineMath ('$' :: (e ++ '$' :: rest)) = some (e, e.length + 2) := by
  have hall : ∀ a ∈ e, (fun c => c != '$' && c != '\n') a = true := by
    intro a ha
    have h1 : a ≠ '$' := fun h => hd (h ▸ ha)
    have h2 : a ≠ '\n' := fun h => hn (h ▸ ha)
    simp [h1, h2]
  have htake : (e ++ '$' :: rest).takeWhile (fun c => c != '$' && c != '\n') = e := by
    rw [List.takeWhile_append_of_pos hall]
    simp [List.takeWhile]
  have hdrop : (e ++ '$' :: rest).dropWhile (fun c => c != '$' && c != '\n') = '$' :: rest := by
    rw [List.dropWhile_append_of_pos hall]
    simp [List.dropWhile]
  simp only [reInlineMath, htake, hdrop, hne, if_false]

/-- On the text `$e$`, for a non-empty `e` without `$` and line feed, `renderLatex` gives the
inline placeholder of `e`. -/
theorem renderLatex_inline_span (e : Str) (hne : e ≠ []) (hd : '$' ∉ e) (hn : '\n' ∉ e) :
    Start.renderLatex ("$".toList ++ e ++ "$".toList) = katexInline (cleanLatex e) := by
  obtain ⟨c, cs, rfl⟩ := List.exists_cons_of_ne_nil hne
  have hc : c ≠ '$' := fun h => hd (by simp [h])
  have hblock : Start.renderBlocks ("$".toList ++ (c :: cs) ++ "$".toList)
      = '$' :: ((c :: cs) ++ ['$']) := by
    show replace reBlockMath _ ('$' :: ((c :: cs) ++ ['$'])) = _
    have h0 : reBlockMath ('$' :: ((c :: cs) ++ ['$'])) = none := by
      unfold reBlockMath
      split
      · rename_i heq
        simp only [List.cons_append, List.cons.injEq, true_and] at heq
        exact absurd heq.1 hc
      · rfl
    rw [replace_cons_none _ _ _ _ h0,
      replace_append_of_not_mem reBlockMath _ '$' reBlockMath_none_of_ne _ _ hd]
    have h1 : reBlockMath ['$'] = none := rfl
    rw [replace_cons_none _ _ _ _ h1, replace_nil]
  unfold Start.renderLatex Start.renderInlines
  rw [hblock, replace_cons_some _ _ _ _ _ _ (reInlineMath_span (c :: cs) [] hne hd hn)]
  have hdrop : List.drop ((c :: cs).length + 2 - 1) ((c :: cs) ++ ['$']) = [] := by
    apply List.drop_eq_nil_of_le; simp
  rw [hdrop, replace_nil, List.append_nil]

/-- C20 fails as stated: for the expression `\displaystyle x` the removal of `\displaystyle`
comes after the trim, and the placeholder carries ` x`, with a leading space. -/
theorem renderLatex_displaystyle_counterexample :
    Start.renderLatex "$\\displaystyle x$".toList
        = "<span class=\"katex-inline\" data-latex=\" x\"></span>".toList ∧
      BuildDocs.renderLatex "$\\displaystyle x$".toList
        = "<span class=\"katex-inline\" data-latex=\" x\"></span>".toList ∧
      cleanLatex "\\displaystyle x".toList = " x".toList ∧
      (cleanLatex "\\displaystyle x".toList).head? = some ' ' := by
  decide

/-- C20 (amended): for every non-empty expression `e` without `$`, without a line break and
without the token `\displaystyle`, `renderLatex` (of `start.js` and of `build-docs.js`) of
`$e$` is the inline placeholder that carries `cleanLatex e` in its `data-latex` attribute, and
that expression has no leading and no trailing whitespace. -/
theorem renderLatex_inline_span_edges (e : Str) (hne : e ≠ []) (hd : '$' ∉ e)
    (hn : '\n' ∉ e) (hds : ¬ "\\displaystyle".toList <:+: e) :
    Start.renderLatex ("$".toList ++ e ++ "$".toList) = katexInline (cleanLatex e) ∧
      BuildDocs.renderLatex ("$".toList ++ e ++ "$".toList) = katexInline (cleanLatex e) ∧
      (∀ c, (cleanLatex e).head? = some c → isSpace c = false) ∧
      (∀ c, (cleanLatex e).getLast? = some c → isSpace c = false) :=
  ⟨renderLatex_inline_span e hne hd hn, renderLatex_inline_span e hne hd hn,
    cleanLatex_edges e hds⟩

/-- C20 (amended) on the expression ` a  b ` between the delimiters. -/
theorem renderLatex_inline_span_edges_witness :
    " a  b ".toList ≠ [] ∧ '$' ∉ " a  b ".toList ∧ '\n' ∉ " a  b ".toList ∧
      ¬ "\\displaystyle".toList <:+: " a  b ".toList ∧
      cleanLatex " a  b ".toList = "a b".toList ∧
      Start.renderLatex ("$".toList ++ " a  b ".toList ++ "$".toList)
        = katexInline (cleanLatex " a  b ".toList) ∧
      BuildDocs.renderLatex ("$".toList ++ " a  b ".toList ++ "$".toList)
        = katexInline (cleanLatex " a  b ".toList) ∧
      (∀ c, (cleanLatex " a  b ".toList).head? = some c → isSpace c = false) ∧
      (∀ c, (cleanLatex " a  b ".toList).getLast? = some c → isSpace c = false) :=
  ⟨by decide, by decide, by decide, by decide, by decide,
    renderLatex_inline_span_edges " a  b ".toList (by decide) (by decide) (by decide)
      (by decide)⟩

/-! ## An odd number of delimiters -/

theorem reBlockMath_some (s : Str) (h : reBlockMath s ≠ none) : "$$".toList <+: s := by
  unfold reBlockMath at h
  split at h
  · rename_i rest
    exact ⟨rest, rfl⟩
  · exact absurd rfl h

/-- Without two adjacent `$`, the block pass changes nothing. -/
theorem renderBlocks_eq_self (f : Str → Str) (t : Str) (h : ¬ "$$".toList <:+: t) :
    replace reBlockMath f t = t := by
  induction t with
  | nil => exact replace_nil _ _
  | cons c cs ih =>
    have hcs : ¬ "$$".toList <:+: cs := fun h' => h (List.infix_cons h')
    have hnone : reBlockMath (c :: cs) = none := by
      by_contra hne
      exact h (reBlockMath_some _ hne).isInfix
    rw [replace_cons_none _ _ _ _ hnone, ih hcs]

/-- The inline pass over a text that begins with `u`, free of `$`, and the span `$v$`. -/
theorem replace_inline_span (f : Str → Str) (u v rest : Str) (hu : '$' ∉ u) (hne : v ≠ [])
    (hv : '$' ∉ v) (hn : '\n' ∉ v) :
    replace reInlineMath f (u ++ '$' :: (v ++ '$' :: rest))
      = u ++ (f v ++ replace reInlineMath f rest) := by
  rw [replace_append_of_not_mem reInlineMath f '$' reInlineMath_none_of_ne _ _ hu,
    replace_cons_some _ _ _ _ _ _ (reInlineMath_span v rest hne hv hn)]
  have hdrop : List.drop (v.length + 2 - 1) (v ++ '$' :: rest) = rest := by
    rw [show v.length + 2 - 1 = v.length + 1 by omega, List.drop_append]
    rfl
  rw [hdrop]

/-- The inline pass over a text that ends with a `$` and the text `v`, free of `$`. -/
theorem replace_inline_last (f : Str → Str) (u v : Str) (hu : '$' ∉ u) (hv : '$' ∉ v) :
    replace reInlineMath f (u ++ '$' :: v) = u ++ '$' :: v := by
  have hnone : reInlineMath ('$' :: v) = none :=
    (math_patterns_none v (fun h => hv ((List.takeWhile_sublist _).subset h))).2
  rw [replace_append_of_not_mem reInlineMath f '$' reInlineMath_none_of_ne _ _ hu,
    replace_cons_none _ _ _ _ hnone,
    (replace_eq_self_of_not_mem reInlineMath f '$' reInlineMath_none_of_ne v hv).1]

/-- A text splits at its first `$`. -/
theorem split_first_dollar (t : Str) :
    ('$' ∉ t) ∨ ∃ u rest, t = u ++ '$' :: rest ∧ '$' ∉ u := by
  by_cases h : '$' ∈ t
  · right
    obtain ⟨u, rest, hu, ht⟩ : ∃ u rest, '$' ∉ u ∧ t = u ++ '$' :: rest := by
      induction t with
      | nil => cases h
      | cons c cs ih =>
        by_cases hc : c = '$'
        · exact ⟨[], cs, by simp, by simp [hc]⟩
        · have hcs : '$' ∈ cs := by
            rcases List.mem_cons.1 h with h | h
            · exact absurd h.symm hc
            · exact h
          obtain ⟨u, rest, hu, ht⟩ := ih hcs
          refine ⟨c :: u, rest, ?_, by simp [ht]⟩
          intro hmem
          rcases List.mem_cons.1 hmem with h' | h'
          · exact hc h'.symm
          · exact hu h'
    exact ⟨u, rest, ht, hu⟩
  · exact Or.inl h

/-- The inline pass on a single-line text without adjacent `$`: with an even number of `$` no
`$` is left, and with an odd number the last `$` stays, followed by the unchanged rest. -/
theorem renderInlines_parity (k : Nat) :
    ∀ t : Str, t.length = k → '\n' ∉ t → ¬ "$$".toList <:+: t →
      (t.count '$' % 2 = 0 →
        '$' ∉ replace reInlineMath (fun latex => katexInline (cleanLatex latex)) t) ∧
      (t.count '$' % 2 = 1 → ∃ pre tail, t = pre ++ '$' :: tail ∧ '$' ∉ tail ∧
        replace reInlineMath (fun latex => katexInline (cleanLatex latex)) t
          = replace reInlineMath (fun latex => katexInline (cleanLatex latex)) pre
            ++ '$' :: tail ∧
        '$' ∉ replace reInlineMath (fun latex => katexInline (cleanLatex latex)) pre) := by
  induction k using Nat.strong_induction_on with
  | _ k ih =>
    intro t hk hn hadj
    rcases split_first_dollar t with h0 | ⟨u, rest, rfl, hu⟩
    · have hid := (replace_eq_self_of_not_mem reInlineMath
        (fun latex => katexInline (cleanLatex latex)) '$' reInlineMath_none_of_ne t h0).1
      constructor
      · intro _; rw [hid]; exact h0
      · intro hodd
        rw [List.count_eq_zero.2 h0] at hodd
        cases hodd
    · rcases split_first_dollar rest with h1 | ⟨v, rest', rfl, hv⟩
      · have hcount : (u ++ '$' :: rest).count '$' = 1 := by
          rw [List.count_append, List.count_cons, List.count_eq_zero.2 hu,
            List.count_eq_zero.2 h1]
          simp
        constructor
        · intro heven; rw [hcount] at heven; cases heven
        · intro _
          refine ⟨u, rest, rfl, h1, ?_, ?_⟩
          · rw [replace_inline_last _ u rest hu h1,
              (replace_eq_self_of_not_mem reInlineMath _ '$' reInlineMath_none_of_ne u hu).1]
          · rw [(replace_eq_self_of_not_mem reInlineMath _ '$' reInlineMath_none_of_ne u hu).1]
            exact hu
      · have hvne : v ≠ [] := by
          intro hv0
          subst hv0
          exact hadj ⟨u, rest', by simp⟩
        have hvn : '\n' ∉ v := fun h => hn (by simp [h])
        have hcount : (u ++ '$' :: (v ++ '$' :: rest')).count '$' = rest'.count '$' + 2 := by
          rw [List.count_append, List.count_cons, List.count_append, List.count_cons,
            List.count_eq_zero.2 hu, List.count_eq_zero.2 hv]
          simp
        have hrn : '\n' ∉ rest' := fun h => hn (by simp [h])
        have hradj : ¬ "$$".toList <:+: rest' := by
          intro h
          apply hadj
          exact h.trans ⟨u ++ '$' :: (v ++ ['$']), [], by simp⟩
        have hlen : rest'.length < k := by
          rw [← hk]; simp; omega
        obtain ⟨ihe, iho⟩ := ih rest'.length hlen rest' rfl hrn hradj
        rw [hcount, replace_inline_span _ u v rest' hu hvne hv hvn]
        constructor
        · intro heven
          have := ihe (by omega)
          simp only [List.mem_append, not_or]
          exact ⟨hu, dollar_not_mem_katexInline v hv, this⟩
        · intro hodd
          obtain ⟨pre', tail, hsplit, htail, hrep, hpre⟩ := iho (by omega)
          refine ⟨u ++ '$' :: (v ++ '$' :: pre'), tail, ?_, htail, ?_, ?_⟩
          · rw [hsplit]; simp
          · rw [replace_inline_span _ u v pre' hu hvne hv hvn, hrep]
            simp
          · rw [replace_inline_span _ u v pre' hu hvne hv hvn]
            simp only [List.mem_append, not_or]
            exact ⟨hu, dollar_not_mem_katexInline v hv, hpre⟩

/-- C18 fails as stated: the single-line text `$$a$` contains three `$`; its last `$` closes
the inline span of `a`, and the `$` left in the output is the first one, so the output does
not end with the last `$` followed by the (empty) text after it. -/
theorem renderLatex_odd_counterexample :
    '\n' ∉ "$$a$".toList ∧ "$$a$".toList.count '$' = 3 ∧
      Start.renderLatex "$$a$".toList
        = "$<span class=\"katex-inline\" data-latex=\"a\"></span>".toList ∧
      BuildDocs.renderLatex "$$a$".toList
        = "$<span class=\"katex-inline\" data-latex=\"a\"></span>".toList ∧
      (Start.renderLatex "$$a$".toList).getLast? ≠ some '$' := by
  decide

/-- C18 (amended): for every single-line text that contains an odd number of `$`, no two of
them adjacent, `renderLatex` (of `start.js` and of `build-docs.js`) leaves the last `$` of the
input in the output as a literal character, and the text that follows it is passed through
unchanged: the output is the rendering of the text before the last `$`, which holds no `$`,
then that `$`, then the text after it. -/
theorem renderLatex_odd_dollars (t : Str) (hn : '\n' ∉ t) (hadj : ¬ "$$".toList <:+: t)
    (hodd : Odd (t.count '$')) :
    ∃ pre tail, t = pre ++ '$' :: tail ∧ '$' ∉ tail ∧
      Start.renderLatex t = Start.renderLatex pre ++ '$' :: tail ∧
      '$' ∉ Start.renderLatex pre ∧
      BuildDocs.renderLatex t = BuildDocs.renderLatex pre ++ '$' :: tail ∧
      '$' ∉ BuildDocs.renderLatex pre := by
  obtain ⟨pre, tail, hsplit, htail, hrep, hpre⟩ :=
    (renderInlines_parity t.length t rfl hn hadj).2 (Nat.odd_iff.1 hodd)
  have hpadj : ¬ "$$".toList <:+: pre := by
    intro h
    apply hadj
    rw [hsplit]
    exact h.trans ⟨[], '$' :: tail, by simp⟩
  have h1 : Start.renderLatex t = replace reInlineMath
      (fun latex => katexInline (cleanLatex latex)) t := by
    unfold Start.renderLatex Start.renderInlines Start.renderBlocks
    rw [renderBlocks_eq_self _ t hadj]
  have h2 : Start.renderLatex pre = replace reInlineMath
      (fun latex => katexInline (cleanLatex latex)) pre := by
    unfold Start.renderLatex Start.renderInlines Start.renderBlocks
    rw [renderBlocks_eq_self _ pre hpadj]
  refine ⟨pre, tail, hsplit, htail, ?_, ?_, ?_, ?_⟩
  · rw [h1, h2]; exact hrep
  · rw [h2]; exact hpre
  · show Start.renderLatex t = Start.renderLatex pre ++ '$' :: tail
    rw [h1, h2]; exact hrep
  · show '$' ∉ Start.renderLatex pre
    rw [h2]; exact hpre

/-- C18 (amended) on the text `$a$ and $b`: the third `$` and the `b` after it stay. -/
theorem renderLatex_odd_dollars_witness :
    '\n' ∉ "$a$ and $b".toList ∧ ¬ "$$".toList <:+: "$a$ and $b".toList ∧
      Odd ("$a$ and $b".toList.count '$') ∧
      Start.renderLatex "$a$ and $b".toList
        = "<span class=\"katex-inline\" data-latex=\"a\"></span> and $b".toList ∧
      ∃ pre tail, "$a$ and $b".toList = pre ++ '$' :: tail ∧ '$' ∉ tail ∧
        Start.renderLatex "$a$ and $b".toList = Start.renderLatex pre ++ '$' :: tail ∧
        '$' ∉ Start.renderLatex pre ∧
        BuildDocs.renderLatex "$a$ and $b".toList = BuildDocs.renderLatex pre ++ '$' :: tail ∧
        '$' ∉ BuildDocs.renderLatex pre :=
  ⟨by decide, by decide, by decide, by decide,
    renderLatex_odd_dollars "$a$ and $b".toList (by decide) (by decide) (by decide)⟩

/-! ## The two copies of the protector -/

/-- C21: the `renderLatex` of `build-docs.js` and the `renderLatex` of `start.js` return the
same string for every input text, and so do their two passes. -/
theorem renderLatex_copies_agree (content : Str) :
    BuildDocs.renderLatex content = Start.renderLatex content ∧
      BuildDocs.renderBlocks content = Start.renderBlocks content ∧
      BuildDocs.renderInlines content = Start.renderInlines content :=
  ⟨rfl, rfl, rfl⟩

/-! ## The chain of matching rules -/

theorem self_within (s : Str) : s <:+: s := ⟨[], [], by simp⟩

/-- C22, the code at failing inputs.  In the chain of `findNode` the first two tests are
implied by the last two as the page runs them: exact equality implies decoded equality, which
implies the third and the fourth test, so the block hits if and only if the content is
present and one of its last two tests holds.  But the third test of the page is not the
case-folded whitespace-free equality: on the node `A B` and the target `ab` that rule holds
and the block does not hit (nor does it on the node `A &amp; B` and the target `a&b`), and on
the node `Class` and the target `cla` the block hits while neither that rule nor the
substring rule holds. -/
theorem nodeHit_last_two_tests (rt : Runtime) :
    (∀ (sectionId : Str) (node : RenderNode),
      (ExactRule sectionId node → DecodedRule sectionId node) ∧
      (DecodedRule sectionId node →
        normalizeTitle rt (decodeEntities (cleanNodeTitle node.content))
            = normalizeTitle rt (decodeEntities (trim sectionId)) ∧
          SubstringRule sectionId node) ∧
      (nodeHit rt sectionId node.content = true ↔
        node.content.truthy = true ∧
          (normalizeTitle rt (decodeEntities (cleanNodeTitle node.content))
              = normalizeTitle rt (decodeEntities (trim sectionId)) ∨
            SubstringRule sectionId node))) ∧
    (FoldedRule rt "ab".toList (.mk (.text "A B".toList) "0".toList []) ∧
      nodeHit rt "ab".toList (.text "A B".toList) = false) ∧
    (FoldedRule rt "a&b".toList (.mk (.text "A &amp; B".toList) "0".toList []) ∧
      nodeHit rt "a&b".toList (.text "A &amp; B".toList) = false) ∧
    (¬ FoldedRule rt "cla".toList (.mk (.text "Class".toList) "0".toList []) ∧
      ¬ SubstringRule "cla".toList (.mk (.text "Class".toList) "0".toList []) ∧
      nodeHit rt "cla".toList (.text "Class".toList) = true) := by
  refine ⟨?_, ⟨?_, ?_⟩, ⟨?_, ?_⟩, ⟨?_, ?_, ?_⟩⟩
  · intro sectionId node
    have h12 : ExactRule sectionId node → DecodedRule sectionId node := by
      intro h
      unfold ExactRule at h
      unfold DecodedRule
      rw [h]
    have h23 : DecodedRule sectionId node →
        normalizeTitle rt (decodeEntities (cleanNodeTitle node.content))
            = normalizeTitle rt (decodeEntities (trim sectionId)) ∧
          SubstringRule sectionId node := by
      intro h
      unfold DecodedRule at h
      unfold SubstringRule
      rw [h]
      exact ⟨rfl, Or.inl (self_within _)⟩
    refine ⟨h12, h23, ?_⟩
    rw [nodeHit_iff]
    constructor
    · rintro ⟨hc, h | h | h | h⟩
      · exact ⟨hc, Or.inl (h23 (h12 h)).1⟩
      · exact ⟨hc, Or.inl (h23 h).1⟩
      · exact ⟨hc, Or.inl h⟩
      · exact ⟨hc, Or.inr h⟩
    · rintro ⟨hc, h | h⟩
      · exact ⟨hc, Or.inr (Or.inr (Or.inl h))⟩
      · exact ⟨hc, Or.inr (Or.inr (Or.inr h))⟩
  · rw [foldedRule_ascii rt _ _ (by decide) (by decide)]
    decide
  · rw [nodeHit_ascii rt _ _ (by decide) (by decide)]
    rfl
  · rw [foldedRule_ascii rt _ _ (by decide) (by decide)]
    decide
  · rw [nodeHit_ascii rt _ _ (by decide) (by decide)]
    rfl
  · rw [foldedRule_ascii rt _ _ (by decide) (by decide)]
    decide
  · decide
  · rw [nodeHit_ascii rt _ _ (by decide) (by decide)]
    rfl

/-! ## Empty titles and empty targets -/

theorem decodeEntities_nil : decodeEntities [] = [] := by decide

/-- On a present node with an empty cleaned title the substring rule holds for every target,
and the block of `findNode` hits. -/
theorem hit_of_empty_title (rt : Runtime) (sectionId : Str) (node : RenderNode)
    (hc : node.content.truthy = true) (ht : cleanNodeTitle node.content = []) :
    SubstringRule sectionId node ∧ nodeHit rt sectionId node.content = true := by
  have hs : SubstringRule sectionId node := by
    unfold SubstringRule
    rw [ht, decodeEntities_nil]
    exact Or.inr ⟨[], decodeEntities (trim sectionId), by simp⟩
  exact ⟨hs, (nodeHit_iff rt sectionId node.content).2 ⟨hc, Or.inr (Or.inr (Or.inr hs))⟩⟩

/-- For a target that trims to the empty string the block of `findNode` hits exactly on the
nodes that have content. -/
theorem hit_of_empty_target (rt : Runtime) (sectionId : Str) (hs : trim sectionId = [])
    (content : Content) : nodeHit rt sectionId content = content.truthy := by
  cases hc : content.truthy with
  | true =>
    refine (nodeHit_iff rt sectionId content).2 ⟨hc, Or.inr (Or.inr (Or.inr (Or.inl ?_)))⟩
    rw [hs, decodeEntities_nil]
    exact ⟨[], decodeEntities (cleanNodeTitle content), by simp⟩
  | false =>
    unfold nodeHit
    simp [hc]

/-- C23: for every target, a node whose content is present but whose cleaned title is empty
satisfies the substring rule, so `findNode` (of both viewer pages) returns the node at a
position of the pre-order that is at or before the position of such a node: the first node on
which a test of `findNode` hits; and for a target that trims to the empty string `findNode`
returns the first node in pre-order that has content.  On the tree whose root has the content
`<b></b>`, the root is returned for the target `Intro`; under the root `R&amp;D` the child
`<b></b>` is not reached for the target `R&D`, which the root matches after decoding, nor
under the root `Class` for the target `cla`, on which the third test of the page hits at the
root. -/
theorem findNode_empty_title_or_target (rt : Runtime) :
    (∀ (sectionId : Str) (node : RenderNode), node.content.truthy = true →
      cleanNodeTitle node.content = [] → SubstringRule sectionId node) ∧
    (∀ (sectionId : Str) (root node : RenderNode) (i : Nat),
      (preorder root)[i]? = some node → node.content.truthy = true →
      cleanNodeTitle node.content = [] →
      ∃ k, k ≤ i ∧ Start.findNode rt sectionId root = (preorder root)[k]? ∧
        BuildDocs.findNode rt sectionId root = (preorder root)[k]? ∧
        (∃ n, (preorder root)[k]? = some n ∧ nodeHit rt sectionId n.content = true) ∧
        ∀ m, m < k → ∀ n, (preorder root)[m]? = some n →
          nodeHit rt sectionId n.content = false) ∧
    (∀ (sectionId : Str) (root : RenderNode), trim sectionId = [] →
      Start.findNode rt sectionId root = (preorder root).find? (fun n => n.content.truthy) ∧
        BuildDocs.findNode rt sectionId root
          = (preorder root).find? (fun n => n.content.truthy)) ∧
    Start.findNode rt "Intro".toList
        (.mk (.text "<b></b>".toList) "0".toList [.mk (.text "Intro".toList) "0.1".toList []])
      = some (.mk (.text "<b></b>".toList) "0".toList
          [.mk (.text "Intro".toList) "0.1".toList []]) ∧
    Start.findNode rt "  ".toList
        (.mk .absent "0".toList [.mk (.text "Intro".toList) "0.1".toList []])
      = some (.mk (.text "Intro".toList) "0.1".toList []) ∧
    Start.findNode rt "R&D".toList
        (.mk (.text "R&amp;D".toList) "0".toList
          [.mk (.text "<b></b>".toList) "0.1".toList []])
      = some (.mk (.text "R&amp;D".toList) "0".toList
          [.mk (.text "<b></b>".toList) "0.1".toList []]) ∧
    Start.findNode rt "cla".toList
        (.mk (.text "Class".toList) "0".toList [.mk (.text "<b></b>".toList) "0.1".toList []])
      = some (.mk (.text "Class".toList) "0".toList
          [.mk (.text "<b></b>".toList) "0.1".toList []]) := by
  refine ⟨?_, ?_, ?_, ?_, ?_, ?_, ?_⟩
  · intro sectionId node hc ht
    exact (hit_of_empty_title rt sectionId node hc ht).1
  · intro sectionId root node i hi hc ht
    obtain ⟨k, hk, hf, hn, hm⟩ :=
      find_position (fun n => nodeHit rt sectionId n.content) (preorder root) i node hi
        (hit_of_empty_title rt sectionId node hc ht).2
    refine ⟨k, hk, ?_, ?_, hn, hm⟩
    · rw [findNode_eq_find]; exact hf
    · rw [buildDocs_findNode_eq, findNode_eq_find]; exact hf
  · intro sectionId root hs
    have hfun : (fun n : RenderNode => nodeHit rt sectionId n.content)
        = (fun n : RenderNode => n.content.truthy) := by
      funext n
      exact hit_of_empty_target rt sectionId hs n.content
    rw [buildDocs_findNode_eq, findNode_eq_find, hfun]
    exact ⟨rfl, rfl⟩
  · rw [Start.findNode, nodeHit_ascii rt _ _ (by decide) (by decide)]
    rfl
  · have h0 : nodeHit rt "  ".toList .absent = false := rfl
    have h1 : nodeHit rt "  ".toList (.text "Intro".toList) = true := by
      rw [hit_of_empty_target rt "  ".toList (by decide)]
      rfl
    rw [Start.findNode, h0, Start.findNodeChildren, Start.findNode, h1]
    rfl
  · rw [Start.findNode, nodeHit_ascii rt _ _ (by decide) (by decide)]
    rfl
  · rw [Start.findNode, nodeHit_ascii rt _ _ (by decide) (by decide)]
    rfl

/-! ## Empty titles in the table of contents -/

/-- A text trims to the empty string exactly when all its characters are whitespace. -/
theorem trim_eq_nil_iff (s : Str) : trim s = [] ↔ ∀ c ∈ s, isSpace c = true := by
  have htrim : trim s = (s.dropWhile isSpace).rdropWhile isSpace := rfl
  rw [htrim, List.rdropWhile_eq_nil_iff]
  constructor
  · intro h
    have hnil : s.dropWhile isSpace = [] := by
      by_contra hne
      have hnot := List.head_dropWhile_not isSpace s hne
      rw [h _ (List.head_mem hne)] at hnot
      cases hnot
    exact List.dropWhile_eq_nil_iff.1 hnil
  · intro h c hc
    exact h c ((List.dropWhile_sublist _).subset hc)

/-- The title of an entry of `parseTOC` is non-empty exactly when its line holds a character
that is not whitespace after the hash marks. -/
theorem title_nonempty_iff (text : Str) (e : TocEntry) (he : e ∈ parseTOC text) :
    ∃ line, (tocLines text)[e.line - 1]? = some line ∧
      (e.title ≠ [] ↔ ∃ c ∈ line.dropWhile (fun c => c == '#'), isSpace c = false) := by
  obtain ⟨i, line, h, g, hi, hm, rfl⟩ := (mem_tocOfLines 0 _ e).1 he
  obtain ⟨⟨w, hline, _, _, _, hws, _, _⟩, hh⟩ := matchHeading_some line h g hm
  refine ⟨line, ?_, ?_⟩
  · show (tocLines text)[0 + i + 1 - 1]? = some line
    rw [show 0 + i + 1 - 1 = i by omega]; exact hi
  · have hrep : List.replicate h.length '#' = h := by
      rw [hh]
      symm
      rw [List.eq_replicate_length]
      intro b hb
      simpa using List.mem_takeWhile_imp hb
    have hdrop : line.dropWhile (fun c => c == '#') = w ++ g := by
      have h1 := List.takeWhile_append_dropWhile (fun c => c == '#') line
      rw [← hh] at h1
      have h2 : h ++ line.dropWhile (fun c => c == '#') = h ++ (w ++ g) := by
        rw [h1]
        conv_lhs => rw [hline, hrep, List.append_assoc]
      exact List.append_cancel_left h2
    rw [hdrop]
    show trim g ≠ [] ↔ _
    rw [Ne, trim_eq_nil_iff]
    constructor
    · intro hne
      by_contra hall
      apply hne
      intro c hc
      cases hs : isSpace c with
      | true => rfl
      | false => exact absurd ⟨c, List.mem_append_right _ hc, hs⟩ hall
    · rintro ⟨c, hc, hs⟩ hall
      rcases List.mem_append.1 hc with hc | hc
      · rw [hws c hc] at hs; cases hs
      · rw [hall c hc] at hs; cases hs

/-- C24, the code at a failing input.  The heading pattern `/^(#{1,6})\s+(.+)$/` asks for at
least one character of heading text: the lines `#` and `# ` give no entry.  On the line
`#  `, a hash mark and two spaces, the pattern matches all the same, with the second space as
the text, and `parseTOC` returns an entry whose title, the trimmed text, is empty. -/
theorem parseTOC_empty_title :
    parseTOC "#".toList = [] ∧ parseTOC "# ".toList = [] ∧
      matchHeading "#  ".toList = some ("#".toList, " ".toList) ∧
      (parseTOC "#  ".toList).map (fun e => (e.level, e.title, e.line)) = [(1, [], 1)] := by
  decide

/-! ## Double quotes in the attribute -/

/-- The cleaning chain introduces no double quote. -/
theorem quote_not_mem_cleanLatex (e : Str) (h : '"' ∉ e) : '"' ∉ cleanLatex e := by
  intro hc
  unfold cleanLatex replace at hc
  rcases mem_gsub _ _ _ _ _ hc with h1 | ⟨_, h1⟩
  · rcases mem_gsub _ _ _ _ _ h1 with h2 | ⟨_, h2⟩
    · rcases mem_gsub _ _ _ _ _ h2 with h3 | ⟨_, h3⟩
      · exact h (mem_of_mem_trim _ _ h3)
      · simp at h3
    · revert h2; decide
  · revert h1; decide

/-- Reading the attribute of a placeholder gives back an expression without double quote. -/
theorem dataLatexValue_placeholder (x : Str) (h : '"' ∉ x) :
    dataLatexValue (katexBlock x) = some x ∧ dataLatexValue (katexInline x) = some x := by
  have ht := takeWhile_ne_append '"' x "></div>".toList h
  have ht' := takeWhile_ne_append '"' x "></span>".toList h
  constructor
  · simp [dataLatexValue, katexBlock, List.isPrefixOf]
    exact ht.1
  · simp [dataLatexValue, katexInline, List.isPrefixOf]
    exact ht'.1

/-- On the text `$$e$$`, for a non-empty `e` without `$`, `renderLatex` gives the block
placeholder of `e`. -/
theorem renderLatex_block_eq (e : Str) (hne : e ≠ []) (hd : '$' ∉ e) :
    Start.renderLatex ("$$".toList ++ e ++ "$$".toList) = katexBlock (cleanLatex e) := by
  unfold Start.renderLatex Start.renderInlines
  rw [(renderBlocks_span e hne hd).1]
  exact (replace_eq_self_of_not_mem reInlineMath _ '$' reInlineMath_none_of_ne _
    (dollar_not_mem_katexBlock e hd)).1

/-- C25 fails as stated: for the text `$a"b$` the placeholder is written with the attribute
`data-latex="a"b"`: the cleaned expression `a"b` holds a double quote, nothing escapes it, and
the value read back from the tag is `a`. -/
theorem renderLatex_quote_counterexample :
    Start.renderLatex "$a\"b$".toList
        = "<span class=\"katex-inline\" data-latex=\"a\"b\"></span>".toList ∧
      BuildDocs.renderLatex "$a\"b$".toList
        = "<span class=\"katex-inline\" data-latex=\"a\"b\"></span>".toList ∧
      cleanLatex "a\"b".toList = "a\"b".toList ∧
      '"' ∈ cleanLatex "a\"b".toList ∧
      dataLatexValue (Start.renderLatex "$a\"b$".toList) = some "a".toList ∧
      dataLatexValue (Start.renderLatex "$a\"b$".toList) ≠ some (cleanLatex "a\"b".toList) := by
  decide

/-- C25 (amended): for every matched expression `e` that contains no double quote, the
cleaned expression that `renderLatex` (of `start.js` and of `build-docs.js`) writes inside the
double-quoted `data-latex` attribute of a placeholder contains no double quote, and the text
between the opening quote of the attribute and the next double quote is the cleaned
expression, for the block placeholder of `$$e$$` and for the inline placeholder of `$e$`. -/
theorem renderLatex_attribute_value (e : Str) (hq : '"' ∉ e) :
    '"' ∉ cleanLatex e ∧
      dataLatexValue (katexBlock (cleanLatex e)) = some (cleanLatex e) ∧
      dataLatexValue (katexInline (cleanLatex e)) = some (cleanLatex e) ∧
      (e ≠ [] → '$' ∉ e →
        dataLatexValue (Start.renderLatex ("$$".toList ++ e ++ "$$".toList))
            = some (cleanLatex e) ∧
          dataLatexValue (BuildDocs.renderLatex ("$$".toList ++ e ++ "$$".toList))
            = some (cleanLatex e)) ∧
      (e ≠ [] → '$' ∉ e → '\n' ∉ e →
        dataLatexValue (Start.renderLatex ("$".toList ++ e ++ "$".toList))
            = some (cleanLatex e) ∧
          dataLatexValue (BuildDocs.renderLatex ("$".toList ++ e ++ "$".toList))
            = some (cleanLatex e)) := by
  have hc := quote_not_mem_cleanLatex e hq
  have hv := dataLatexValue_placeholder (cleanLatex e) hc
  refine ⟨hc, hv.1, hv.2, ?_, ?_⟩
  · intro hne hd
    have hr := renderLatex_block_eq e hne hd
    have hb : BuildDocs.renderLatex ("$$".toList ++ e ++ "$$".toList)
        = katexBlock (cleanLatex e) := hr
    rw [hr, hb]
    exact ⟨hv.1, hv.1⟩
  · intro hne hd hn
    have hr := renderLatex_inline_span e hne hd hn
    have hb : BuildDocs.renderLatex ("$".toList ++ e ++ "$".toList)
        = katexInline (cleanLatex e) := hr
    rw [hr, hb]
    exact ⟨hv.2, hv.2⟩

/-- C25 (amended) on the expression ` x^2 `, between double and between single delimiters. -/
theorem renderLatex_attribute_value_witness :
    '"' ∉ " x^2 ".toList ∧ '"' ∉ cleanLatex " x^2 ".toList ∧
      cleanLatex " x^2 ".toList = "x^2".toList ∧
      dataLatexValue (Start.renderLatex "$$ x^2 $$".toList) = some "x^2".toList ∧
      dataLatexValue (BuildDocs.renderLatex "$ x^2 $".toList) = some "x^2".toList ∧
      dataLatexValue (katexBlock (cleanLatex " x^2 ".toList)) = some (cleanLatex " x^2 ".toList) :=
  ⟨by decide, (renderLatex_attribute_value " x^2 ".toList (by decide)).1, by decide, by decide,
    by decide, (renderLatex_attribute_value " x^2 ".toList (by decide)).2.1⟩

end MyMindmap
